import Mathlib

/-!
# NachOS MP4 file-system metadata layer

A shallow embedding of `code/filesys/directory.cc` (the flat directory table and
its path walking) and `code/filesys/filehdr.cc` (the file header with its tree of
sector pointers), followed by theorems about the embedded operations.

Conventions of the embedding.

* C `int` values that may be negative (`-1` as "not found", sector numbers,
  `numBytes`, `numSectors`) are `Int`.
* C strings are `List Char`; reading past the end of the list reads the
  terminating NUL.
* Operations that can hit an `ASSERT`, an invalid sector, an out-of-bounds array
  slot or a division by zero return `Except Fault _`.
* Recursion that follows headers read back from disk takes a fuel argument.
-/

namespace NachOS

/-! ## Constants declared in headers that are not among the sources -/

/-- The compile-time constants of `disk.h`, `filehdr.h`, `directory.h` and
`filesys.h`.  These headers are not among the sources, so the constants are
parameters of the embedding. -/
structure Config where
  /-- bytes per disk sector (`SectorSize`) -/
  SectorSize : Nat
  /-- number of pointer slots in a file header (`NumDirect`) -/
  NumDirect : Nat
  /-- number of entries of a directory created during a walk (`NumDirEntries`) -/
  NumDirEntries : Nat
  /-- bytes of one directory table on disk (`DirectoryFileSize`) -/
  DirectoryFileSize : Int
  /-- longest stored name (`FileNameMaxLen`) -/
  FileNameMaxLen : Nat
  /-- rows of the `path` array filled by `cutPath` (`MaxDepth`) -/
  MaxDepth : Nat
deriving DecidableEq, Repr

/-- Modelled from the spec: `MaxFileSize`, whose defining line in `filehdr.h` is
missing.  The spec gives the capacity in bytes of a level-0 node as
`MaxPointers × blockSize`. -/
def Config.MaxFileSize (cfg : Config) : Nat := cfg.NumDirect * cfg.SectorSize

/-- The constants of the stock NachOS build with the `level` field added to the
header: 128-byte sectors, `(128 - 3 * 4) / 4 = 29` pointers, 64 directory entries
of 16 bytes, names of at most 9 characters; paths of at most 8 components. -/
def nachos : Config :=
  { SectorSize := 128, NumDirect := 29, NumDirEntries := 64,
    DirectoryFileSize := 1024, FileNameMaxLen := 9, MaxDepth := 8 }

/-- What stops an operation before it returns. -/
inductive Fault where
  /-- a sector number the storage device does not have -/
  | badSector (sector : Int)
  /-- an `ASSERT` of the source failed -/
  | assertion
  /-- an array slot outside the array was used -/
  | outOfBounds
  /-- integer division by zero -/
  | divByZero
  /-- the fuel of a recursion over headers read from disk ran out -/
  | outOfFuel
  /-- `cutPath` produced no component, `DirPath[depth-1]` does not exist -/
  | noComponent
deriving DecidableEq, Repr

/-! ## C strings -/

/-- The NUL character that ends a C string. -/
def NUL : Char := Char.ofNat 0

/-- C `strncmp(a, b, n)`: compares at most `n` characters and stops after a NUL.
The result is zero exactly when the compared parts agree. -/
def strncmp : List Char → List Char → Nat → Int
  | _, _, 0 => 0
  | a, b, n + 1 =>
    let ca := a.headD NUL
    let cb := b.headD NUL
    if ca ≠ cb then (ca.toNat : Int) - (cb.toNat : Int)
    else if ca = NUL then 0
    else strncmp a.tail b.tail n

/-- The `n` bytes that C `strncpy(dst, src, n)` writes: the characters of `src`
up to its NUL, then NUL padding. -/
def strncpyBytes : List Char → Nat → List Char
  | _, 0 => []
  | [], n + 1 => NUL :: strncpyBytes [] n
  | c :: cs, n + 1 => if c = NUL then NUL :: strncpyBytes [] n else c :: strncpyBytes cs n

/-- C `strncpy(dst, src, n)`: the first `n` bytes of `dst` are overwritten, the
rest of the array keeps its bytes. -/
def strncpy (dst src : List Char) (n : Nat) : List Char :=
  strncpyBytes src n ++ dst.drop n

/-- Modelled from the spec: `cutPath`, whose definition is not among the sources.
It splits a path into its components, each keeping its leading slash.  The
spec's path syntax is "slash-separated components, leading slash denotes root";
the comment in `Directory::Add` fixes the form of the rows:
`"/test1/test2/test3"` gives `"/test1"`, `"/test2"`, `"/test3"`.  The number of
rows is the depth. -/
def cutPath : List Char → List (List Char)
  | [] => []
  | [c] => [[c]]
  | c :: d :: cs =>
    match cutPath (d :: cs) with
    | p :: ps => if d = '/' then [c] :: p :: ps else (c :: p) :: ps
    | [] => [[c]]

/-- A component as the spec's path syntax allows it: a slash, then at least one
character that is neither a slash nor NUL, at most `FileNameMaxLen` characters
in all (the row of `path` has `FileNameMaxLen + 1` bytes). -/
def validComponent (cfg : Config) (c : List Char) : Bool :=
  c.head? == some '/' && !c.tail.isEmpty &&
    c.tail.all (fun x => x != '/' && x != NUL) && decide (c.length ≤ cfg.FileNameMaxLen)

/-- A path of the spec's syntax: between one and `MaxDepth` valid components. -/
def validPath (cfg : Config) (name : List Char) : Bool :=
  let path := cutPath name
  decide (1 ≤ path.length) && decide (path.length ≤ cfg.MaxDepth) &&
    path.all (validComponent cfg)

/-! ## Directory entries and the directory table -/

/-- One row of the directory table (`DirectoryEntry` of `directory.h`). -/
structure DirectoryEntry where
  inUse : Bool
  isFile : Bool
  sector : Int
  name : List Char
deriving DecidableEq, Repr

/-- The in-memory directory: `tableSize` is the length of `table`. -/
structure Directory where
  table : List DirectoryEntry
deriving DecidableEq, Repr

namespace Directory

/-- The field `tableSize`. -/
def tableSize (self : Directory) : Nat := self.table.length

/-- `Directory::Directory(size)`: the table is zeroed by `memset`, then every
entry is marked unused. -/
def create (cfg : Config) (size : Nat) : Directory :=
  ⟨List.replicate size
    { inUse := false, isFile := false, sector := 0,
      name := List.replicate (cfg.FileNameMaxLen + 1) NUL }⟩

/-- The test of the loop of `Directory::FindIndex`:
`table[i].inUse && !strncmp(table[i].name, name, FileNameMaxLen)`. -/
def bindsName (cfg : Config) (name : List Char) (e : DirectoryEntry) : Bool :=
  e.inUse && strncmp e.name name cfg.FileNameMaxLen == 0

/-- The loop of `Directory::FindIndex` from index `i` on. -/
def findIndexFrom (cfg : Config) (name : List Char) : List DirectoryEntry → Int → Int
  | [], _ => -1
  | e :: es, i =>
    if bindsName cfg name e then i
    else findIndexFrom cfg name es (i + 1)

/-- `Directory::FindIndex`. -/
def FindIndex (cfg : Config) (self : Directory) (name : List Char) : Int :=
  findIndexFrom cfg name self.table 0

/-- `Directory::Find`. -/
def Find (cfg : Config) (self : Directory) (name : List Char) : Int :=
  let i := self.FindIndex cfg name
  if i ≠ -1 then
    match self.table[i.toNat]? with
    | some e => e.sector
    | none => -1
  else -1

/-- The slot-filling loop shared by the `depth == 1` branches of `Add`
(`isFile = TRUE`) and `AddDirectory` (`isFile = FALSE`): the first entry that is
not in use is overwritten.  `none` when the loop ends without a free entry. -/
def fillFirstFree (cfg : Config) (component : List Char) (newSector : Int) (isFile : Bool) :
    List DirectoryEntry → Option (List DirectoryEntry)
  | [] => none
  | e :: es =>
    if !e.inUse then
      some ({ inUse := true, name := strncpy e.name component cfg.FileNameMaxLen,
              sector := newSector, isFile := isFile } :: es)
    else (fillFirstFree cfg component newSector isFile es).map (e :: ·)

/-- The `depth == 1` branch of `Directory::Add` with `path[0] = component`. -/
def addFlat (cfg : Config) (self : Directory) (component : List Char) (newSector : Int) :
    Bool × Directory :=
  match fillFirstFree cfg component newSector true self.table with
  | some t => (true, ⟨t⟩)
  | none => (false, self)

/-- `Directory::Remove`. -/
def Remove (cfg : Config) (self : Directory) (name : List Char) : Bool × Directory :=
  let i := self.FindIndex cfg name
  if i = -1 then (false, self)
  else
    match self.table[i.toNat]? with
    | some e => (true, ⟨self.table.set i.toNat { e with inUse := false }⟩)
    | none => (false, self)

end Directory

/-! ## The free-sector bitmap -/

/-- Modelled from the spec: `PersistentBitmap`, the free map, whose class is not
among the sources.  The spec lists its operations as `freeCount()`,
`findAndSet() → blockIndex | failure`, `clear(blockIndex)` and
`test(blockIndex) → bool`; they are `NumClear`, `FindAndSet`, `Clear` and `Test`
below.  Bit `i` is `true` when sector `i` is marked (in use). -/
structure Bitmap where
  bits : List Bool
deriving DecidableEq, Repr

namespace Bitmap

/-- `NumClear()`: the number of clear bits. -/
def NumClear (bm : Bitmap) : Int := (bm.bits.count false : Nat)

/-- `FindAndSet()`: the index of a clear bit, which is then set (the lowest one,
as in the stock bitmap), or `-1` when every bit is set. -/
def FindAndSet (bm : Bitmap) : Int × Bitmap :=
  let i := bm.bits.findIdx (fun b => !b)
  if i < bm.bits.length then ((i : Int), ⟨bm.bits.set i true⟩) else (-1, bm)

/-- `Test(which)`: the bit, with the range assertion of the bitmap. -/
def Test (bm : Bitmap) (which : Int) : Except Fault Bool :=
  if 0 ≤ which ∧ which < bm.bits.length then .ok (bm.bits.getD which.toNat false)
  else .error .assertion

/-- `Clear(which)`: clears the bit, with the range assertion of the bitmap. -/
def Clear (bm : Bitmap) (which : Int) : Except Fault Bitmap :=
  if 0 ≤ which ∧ which < bm.bits.length then .ok ⟨bm.bits.set which.toNat false⟩
  else .error .assertion

end Bitmap

/-! ## File headers and the disk -/

/-- The on-disk and in-memory file header (`FileHeader` of `filehdr.h` with the
`level` field of this repository).  `dataSectors` has `NumDirect` slots. -/
structure FileHeader where
  numBytes : Int
  numSectors : Int
  level : Nat
  dataSectors : List Int
deriving DecidableEq, Repr

/-- Modelled from the spec: the storage behind `SynchDisk` and `OpenFile`, two
collaborators whose classes are not among the sources.  Per the spec's external
interfaces, extent headers are whole records read and written by sector index
(`hdr`), and a directory table is read and written whole, at offset 0, through a
storage range bound to a file's sector (`dir`, keyed by the sector of the file's
header).  Sector numbers are block indices, so a negative number (such as the
`-1` of a failed `Find`) is not a sector of the device. -/
structure Disk where
  hdr : Int → FileHeader
  dir : Int → List DirectoryEntry

/-- `SynchDisk::ReadSector` of a header record. -/
def Disk.readHeader (d : Disk) (sector : Int) : Except Fault FileHeader :=
  if 0 ≤ sector then .ok (d.hdr sector) else .error (.badSector sector)

/-- `SynchDisk::WriteSector` of a header record. -/
def Disk.writeHeader (d : Disk) (sector : Int) (h : FileHeader) : Except Fault Disk :=
  if 0 ≤ sector then .ok { d with hdr := fun s => if s = sector then h else d.hdr s }
  else .error (.badSector sector)

/-- Modelled from the spec: `divRoundUp` of `utility.h`, which is missing.  The
spec computes the block count as `ceil(sizeBytes / blockSize)`.  `Allocate`
tests for a zero divisor before it calls this. -/
def divRoundUp (n : Int) (s : Nat) : Int := (n + (s : Int) - 1) / (s : Int)

/-- C `int` arithmetic wraps to 32 bits, two's complement. -/
def wrapInt32 (x : Int) : Int := (x + 2147483648) % 4294967296 - 2147483648

/-- The array read `dataSectors[i]`; a slot outside the array is a fault. -/
def slotAt (dataSectors : List Int) (i : Int) : Except Fault Int :=
  if 0 ≤ i then
    match dataSectors[i.toNat]? with
    | some s => .ok s
    | none => .error .outOfBounds
  else .error .outOfBounds

namespace FileHeader

/-- `FileHeader::FileHeader(setlevel)`; `FileHeader::FileHeader()` is
`create cfg 0`.  `memset(dataSectors, -1, ...)` makes every slot `-1`. -/
def create (cfg : Config) (setlevel : Nat) : FileHeader :=
  { numBytes := -1, numSectors := -1, level := setlevel,
    dataSectors := List.replicate cfg.NumDirect (-1) }

/-- `FileHeader::FetchFrom(sector)`. -/
def FetchFrom (d : Disk) (sector : Int) : Except Fault FileHeader := d.readHeader sector

/-- `FileHeader::WriteBack(sector)`. -/
def WriteBack (self : FileHeader) (d : Disk) (sector : Int) : Except Fault Disk :=
  d.writeHeader sector self

/-- `FileHeader::FileLength`. -/
def FileLength (self : FileHeader) : Int := self.numBytes

/-- The `for` loop of `FileHeader::Allocate`, with `todo` iterations left and
`i` the loop variable.  `child` is `none` for `level == 0`; for `level > 0` it
allocates a fresh header of `level - 1` for `MaxFileSize` bytes.  The result
carries the return value, `dataSectors`, the free map and the disk. -/
def allocLoop
    (child : Option (Bitmap → Disk → Except Fault (Bool × FileHeader × Bitmap × Disk))) :
    Nat → Nat → List Int → Bitmap → Disk → Except Fault (Bool × List Int × Bitmap × Disk)
  | 0, _, ds, bm, d => .ok (true, ds, bm, d)
  | todo + 1, i, ds, bm, d =>
    let (s, bm1) := bm.FindAndSet
    let ds1 := ds.set i s
    if s < 0 then .error .assertion
    else
      match child with
      | none => allocLoop child todo (i + 1) ds1 bm1 d
      | some allocChild =>
        match allocChild bm1 d with
        | .error e => .error e
        | .ok (false, _, bm2, d2) => .ok (false, ds1, bm2, d2)
        | .ok (true, f, bm2, d2) =>
          match f.WriteBack d2 s with
          | .error e => .error e
          | .ok d3 => allocLoop child todo (i + 1) ds1 bm2 d3

/-- `FileHeader::Allocate` for a header whose `level` field is `level`.  The
value of the field is passed separately because the recursion descends on it:
`Allocate` below passes `self.level`, and the child is built by
`FileHeader(level - 1)`, so writing it back into the record changes nothing. -/
def allocateAt (cfg : Config) :
    Nat → FileHeader → Int → Bitmap → Disk → Except Fault (Bool × FileHeader × Bitmap × Disk)
  | level, self, fileSize, freeMap, d =>
    if cfg.SectorSize = 0 then .error .divByZero
    else
      let n0 := divRoundUp fileSize cfg.SectorSize
      let n := if n0 > cfg.NumDirect then (cfg.NumDirect : Int) else n0
      let self1 := { self with numBytes := fileSize, numSectors := n, level := level }
      if freeMap.NumClear < n then .ok (false, self1, freeMap, d)
      else
        let child : Option (Bitmap → Disk → Except Fault (Bool × FileHeader × Bitmap × Disk)) :=
          match level with
          | 0 => none
          | l + 1 => some (fun bm dk => allocateAt cfg l (create cfg l) cfg.MaxFileSize bm dk)
        match allocLoop child n.toNat 0 self1.dataSectors freeMap d with
        | .error e => .error e
        | .ok (r, ds, bm, dk) => .ok (r, { self1 with dataSectors := ds }, bm, dk)

/-- `FileHeader::Allocate(freeMap, fileSize)`. -/
def Allocate (cfg : Config) (self : FileHeader) (freeMap : Bitmap) (fileSize : Int) (d : Disk) :
    Except Fault (Bool × FileHeader × Bitmap × Disk) :=
  allocateAt cfg self.level self fileSize freeMap d

/-- The `for` loops of `FileHeader::Deallocate`, with `todo` iterations left and
`i` the loop variable.  `child` is `none` for `level == 0`; otherwise it is
`Deallocate` on a header fetched from disk. -/
def deallocLoop (child : Option (FileHeader → Bitmap → Except Fault Bitmap)) (d : Disk)
    (ds : List Int) : Nat → Nat → Bitmap → Except Fault Bitmap
  | 0, _, bm => .ok bm
  | todo + 1, i, bm =>
    match slotAt ds i with
    | .error e => .error e
    | .ok s =>
      match bm.Test s with
      | .error e => .error e
      | .ok false => .error .assertion
      | .ok true =>
        match child with
        | none =>
          match bm.Clear s with
          | .error e => .error e
          | .ok bm1 => deallocLoop child d ds todo (i + 1) bm1
        | some deallocChild =>
          match FetchFrom d s with
          | .error e => .error e
          | .ok f =>
            match deallocChild f bm with
            | .error e => .error e
            | .ok bm1 =>
              match bm1.Clear s with
              | .error e => .error e
              | .ok bm2 => deallocLoop child d ds todo (i + 1) bm2

/-- `FileHeader::Deallocate(freeMap)`.  The recursion follows the `level` of
headers read from disk, so it is bounded by `fuel`. -/
def Deallocate (d : Disk) : Nat → FileHeader → Bitmap → Except Fault Bitmap
  | 0, _, _ => .error .outOfFuel
  | fuel + 1, self, freeMap =>
    let child : Option (FileHeader → Bitmap → Except Fault Bitmap) :=
      if self.level = 0 then none else some (fun f bm => Deallocate d fuel f bm)
    deallocLoop child d self.dataSectors self.numSectors.toNat 0 freeMap

/-- The local `maxfs` of `ByteToSector` after its loop: `MaxFileSize` multiplied
`level` times in `int` arithmetic. -/
def maxfs (cfg : Config) : Nat → Int
  | 0 => 1
  | l + 1 => wrapInt32 (maxfs cfg l * (cfg.MaxFileSize : Int))

/-- `FileHeader::ByteToSector(offset)`, bounded by `fuel` like `Deallocate`. -/
def ByteToSector (cfg : Config) (d : Disk) : Nat → FileHeader → Int → Except Fault Int
  | 0, _, _ => .error .outOfFuel
  | fuel + 1, self, offset =>
    if self.level = 0 then
      if cfg.SectorSize = 0 then .error .divByZero
      else slotAt self.dataSectors (offset.tdiv cfg.SectorSize)
    else
      let m := maxfs cfg self.level
      if m = 0 then .error .divByZero
      else
        match slotAt self.dataSectors (offset.tdiv m) with
        | .error e => .error e
        | .ok s =>
          match FetchFrom d s with
          | .error e => .error e
          | .ok f => ByteToSector cfg d fuel f (offset.tmod m)

end FileHeader

/-! ## Path walking: `Add` and `AddDirectory` -/

/-- Modelled from the spec: `OpenFile`, whose class is not among the sources.  The
spec describes it as a storage range handle with `readAt` / `writeAt` "against a
byte range bound to a file/sector"; the handle is bound to the file whose header
is in `sector`. -/
structure OpenFile where
  sector : Int
deriving DecidableEq, Repr

/-- `new OpenFile(sector)`: the handle reads the file's header from `sector`, so
a number that is not a sector of the device faults. -/
def OpenFile.create (sector : Int) : Except Fault OpenFile :=
  if 0 ≤ sector then .ok ⟨sector⟩ else .error (.badSector sector)

namespace Directory

/-- `Directory::FetchFrom(file)`: `tableSize` entries are read from offset 0 of
the range; entries the range does not have keep their in-memory value. -/
def FetchFrom (self : Directory) (d : Disk) (file : OpenFile) : Directory :=
  let stored := (d.dir file.sector).take self.tableSize
  ⟨stored ++ self.table.drop stored.length⟩

/-- `Directory::WriteBack(file)`: `tableSize` entries are written at offset 0 of
the range. -/
def WriteBack (self : Directory) (d : Disk) (file : OpenFile) : Disk :=
  { d with dir := fun s =>
      if s = file.sector then self.table ++ (d.dir s).drop self.tableSize else d.dir s }

/-- The first `for` loop of the `else` branches of `Add` and `AddDirectory`:
from `cur = DirPath[i]`, each remaining component but the last is looked up with
`Find`, a handle is opened on the sector found and a fresh directory of
`NumDirEntries` entries is fetched from it.  The result is `DirPath[depth-1]`
and `DirectoryFile`. -/
def walk (cfg : Config) (d : Disk) :
    Directory → List (List Char) → Option OpenFile → Except Fault (Directory × Option OpenFile)
  | cur, [], file => .ok (cur, file)
  | cur, p :: ps, _ =>
    let SectorLocation := cur.Find cfg p
    let next := create cfg cfg.NumDirEntries
    match OpenFile.create SectorLocation with
    | .error e => .error e
    | .ok DirectoryFile => walk cfg d (next.FetchFrom d DirectoryFile) ps (some DirectoryFile)

/-- `Directory::Add(name, newSector)`.  The result carries the return value, the
table of `this` and the disk.  In the `else` branch the call
`DirPath[depth-1]->Add(path[depth-1], newSector)` is given one component, which
`cutPath` returns as it is (`cutPath_component`), so it runs the `depth == 1`
branch. -/
def Add (cfg : Config) (self : Directory) (d : Disk) (name : List Char) (newSector : Int) :
    Except Fault (Bool × Directory × Disk) :=
  match cutPath name with
  | [] => .error .noComponent
  | [component] =>
    let (result, self1) := self.addFlat cfg component newSector
    .ok (result, self1, d)
  | path =>
    match walk cfg d self path.dropLast none with
    | .error e => .error e
    | .ok (_, none) => .error .noComponent
    | .ok (last, some DirectoryFile) =>
      let (result, last1) := last.addFlat cfg (path.getLastD []) newSector
      .ok (result, self, last1.WriteBack d DirectoryFile)

/-- The `depth == 1` branch of `Directory::AddDirectory` with
`path[0] = component`.  The header is allocated and written, and the empty table
is written through a handle on `Sector`, before the table of `this` is searched
for a free entry; the result of `Allocate` is not looked at. -/
def addDirectoryFlat (cfg : Config) (self : Directory) (d : Disk) (component : List Char)
    (Sector : Int) (freeMap : Bitmap) : Except Fault (Bool × Directory × Bitmap × Disk) :=
  let directory := create cfg cfg.NumDirEntries
  match (FileHeader.create cfg 0).Allocate cfg freeMap cfg.DirectoryFileSize d with
  | .error e => .error e
  | .ok (_, dirHeader, freeMap1, d1) =>
    match dirHeader.WriteBack d1 Sector with
    | .error e => .error e
    | .ok d2 =>
      match OpenFile.create Sector with
      | .error e => .error e
      | .ok dirFile =>
        let d3 := directory.WriteBack d2 dirFile
        match fillFirstFree cfg component Sector false self.table with
        | some t => .ok (true, ⟨t⟩, freeMap1, d3)
        | none => .ok (false, self, freeMap1, d3)

/-- `Directory::AddDirectory(name, Sector, freeMap)`. -/
def AddDirectory (cfg : Config) (self : Directory) (d : Disk) (name : List Char)
    (Sector : Int) (freeMap : Bitmap) : Except Fault (Bool × Directory × Bitmap × Disk) :=
  match cutPath name with
  | [] => .error .noComponent
  | [component] => self.addDirectoryFlat cfg d component Sector freeMap
  | path =>
    match walk cfg d self path.dropLast none with
    | .error e => .error e
    | .ok (_, none) => .error .noComponent
    | .ok (last, some DirectoryFile) =>
      match last.addDirectoryFlat cfg d (path.getLastD []) Sector freeMap with
      | .error e => .error e
      | .ok (result, last1, freeMap1, d1) =>
        .ok (result, self, freeMap1, last1.WriteBack d1 DirectoryFile)

end Directory

/-- A disk on which nothing has been written: every header record is the one of
the default constructor, every storage range is empty. -/
def Disk.blank (cfg : Config) : Disk :=
  { hdr := fun _ => FileHeader.create cfg 0, dir := fun _ => [] }

/-! ## Ghost definitions for names -/

/-- The characters of a C string: those before the first NUL. -/
def cstr (s : List Char) : List Char := s.takeWhile (· ≠ NUL)

/-- Two C strings agree on their first `n` characters. -/
def sameName (n : Nat) (a b : List Char) : Bool := (cstr a).take n == (cstr b).take n

/-! ## Ghost definitions for the header tree -/

/-- The pointer slots that a header uses: `dataSectors[0 .. numSectors-1]`. -/
def FileHeader.slots (h : FileHeader) : List Int := h.dataSectors.take h.numSectors.toNat

/-- The block indices held by the tree below a header, in the order in which
`Allocate` takes them: at `level == 0` the data blocks in the slots; at
`level > 0` each slot's block (which stores a child header) followed by the
blocks of the child read from that block.  `fuel` bounds the descent. -/
def treeBlocks (d : Disk) : Nat → FileHeader → List Int
  | 0, _ => []
  | fuel + 1, h =>
    if h.level = 0 then h.slots
    else h.slots.flatMap (fun s => s :: treeBlocks d fuel (d.hdr s))

/-- The shape that `Allocate` builds below a header of level `l`: the slots in
use lie inside the array, and for `l > 0` each of them is a sector number that
stores a header of level `l - 1` with all `NumDirect` slots in use, of the same
shape. -/
def Built (cfg : Config) (d : Disk) : Nat → FileHeader → Prop
  | 0, h => h.level = 0 ∧ h.numSectors.toNat ≤ h.dataSectors.length
  | l + 1, h =>
    h.level = l + 1 ∧ h.numSectors.toNat ≤ h.dataSectors.length ∧
      ∀ s ∈ h.slots, 0 ≤ s ∧ (d.hdr s).numSectors = cfg.NumDirect ∧ Built cfg d l (d.hdr s)

/-- Follows `ByteToSector` and tells whether the slot index it uses lies in
`0 .. numSectors-1` at every header on the way down. -/
def slotsInUse (cfg : Config) (d : Disk) : Nat → FileHeader → Int → Bool
  | 0, _, _ => false
  | fuel + 1, h, offset =>
    if h.level = 0 then
      decide (0 ≤ offset.tdiv cfg.SectorSize ∧ offset.tdiv cfg.SectorSize < h.numSectors)
    else
      let m := FileHeader.maxfs cfg h.level
      let i := offset.tdiv m
      decide (0 ≤ i ∧ i < h.numSectors) &&
        match slotAt h.dataSectors i with
        | .error _ => false
        | .ok s => slotsInUse cfg d fuel (d.hdr s) (offset.tmod m)

/-- What a successful `Allocate` on a header of level `l` has established, from
free map `bm` and disk `d` to the header `h1`, free map `bm1` and disk `d1`: the
tree has the shape `Built`, its blocks are pairwise distinct and were clear in
`bm`, `bm1` is `bm` with exactly these blocks set, and the disk differs from
`d` only in header records stored in these blocks. -/
structure AllocPost (cfg : Config) (l : Nat) (bm : Bitmap) (d : Disk) (h1 : FileHeader)
    (bm1 : Bitmap) (d1 : Disk) : Prop where
  built : Built cfg d1 l h1
  nodup : (treeBlocks d1 (l + 1) h1).Nodup
  free : ∀ x ∈ treeBlocks d1 (l + 1) h1, bm.Test x = .ok false
  marks : ∀ x, bm1.Test x = if x ∈ treeBlocks d1 (l + 1) h1 then .ok true else bm.Test x
  hdrs : ∀ x, x ∉ treeBlocks d1 (l + 1) h1 → d1.hdr x = d.hdr x
  dirs : d1.dir = d.dir

/-- What the loop of `Allocate` at `level > 0` relies on from the allocation of a
child of level `l`: when it returns `TRUE` it satisfies `AllocPost` and the
child uses all `NumDirect` slots. -/
def ChildSpec (cfg : Config) (l : Nat)
    (child : Bitmap → Disk → Except Fault (Bool × FileHeader × Bitmap × Disk)) : Prop :=
  ∀ bm d f bm1 d1, child bm d = .ok (true, f, bm1, d1) →
    AllocPost cfg l bm d f bm1 d1 ∧ f.numSectors = cfg.NumDirect

/-- The number of slots that `Allocate` uses for `fileSize` bytes:
`divRoundUp(fileSize, SectorSize)` cut down to `NumDirect`. -/
def FileHeader.blockCount (cfg : Config) (fileSize : Int) : Int :=
  if divRoundUp fileSize cfg.SectorSize > cfg.NumDirect then (cfg.NumDirect : Int)
  else divRoundUp fileSize cfg.SectorSize

/-- The child allocation that the loop of `Allocate` runs in a header of level
`level`: none at `level == 0`, otherwise `Allocate(freeMap, MaxFileSize)` on a
fresh header of `level - 1`. -/
def FileHeader.allocChild (cfg : Config) :
    Nat → Option (Bitmap → Disk → Except Fault (Bool × FileHeader × Bitmap × Disk))
  | 0 => none
  | l + 1 => some (fun bm dk =>
      FileHeader.allocateAt cfg l (FileHeader.create cfg l) cfg.MaxFileSize bm dk)

/-- What the loop of `Deallocate` at `level > 0` relies on from the recursive
call on a child of level `l`: on a tree of shape `Built` whose blocks are
pairwise distinct and all marked, it returns, and it has cleared exactly the
blocks of that tree. -/
def DeallocSpec (cfg : Config) (d : Disk) (l : Nat)
    (child : FileHeader → Bitmap → Except Fault Bitmap) : Prop :=
  ∀ f bm, Built cfg d l f → (treeBlocks d (l + 1) f).Nodup →
    (∀ x ∈ treeBlocks d (l + 1) f, bm.Test x = .ok true) →
    ∃ bm1, child f bm = .ok bm1 ∧
      ∀ x, bm1.Test x = if x ∈ treeBlocks d (l + 1) f then .ok false else bm.Test x

/-- The number of bytes from offset 0 on that `ByteToSector` resolves in a fully
allocated tree of level `level`: the `MaxFileSize` bytes of the `NumDirect` data
blocks at `level == 0`; at `level > 0` the `NumDirect * MaxFileSize` bytes of
the data blocks below one child of level 1. -/
def FileHeader.reach (cfg : Config) (level : Nat) : Int :=
  if level = 0 then (cfg.MaxFileSize : Int) else (cfg.NumDirect : Int) * (cfg.MaxFileSize : Int)

/-- The data blocks of the tree below a header: at `level == 0` the blocks in the
slots in use; at `level > 0` the data blocks of the children read from the
slots' sectors.  `fuel` bounds the descent. -/
def dataBlocks (d : Disk) : Nat → FileHeader → List Int
  | 0, _ => []
  | fuel + 1, h =>
    if h.level = 0 then h.slots
    else h.slots.flatMap (fun s => dataBlocks d fuel (d.hdr s))

/-! ## Concrete inputs -/

/-- Small constants for worked examples of trees of level 1: sectors of 4 bytes
and 2 pointer slots, so `MaxFileSize` is 8. -/
def tiny : Config :=
  { SectorSize := 4, NumDirect := 2, NumDirEntries := 2,
    DirectoryFileSize := 8, FileNameMaxLen := 9, MaxDepth := 4 }

/-- An unused entry of a zeroed table of the stock build. -/
def freeEntry : DirectoryEntry :=
  { inUse := false, isFile := false, sector := 0, name := List.replicate 10 NUL }

/-- The entry that `Add("/a.txt", 5)` writes into a zeroed slot. -/
def entryA : DirectoryEntry :=
  { inUse := true, isFile := true, sector := 5,
    name := "/a.txt".toList ++ List.replicate 4 NUL }

/-- A directory of capacity 10 after `Add("/a.txt", 5)`: slot 0 binds the name,
nine slots are free. -/
def rootA : Directory := ⟨entryA :: List.replicate 9 freeEntry⟩

/-- The directory `rootA` after a second `Add("/a.txt", 9)`: two entries in use
hold the same name. -/
def rootAA : Directory :=
  ⟨entryA :: { entryA with sector := 9 } :: List.replicate 8 freeEntry⟩

/-- A free map of 108 sectors of which the first eight (0 to 7) are marked. -/
def bm0 : Bitmap := ⟨List.replicate 8 true ++ List.replicate 100 false⟩

/-- A free map of 32 sectors with a single clear bit, sector 31. -/
def bmTight : Bitmap := ⟨List.replicate 31 true ++ [false]⟩

/-- A free map of 32 sectors of which the first two are marked: 30 clear bits. -/
def bm30 : Bitmap := ⟨[true, true] ++ List.replicate 30 false⟩

/-- A free map of 12 sectors of which the first two are marked. -/
def bmSmall : Bitmap :=
  ⟨[true, true, false, false, false, false, false, false, false, false, false, false]⟩

/-- A free map of 22 sectors of which the first two are marked. -/
def bmWide : Bitmap := ⟨[true, true] ++ List.replicate 20 false⟩


/-- The invariant of the spec on a table: the entries in use hold pairwise
different names (as C strings cut to `FileNameMaxLen` characters). -/
def Directory.namesUnique (cfg : Config) (self : Directory) : Bool :=
  decide ((self.table.filter (fun e => e.inUse)).map
    (fun e => (cstr e.name).take cfg.FileNameMaxLen)).Nodup

/-- A directory of capacity 1 whose only slot is in use. -/
def rootFull : Directory := ⟨[entryA]⟩

/-- The free map `bm0` after a level-0 `Allocate` for `DirectoryFileSize` bytes:
sectors 8 to 15 are marked as well. -/
def bm0Dir : Bitmap := ⟨List.replicate 16 true ++ List.replicate 92 false⟩

/-! # Theorems -/

/-! ## Lemmas on strings and `cutPath` -/

theorem strncmp_strncpyBytes (n : Nat) : ∀ (src rest : List Char),
    strncmp (strncpyBytes src n ++ rest) src n = 0 := by
  induction n with
  | zero => intro src rest; simp [strncmp]
  | succ n ih =>
    intro src rest
    cases src with
    | nil => simp [strncpyBytes, strncmp]
    | cons c cs =>
      by_cases hc : c = NUL
      · simp [strncpyBytes, strncmp, hc]
      · simp [strncpyBytes, strncmp, hc, ih]

theorem strncmp_strncpy (dst src : List Char) (n : Nat) :
    strncmp (strncpy dst src n) src n = 0 := by
  unfold strncpy
  exact strncmp_strncpyBytes n src _

theorem cutPath_cons_ne_nil (c : Char) (cs : List Char) : cutPath (c :: cs) ≠ [] := by
  cases cs with
  | nil => simp [cutPath]
  | cons d r =>
    rw [cutPath]
    split <;> [split; skip] <;> simp

/-- A character followed by characters that are not slashes is one component. -/
theorem cutPath_noSlash : ∀ (t : List Char) (c : Char), (∀ x ∈ t, x ≠ '/') →
    cutPath (c :: t) = [c :: t]
  | [], c, _ => by simp [cutPath]
  | d :: r, c, h => by
    have hd : d ≠ '/' := h d (by simp)
    have ih := cutPath_noSlash r d (fun x hx => h x (by simp [hx]))
    rw [cutPath, ih]
    simp [hd]

theorem cutPath_validComponent (cfg : Config) (c : List Char)
    (h : validComponent cfg c = true) : cutPath c = [c] := by
  cases c with
  | nil => simp [validComponent] at h
  | cons a t =>
    simp only [validComponent, Bool.and_eq_true, List.tail_cons, List.all_eq_true] at h
    apply cutPath_noSlash
    intro x hx
    have := h.1.2 x hx
    simpa using this.1

/-! ## Lemmas on the directory table -/

namespace Directory

theorem findIndexFrom_none_iff (cfg : Config) (name : List Char) :
    ∀ (l : List DirectoryEntry) (i : Int), 0 ≤ i →
      (findIndexFrom cfg name l i = -1 ↔ ∀ e ∈ l, bindsName cfg name e = false)
  | [], _, _ => by simp [findIndexFrom]
  | e :: es, i, hi => by
    have ih := findIndexFrom_none_iff cfg name es (i + 1) (by omega)
    by_cases hb : bindsName cfg name e = true
    · simp only [findIndexFrom, hb, if_true]
      constructor
      · intro h; omega
      · intro h; have := h e (by simp); simp [hb] at this
    · simp only [findIndexFrom, hb, if_false, ih]
      simp at hb
      simp [hb]
      exact ih

theorem findIndexFrom_found (cfg : Config) (name : List Char) :
    ∀ (l : List DirectoryEntry) (i : Int), findIndexFrom cfg name l i ≠ -1 →
      ∃ l1 e l2, l = l1 ++ e :: l2 ∧ findIndexFrom cfg name l i = i + (l1.length : Int) ∧
        (∀ x ∈ l1, bindsName cfg name x = false) ∧ bindsName cfg name e = true
  | [], _, h => by simp [findIndexFrom] at h
  | e :: es, i, h => by
    by_cases hb : bindsName cfg name e = true
    · exact ⟨[], e, es, by simp, by simp [findIndexFrom, hb], by simp, hb⟩
    · simp only [findIndexFrom, hb, if_false] at h
      obtain ⟨l1, e1, l2, hl, hf, hn, he⟩ := findIndexFrom_found cfg name es (i + 1) h
      refine ⟨e :: l1, e1, l2, by simp [hl], ?_, ?_, he⟩
      · simp only [findIndexFrom, hb, if_false, hf, List.length_cons]
        push_cast; omega
      · intro x hx
        simp at hx
        rcases hx with rfl | hx
        · simpa using hb
        · exact hn x hx

theorem findIndexFrom_append (cfg : Config) (name : List Char) :
    ∀ (l1 l2 : List DirectoryEntry) (i : Int), (∀ x ∈ l1, bindsName cfg name x = false) →
      findIndexFrom cfg name (l1 ++ l2) i = findIndexFrom cfg name l2 (i + (l1.length : Int))
  | [], l2, i, _ => by simp
  | e :: es, l2, i, h => by
    have he : bindsName cfg name e = false := h e (by simp)
    have ih := findIndexFrom_append cfg name es l2 (i + 1) (fun x hx => h x (by simp [hx]))
    have hlen : i + 1 + (es.length : Int) = i + ((e :: es).length : Int) := by
      simp only [List.length_cons]; push_cast; omega
    rw [← hlen, ← ih]
    simp [findIndexFrom, he]

/-- What `fillFirstFree` does when some entry is free: the entries before the
first free one are in use and stay, the free one is overwritten. -/
theorem fillFirstFree_some (cfg : Config) (c : List Char) (s : Int) (f : Bool) :
    ∀ (l : List DirectoryEntry), (∃ e ∈ l, e.inUse = false) →
      ∃ l1 e l2, l = l1 ++ e :: l2 ∧ (∀ x ∈ l1, x.inUse = true) ∧ e.inUse = false ∧
        fillFirstFree cfg c s f l = some (l1 ++
          { inUse := true, name := strncpy e.name c cfg.FileNameMaxLen,
            sector := s, isFile := f } :: l2)
  | [], h => by simp at h
  | e :: es, h => by
    by_cases hu : e.inUse = true
    · have h2 : ∃ x ∈ es, x.inUse = false := by
        obtain ⟨x, hx, hxu⟩ := h
        simp at hx
        rcases hx with rfl | hx
        · simp [hu] at hxu
        · exact ⟨x, hx, hxu⟩
      obtain ⟨l1, e1, l2, hl, hin, he, hfill⟩ := fillFirstFree_some cfg c s f es h2
      refine ⟨e :: l1, e1, l2, by simp [hl], ?_, he, ?_⟩
      · intro x hx
        simp at hx
        rcases hx with rfl | hx
        · exact hu
        · exact hin x hx
      · simp [fillFirstFree, hu, hfill]
    · simp at hu
      exact ⟨[], e, es, by simp, by simp, hu, by simp [fillFirstFree, hu]⟩

theorem fillFirstFree_none (cfg : Config) (c : List Char) (s : Int) (f : Bool) :
    ∀ (l : List DirectoryEntry), (∀ e ∈ l, e.inUse = true) →
      fillFirstFree cfg c s f l = none
  | [], _ => rfl
  | e :: es, h => by
    have he : e.inUse = true := h e (by simp)
    simp [fillFirstFree, he, fillFirstFree_none cfg c s f es (fun x hx => h x (by simp [hx]))]

end Directory

/-! ## Flat `Add`, `Find` and `Remove` -/

namespace Directory

theorem Add_flat (cfg : Config) (self : Directory) (d : Disk) (name : List Char) (s : Int)
    (hname : validComponent cfg name = true) :
    self.Add cfg d name s = .ok ((self.addFlat cfg name s).1, (self.addFlat cfg name s).2, d) := by
  simp only [Add, cutPath_validComponent cfg name hname]

/-- C1 (amended): on a table with a free slot, for a valid single-component name
that no entry in use binds yet, `Add(name, s)` returns success and `Find(name)`
on the resulting table returns `s`. -/
theorem add_then_find (cfg : Config) (self : Directory) (d : Disk) (name : List Char) (s : Int)
    (hfree : ∃ e ∈ self.table, e.inUse = false)
    (hname : validComponent cfg name = true)
    (hnew : self.FindIndex cfg name = -1) :
    ∃ self1, self.Add cfg d name s = .ok (true, self1, d) ∧ self1.Find cfg name = s := by
  obtain ⟨l1, e, l2, hl, hin, -, hfill⟩ :=
    fillFirstFree_some cfg name s true self.table hfree
  have hnone : ∀ x ∈ l1, bindsName cfg name x = false := by
    have := (findIndexFrom_none_iff cfg name self.table 0 (le_refl 0)).1 hnew
    intro x hx
    exact this x (by simp [hl, hx])
  refine ⟨⟨l1 ++ { inUse := true, name := strncpy e.name name cfg.FileNameMaxLen,
                    sector := s, isFile := true } :: l2⟩, ?_, ?_⟩
  · rw [Add_flat cfg self d name s hname]
    simp [addFlat, hfill]
  · have hidx : findIndexFrom cfg name
        (l1 ++ { inUse := true, name := strncpy e.name name cfg.FileNameMaxLen,
                 sector := s, isFile := true } :: l2) 0 = (l1.length : Int) := by
      rw [findIndexFrom_append cfg name l1 _ 0 hnone]
      simp [findIndexFrom, bindsName, strncmp_strncpy]
    have hne : ((l1.length : Int)) ≠ -1 := by omega
    simp only [Find, FindIndex, hidx, hne, ne_eq, not_false_eq_true, if_true, Int.toNat_ofNat]
    rw [List.getElem?_append_right (le_refl _)]
    simp

/-- A witness of `add_then_find`: the empty table of capacity 10 and `"/a.txt"`. -/
theorem add_then_find_witness :
    ∃ self1, (create nachos 10).Add nachos (Disk.blank nachos) "/a.txt".toList 5
        = .ok (true, self1, Disk.blank nachos) ∧ self1.Find nachos "/a.txt".toList = 5 :=
  add_then_find nachos (create nachos 10) (Disk.blank nachos) "/a.txt".toList 5
    ⟨freeEntry, by decide, rfl⟩ (by decide) (by decide)

/-- C1 as stated fails: `rootA` has nine free slots and `"/a.txt"` is a valid
single-component name, `Add("/a.txt", 9)` returns success, yet `Find("/a.txt")`
on the resulting table returns the sector `5` of the older entry and not `9`. -/
theorem add_then_find_stale :
    (∃ e ∈ rootA.table, e.inUse = false) ∧ validComponent nachos "/a.txt".toList = true ∧
      rootA.Add nachos (Disk.blank nachos) "/a.txt".toList 9
        = .ok (true, rootAA, Disk.blank nachos) ∧
      rootAA.Find nachos "/a.txt".toList = 5 ∧
      ¬ ∃ self1 d1, rootA.Add nachos (Disk.blank nachos) "/a.txt".toList 9
          = .ok (true, self1, d1) ∧ self1.Find nachos "/a.txt".toList = 9 := by
  have hadd : rootA.Add nachos (Disk.blank nachos) "/a.txt".toList 9
      = .ok (true, rootAA, Disk.blank nachos) := by
    rw [Add_flat nachos rootA _ _ 9 (by decide)]
    have h1 : (rootA.addFlat nachos "/a.txt".toList 9) = (true, rootAA) := by decide
    rw [h1]
  refine ⟨⟨freeEntry, by decide, rfl⟩, by decide, hadd, by decide, ?_⟩
  rintro ⟨self1, d1, h, hf⟩
  rw [hadd] at h
  injection h with h
  injection h with _ h
  injection h with h _
  subst h
  revert hf
  decide

/-- C2 at the failing input: `rootA` binds `"/a.txt"` in slot 0, and
`Add("/a.txt", 9)` returns `TRUE` and writes a second entry of the same name into
slot 1, where the comment of `Directory::Add` promises `FALSE`. -/
theorem add_duplicate_accepted :
    rootA.FindIndex nachos "/a.txt".toList = 0 ∧
      rootA.Add nachos (Disk.blank nachos) "/a.txt".toList 9
        = .ok (true, rootAA, Disk.blank nachos) ∧
      rootAA ≠ rootA := by
  refine ⟨by decide, ?_, by decide⟩
  rw [Add_flat nachos rootA _ _ 9 (by decide)]
  have h1 : (rootA.addFlat nachos "/a.txt".toList 9) = (true, rootAA) := by decide
  rw [h1]

/-- C3: on a table whose slots are all in use, `Add(name, s)` with a valid
single-component name returns failure and leaves the table (and the disk)
unchanged; this holds whether or not the name is bound. -/
theorem add_full (cfg : Config) (self : Directory) (d : Disk) (name : List Char) (s : Int)
    (hfull : ∀ e ∈ self.table, e.inUse = true)
    (hname : validComponent cfg name = true) :
    self.Add cfg d name s = .ok (false, self, d) := by
  rw [Add_flat cfg self d name s hname]
  simp [addFlat, fillFirstFree_none cfg name s true self.table hfull]

/-- A witness of `add_full`: a table of one slot, in use. -/
theorem add_full_witness :
    (⟨[entryA]⟩ : Directory).Add nachos (Disk.blank nachos) "/b".toList 7
      = .ok (false, ⟨[entryA]⟩, Disk.blank nachos) :=
  add_full nachos ⟨[entryA]⟩ (Disk.blank nachos) "/b".toList 7 (by decide) (by decide)

end Directory

namespace Directory

/-- What a successful `Remove` does: the first entry that binds the name loses
its `inUse` flag. -/
theorem Remove_success (cfg : Config) (self : Directory) (name : List Char)
    (hrem : (self.Remove cfg name).1 = true) :
    ∃ l1 e l2, self.table = l1 ++ e :: l2 ∧ (∀ x ∈ l1, bindsName cfg name x = false) ∧
      bindsName cfg name e = true ∧
      self.Remove cfg name = (true, ⟨l1 ++ { e with inUse := false } :: l2⟩) := by
  by_cases hi : self.FindIndex cfg name = -1
  · simp [Remove, hi] at hrem
  · obtain ⟨l1, e, l2, hl, hf, hn, he⟩ := findIndexFrom_found cfg name self.table 0 hi
    refine ⟨l1, e, l2, hl, hn, he, ?_⟩
    have hidx : self.FindIndex cfg name = (l1.length : Int) := by
      simpa [FindIndex] using hf
    have hne : ((l1.length : Int)) ≠ -1 := by omega
    simp only [Remove, hidx, hne, if_false, Int.toNat_ofNat, hl]
    rw [List.getElem?_append_right (le_refl _)]
    simp

theorem Remove_absent (cfg : Config) (self : Directory) (name : List Char)
    (h : ∀ e ∈ self.table, bindsName cfg name e = false) :
    self.FindIndex cfg name = -1 ∧ self.Remove cfg name = (false, self) := by
  have hi : self.FindIndex cfg name = -1 :=
    (findIndexFrom_none_iff cfg name self.table 0 (le_refl 0)).2 h
  exact ⟨hi, by simp [Remove, hi]⟩

/-- C6 (amended): on a table in which at most one entry in use binds the name,
if `Remove(name)` returns success then `FindIndex(name)` on the resulting table
returns `-1` and a second `Remove(name)` returns failure. -/
theorem remove_then_findIndex (cfg : Config) (self : Directory) (name : List Char)
    (huniq : self.table.countP (bindsName cfg name) ≤ 1)
    (hrem : (self.Remove cfg name).1 = true) :
    (self.Remove cfg name).2.FindIndex cfg name = -1 ∧
      ((self.Remove cfg name).2.Remove cfg name).1 = false := by
  obtain ⟨l1, e, l2, hl, hn, he, hr⟩ := Remove_success cfg self name hrem
  have hl2 : ∀ x ∈ l2, bindsName cfg name x = false := by
    rw [hl, List.countP_append, List.countP_cons_of_pos _ _ he] at huniq
    have h0 : List.countP (bindsName cfg name) l2 = 0 := by omega
    have := List.countP_eq_zero.1 h0
    intro x hx
    simpa using this x hx
  have hall : ∀ x ∈ (l1 ++ { e with inUse := false } :: l2), bindsName cfg name x = false := by
    intro x hx
    simp at hx
    rcases hx with hx | rfl | hx
    · exact hn x hx
    · simp [bindsName]
    · exact hl2 x hx
  have := Remove_absent cfg ⟨l1 ++ { e with inUse := false } :: l2⟩ name hall
  rw [hr]
  exact ⟨this.1, by rw [this.2]⟩

/-- A witness of `remove_then_findIndex`: `rootA` binds `"/a.txt"` once. -/
theorem remove_then_findIndex_witness :
    (rootA.Remove nachos "/a.txt".toList).2.FindIndex nachos "/a.txt".toList = -1 ∧
      ((rootA.Remove nachos "/a.txt".toList).2.Remove nachos "/a.txt".toList).1 = false :=
  remove_then_findIndex nachos rootA "/a.txt".toList (by decide) (by decide)

/-- C6 as stated fails: `rootAA` holds the name in two entries in use;
`Remove("/a.txt")` returns success, after which `FindIndex("/a.txt")` returns `1`
and a second `Remove("/a.txt")` returns success again. -/
theorem remove_leaves_duplicate :
    (rootAA.Remove nachos "/a.txt".toList).1 = true ∧
      (rootAA.Remove nachos "/a.txt".toList).2.FindIndex nachos "/a.txt".toList = 1 ∧
      ((rootAA.Remove nachos "/a.txt".toList).2.Remove nachos "/a.txt".toList).1 = true := by
  decide

end Directory

/-! ## Path walking -/

namespace Directory

/-- Every component that `cutPath` returns is split into itself alone, so the
call `Add(path[depth-1], ...)` of the `else` branch takes the `depth == 1`
branch with `path[0] = path[depth-1]`. -/
theorem cutPath_component : ∀ (name : List Char), ∀ p ∈ cutPath name, cutPath p = [p] := by
  have key : ∀ (name : List Char), ∀ p ∈ cutPath name,
      ∃ c t, p = c :: t ∧ ∀ x ∈ t, x ≠ '/' := by
    intro name
    induction name with
    | nil => simp [cutPath]
    | cons c cs ih =>
      cases cs with
      | nil => intro p hp; simp [cutPath] at hp; exact ⟨c, [], hp, by simp⟩
      | cons d r =>
        intro p hp
        rw [cutPath] at hp
        split at hp
        · rename_i q qs hq
          have hq1 : ∃ c t, q = c :: t ∧ ∀ x ∈ t, x ≠ '/' := ih q (by simp [hq])
          by_cases hd : d = '/'
          · simp only [hd, if_true, List.mem_cons] at hp
            rcases hp with rfl | rfl | hp
            · exact ⟨c, [], rfl, by simp⟩
            · exact hq1
            · exact ih p (by simp [hq, hp])
          · simp only [hd, if_false, List.mem_cons] at hp
            rcases hp with rfl | hp
            · obtain ⟨c1, t1, rfl, ht1⟩ := hq1
              -- the first component of the rest starts with `d`, which is no slash
              have hhead : c1 = d := by
                cases r with
                | nil => simp [cutPath] at hq; exact hq.1.1.symm
                | cons d2 r2 =>
                  rw [cutPath] at hq
                  split at hq
                  · split at hq <;> simp at hq <;> exact hq.1.1.symm
                  · simp at hq; exact hq.1.1.symm
              exact ⟨c, c1 :: t1, rfl, by
                intro x hx
                simp at hx
                rcases hx with rfl | hx
                · rw [hhead]; exact hd
                · exact ht1 x hx⟩
            · exact ih p (by simp [hq, hp])
        · simp at hp; exact ⟨c, [], hp, by simp⟩
  intro name p hp
  obtain ⟨c, t, rfl, ht⟩ := key name p hp
  exact cutPath_noSlash t c ht

theorem walk_append (cfg : Config) (d : Disk) :
    ∀ (pre rest : List (List Char)) (cur : Directory) (f : Option OpenFile),
      walk cfg d cur (pre ++ rest) f =
        match walk cfg d cur pre f with
        | .error e => .error e
        | .ok (T, g) => walk cfg d T rest g
  | [], rest, cur, f => by simp [walk]
  | p :: ps, rest, cur, f => by
    simp only [List.cons_append, walk]
    cases OpenFile.create (cur.Find cfg p) with
    | error e => rfl
    | ok file => exact walk_append cfg d ps rest _ _

/-- `Add` on a path of two or more components. -/
theorem Add_deep (cfg : Config) (self : Directory) (d : Disk) (name : List Char) (s : Int)
    (a b : List Char) (rest : List (List Char)) (hp : cutPath name = a :: b :: rest) :
    self.Add cfg d name s =
      match walk cfg d self (a :: b :: rest).dropLast none with
      | .error e => .error e
      | .ok (_, none) => .error .noComponent
      | .ok (last, some DirectoryFile) =>
        .ok ((last.addFlat cfg ((a :: b :: rest).getLastD []) s).1, self,
          (last.addFlat cfg ((a :: b :: rest).getLastD []) s).2.WriteBack d DirectoryFile) := by
  simp only [Add, hp]

/-- When the walk over the components before `p` reaches a table in which
`Find(p)` returns `-1`, and `p` is not the last component, `Add` does not return
failure: it opens a storage handle on sector `-1`, the value that `Find`
returned, which the device does not have, and the call ends with that fault. -/
theorem add_missing_parent (cfg : Config) (self : Directory) (d : Disk) (name : List Char)
    (s : Int) (pre post : List (List Char)) (p : List Char) (T : Directory)
    (f : Option OpenFile)
    (hpath : cutPath name = pre ++ p :: post) (hpost : post ≠ [])
    (hwalk : walk cfg d self pre none = .ok (T, f))
    (hmiss : T.Find cfg p = -1) :
    self.Add cfg d name s = .error (.badSector (-1)) := by
  obtain ⟨a, b, rest, hab⟩ : ∃ a b rest, pre ++ p :: post = a :: b :: rest := by
    cases pre with
    | nil =>
      cases post with
      | nil => exact absurd rfl hpost
      | cons q qs => exact ⟨p, q, qs, rfl⟩
    | cons a pre1 =>
      cases pre1 with
      | nil => exact ⟨a, p, post, rfl⟩
      | cons b pre2 => exact ⟨a, b, pre2 ++ p :: post, rfl⟩
  have hdrop : (pre ++ p :: post).dropLast = pre ++ p :: post.dropLast := by
    rw [List.dropLast_append_of_ne_nil _ (by simp), List.dropLast_cons_of_ne_nil hpost]
  rw [Add_deep cfg self d name s a b rest (hpath.trans hab), ← hab, hdrop,
    walk_append, hwalk]
  simp [walk, hmiss, OpenFile.create]

/-- A witness of `add_missing_parent`: `"/x/y"` on an empty root. -/
theorem add_missing_parent_witness :
    (create nachos 10).Add nachos (Disk.blank nachos) "/x/y".toList 5
      = .error (.badSector (-1)) :=
  add_missing_parent nachos (create nachos 10) (Disk.blank nachos) "/x/y".toList 5
    [] ["/y".toList] "/x".toList (create nachos 10) none (by decide) (by decide) rfl (by decide)

/-- C4 at the failing input: `"/x/y"` is a valid path of depth 2 (at most
`MaxDepth`) whose first component does not resolve in the empty root, and `Add`
returns no failure value: the `-1` that `Find` returned is handed to
`new OpenFile`, so the handle on the unresolved location is opened, and the
device rejects it. -/
theorem add_missing_parent_opens_handle :
    validPath nachos "/x/y".toList = true ∧ (cutPath "/x/y".toList).length = 2 ∧
      (create nachos 10).Find nachos "/x".toList = -1 ∧
      (create nachos 10).Add nachos (Disk.blank nachos) "/x/y".toList 5
        = .error (.badSector (-1)) ∧
      ¬ ∃ self1 d1, (create nachos 10).Add nachos (Disk.blank nachos) "/x/y".toList 5
          = .ok (false, self1, d1) := by
  refine ⟨by decide, by decide, by decide, rfl, ?_⟩
  rintro ⟨self1, d1, h⟩
  have h2 : (create nachos 10).Add nachos (Disk.blank nachos) "/x/y".toList 5
      = .error (.badSector (-1)) := rfl
  rw [h2] at h
  cases h

end Directory

namespace Directory

theorem fillFirstFree_length (cfg : Config) (c : List Char) (s : Int) (f : Bool) :
    ∀ (l l1 : List DirectoryEntry), fillFirstFree cfg c s f l = some l1 → l1.length = l.length
  | [], l1, h => by simp [fillFirstFree] at h
  | e :: es, l1, h => by
    by_cases hu : e.inUse = true
    · simp only [fillFirstFree, hu, Bool.not_true, Bool.false_eq_true, if_false,
        Option.map_eq_some'] at h
      obtain ⟨l2, h2, rfl⟩ := h
      simp [fillFirstFree_length cfg c s f es l2 h2]
    · simp at hu
      simp [fillFirstFree, hu] at h
      subst h
      simp

/-- After the slot-filling loop has stored a component that no entry bound
before, `Find` of that component returns the stored sector. -/
theorem Find_fillFirstFree (cfg : Config) (c : List Char) (s : Int) (f : Bool)
    (l l1 : List DirectoryEntry) (hfill : fillFirstFree cfg c s f l = some l1)
    (hnew : findIndexFrom cfg c l 0 = -1) :
    Find cfg ⟨l1⟩ c = s := by
  have hfree : ∃ e ∈ l, e.inUse = false := by
    by_contra hcon
    push_neg at hcon
    have := fillFirstFree_none cfg c s f l (by simpa using hcon)
    rw [this] at hfill
    cases hfill
  obtain ⟨a, e, b, hl, -, -, hfill2⟩ := fillFirstFree_some cfg c s f l hfree
  have hnone : ∀ x ∈ a, bindsName cfg c x = false := by
    have := (findIndexFrom_none_iff cfg c l 0 (le_refl 0)).1 hnew
    intro x hx
    exact this x (by simp [hl, hx])
  rw [hfill2] at hfill
  injection hfill with hfill
  subst hfill
  have hidx : findIndexFrom cfg c
      (a ++ { inUse := true, name := strncpy e.name c cfg.FileNameMaxLen,
              sector := s, isFile := f } :: b) 0 = (a.length : Int) := by
    rw [findIndexFrom_append cfg c a _ 0 hnone]
    simp [findIndexFrom, bindsName, strncmp_strncpy]
  have hne : ((a.length : Int)) ≠ -1 := by omega
  simp only [Find, FindIndex, hidx, hne, ne_eq, not_false_eq_true, if_true, Int.toNat_ofNat]
  rw [List.getElem?_append_right (le_refl _)]
  simp

theorem FetchFrom_WriteBack (cfg : Config) (d : Disk) (x : Directory) (file : OpenFile) :
    (create cfg x.tableSize).FetchFrom (x.WriteBack d file) file = x := by
  cases x with
  | mk t =>
    simp [FetchFrom, WriteBack, tableSize, create]

/-- What a returning `depth == 1` branch of `AddDirectory` has done. -/
theorem addDirectoryFlat_ok (cfg : Config) (self : Directory) (d : Disk) (c : List Char)
    (t : Int) (bm : Bitmap) (r : Bool) (self1 : Directory) (bm1 : Bitmap) (d1 : Disk)
    (h : self.addDirectoryFlat cfg d c t bm = .ok (r, self1, bm1, d1)) :
    ∃ ra hd dA dB,
      (FileHeader.create cfg 0).Allocate cfg bm cfg.DirectoryFileSize d = .ok (ra, hd, bm1, dA) ∧
      0 ≤ t ∧ hd.WriteBack dA t = .ok dB ∧
      d1 = (create cfg cfg.NumDirEntries).WriteBack dB ⟨t⟩ ∧
      ((r = true ∧ fillFirstFree cfg c t false self.table = some self1.table) ∨
       (r = false ∧ fillFirstFree cfg c t false self.table = none ∧ self1 = self)) := by
  unfold addDirectoryFlat at h
  split at h
  · cases h
  · rename_i ra hd bmA dA hA
    split at h
    · cases h
    · rename_i dB hB
      have ht : 0 ≤ t := by
        by_contra hneg
        simp [FileHeader.WriteBack, Disk.writeHeader, hneg] at hB
      simp only [OpenFile.create, ht, if_true] at h
      split at h
      · rename_i tb hfill
        injection h with h
        simp only [Prod.mk.injEq] at h
        obtain ⟨rfl, rfl, rfl, rfl⟩ := h
        exact ⟨ra, hd, dA, dB, hA, ht, hB, rfl, Or.inl ⟨rfl, hfill⟩⟩
      · rename_i hfill
        injection h with h
        simp only [Prod.mk.injEq] at h
        obtain ⟨rfl, rfl, rfl, rfl⟩ := h
        exact ⟨ra, hd, dA, dB, hA, ht, hB, rfl, Or.inr ⟨rfl, hfill, rfl⟩⟩

end Directory

namespace Directory

theorem create_free (cfg : Config) (n : Nat) (c : List Char) :
    findIndexFrom cfg c (create cfg n).table 0 = -1 := by
  apply (findIndexFrom_none_iff cfg c _ 0 (le_refl 0)).2
  intro e he
  simp only [create, List.mem_replicate] at he
  simp [he.2, bindsName]

theorem cutPath_two_aux (tb : List Char) : ∀ (t : List Char) (c : Char),
    (∀ x ∈ t, x ≠ '/') →
      cutPath (c :: (t ++ '/' :: tb)) = (c :: t) :: cutPath ('/' :: tb)
  | [], c, _ => by
    have hne := cutPath_cons_ne_nil '/' tb
    simp only [List.nil_append]
    rw [cutPath]
    split
    · rename_i p ps hp
      simp [hp]
    · rename_i hp
      exact absurd hp hne
  | d :: r, c, h => by
    have hd : d ≠ '/' := h d (by simp)
    have ih := cutPath_two_aux tb r d (fun x hx => h x (by simp [hx]))
    simp only [List.cons_append] at ih ⊢
    rw [cutPath, ih]
    simp [hd]

/-- Two valid components written one after the other are split into these two. -/
theorem cutPath_two (cfg : Config) (a b : List Char) (ha : validComponent cfg a = true)
    (hb : validComponent cfg b = true) : cutPath (a ++ b) = [a, b] := by
  cases a with
  | nil => simp [validComponent] at ha
  | cons c t =>
    cases b with
    | nil => simp [validComponent] at hb
    | cons c2 tb =>
      simp only [validComponent, Bool.and_eq_true, List.tail_cons, List.all_eq_true,
        List.head?_cons, beq_iff_eq, Option.some.injEq] at ha hb
      obtain ⟨⟨⟨-, -⟩, hta⟩, -⟩ := ha
      obtain ⟨⟨⟨hc2, -⟩, htb⟩, -⟩ := hb
      subst hc2
      have h1 := cutPath_two_aux tb t c (fun x hx => by simpa using (hta x hx).1)
      have h2 := cutPath_noSlash tb '/' (fun x hx => by simpa using (htb x hx).1)
      simp only [List.cons_append]
      rw [h1, h2]

/-- C5 (amended): let `dir` and `leaf` be valid components (`"/sub"` and
`"/file.txt"` in the spec's scenario).  After `AddDirectory(dir, t, freeMap)` has
returned success on a root with a free slot in which no entry bound `dir`
before, `Add(dir ++ leaf, s)` on the same root returns success and leaves the
root table as it is, and the table reloaded from sector `t` answers `Find` for
the stored component `leaf` (with its slash) with `s`. -/
theorem add_under_new_directory (cfg : Config) (root root1 : Directory) (d d1 : Disk)
    (freeMap freeMap1 : Bitmap) (t s : Int) (dir leaf : List Char)
    (hdir : validComponent cfg dir = true) (hleaf : validComponent cfg leaf = true)
    (hslots : 0 < cfg.NumDirEntries)
    (hnew : root.FindIndex cfg dir = -1)
    (hmk : root.AddDirectory cfg d dir t freeMap = .ok (true, root1, freeMap1, d1)) :
    ∃ d2, root1.Add cfg d1 (dir ++ leaf) s = .ok (true, root1, d2) ∧
      ((create cfg cfg.NumDirEntries).FetchFrom d2 ⟨t⟩).Find cfg leaf = s := by
  have hc1 : cutPath dir = [dir] := cutPath_validComponent cfg dir hdir
  have hc2 : cutPath (dir ++ leaf) = [dir, leaf] := cutPath_two cfg dir leaf hdir hleaf
  simp only [AddDirectory, hc1] at hmk
  obtain ⟨ra, hd, dA, dB, -, ht, -, hd1, hfill⟩ :=
    addDirectoryFlat_ok cfg root d _ t freeMap true root1 freeMap1 d1 hmk
  rcases hfill with ⟨-, hfill⟩ | ⟨hr, -⟩
  swap
  · cases hr
  -- the root now resolves `dir` to `t`
  have hfind : root1.Find cfg dir = t :=
    Find_fillFirstFree cfg _ t false root.table root1.table hfill hnew
  -- the table stored at `t` is the empty one
  have hsub : (create cfg cfg.NumDirEntries).FetchFrom d1 ⟨t⟩ = create cfg cfg.NumDirEntries := by
    have := FetchFrom_WriteBack cfg dB (create cfg cfg.NumDirEntries) ⟨t⟩
    rw [← hd1] at this
    simpa [tableSize, create] using this
  -- the leaf goes into the empty table
  have hfree : ∃ e ∈ (create cfg cfg.NumDirEntries).table, e.inUse = false := by
    refine ⟨_, List.mem_replicate.2 ⟨by omega, rfl⟩, rfl⟩
  obtain ⟨lt, hlf⟩ : ∃ lt, fillFirstFree cfg leaf s true
      (create cfg cfg.NumDirEntries).table = some lt := by
    obtain ⟨a, e, b, -, -, -, h⟩ := fillFirstFree_some cfg leaf s true _ hfree
    exact ⟨_, h⟩
  have hlen := fillFirstFree_length cfg _ s true _ _ hlf
  have hleafFind := Find_fillFirstFree cfg _ s true _ _ hlf
    (create_free cfg cfg.NumDirEntries _)
  refine ⟨(⟨lt⟩ : Directory).WriteBack d1 ⟨t⟩, ?_, ?_⟩
  · rw [Add_deep cfg root1 d1 _ s _ _ [] hc2]
    have hlast : List.getLastD [dir, leaf] [] = leaf := rfl
    simp only [List.dropLast, walk, hfind, OpenFile.create, ht, if_true, hsub, addFlat, hlast,
      hlf]
  · have hrt := FetchFrom_WriteBack cfg d1 ⟨lt⟩ ⟨t⟩
    simp only [tableSize, hlen] at hrt
    simp only [create, List.length_replicate] at hrt
    simp only [create]
    rw [hrt]
    exact hleafFind

set_option maxRecDepth 100000 in
/-- A witness of `add_under_new_directory`: the spec's scenario on an empty root
of capacity 10 with `dir = "/sub"`, `leaf = "/file.txt"`, `t = 7` and `s = 12`. -/
theorem add_under_new_directory_witness :
    ∃ root1 freeMap1 d1 d2,
      (create nachos 10).AddDirectory nachos (Disk.blank nachos) "/sub".toList 7 bm0
        = .ok (true, root1, freeMap1, d1) ∧
      root1.Add nachos d1 "/sub/file.txt".toList 12 = .ok (true, root1, d2) ∧
      ((create nachos 64).FetchFrom d2 ⟨7⟩).Find nachos "/file.txt".toList = 12 := by
  have hmk : ∃ root1 freeMap1 d1,
      (create nachos 10).AddDirectory nachos (Disk.blank nachos) "/sub".toList 7 bm0
        = .ok (true, root1, freeMap1, d1) := ⟨_, _, _, rfl⟩
  obtain ⟨root1, freeMap1, d1, hmk⟩ := hmk
  obtain ⟨d2, h1, h2⟩ := add_under_new_directory nachos (create nachos 10) root1
    (Disk.blank nachos) d1 bm0 freeMap1 7 12 "/sub".toList "/file.txt".toList
    (by decide) (by decide) (by decide) (by decide) hmk
  exact ⟨root1, freeMap1, d1, d2, hmk, h1, h2⟩

set_option maxRecDepth 100000 in
/-- C5 as stated fails: in the spec's scenario (`AddDirectory("/sub", 7, ...)`,
then `Add("/sub/file.txt", 12)`, both successful) the table reloaded from sector
`7` answers `Find("file.txt")` with `-1`, not `12`; the leaf is stored and found
as `"/file.txt"`. -/
theorem add_under_new_directory_leaf_name :
    ∃ root1 freeMap1 d1 d2,
      (create nachos 10).AddDirectory nachos (Disk.blank nachos) "/sub".toList 7 bm0
        = .ok (true, root1, freeMap1, d1) ∧
      root1.Add nachos d1 "/sub/file.txt".toList 12 = .ok (true, root1, d2) ∧
      ((create nachos 64).FetchFrom d2 ⟨7⟩).Find nachos "file.txt".toList = -1 ∧
      ((create nachos 64).FetchFrom d2 ⟨7⟩).Find nachos "/file.txt".toList = 12 := by
  refine ⟨_, _, _, _, rfl, rfl, ?_, ?_⟩
  · decide
  · decide

end Directory

/-! ## Lemmas on the free map -/

namespace Bitmap

theorem Test_ok_iff (bm : Bitmap) (x : Int) (v : Bool) :
    bm.Test x = .ok v ↔ 0 ≤ x ∧ x < bm.bits.length ∧ bm.bits.getD x.toNat false = v := by
  unfold Test
  by_cases h : 0 ≤ x ∧ x < bm.bits.length
  · simp [h]
  · simp only [h, if_false]
    constructor
    · intro h1; cases h1
    · intro h1; exact absurd ⟨h1.1, h1.2.1⟩ h

/-- Two free maps on which `Test` agrees everywhere are equal. -/
theorem ext_Test (a b : Bitmap) (h : ∀ x, a.Test x = b.Test x) : a = b := by
  have hlen : a.bits.length = b.bits.length := by
    by_contra hne
    rcases Nat.lt_or_gt_of_ne hne with hlt | hlt
    · have h1 := h (a.bits.length : Int)
      simp [Test, hlt] at h1
    · have h1 := h (b.bits.length : Int)
      simp [Test, hlt] at h1
  cases a with
  | mk as =>
    cases b with
    | mk bs =>
      congr 1
      apply List.ext_getElem hlen
      intro n h1 h2
      have h3 := h (n : Int)
      simp only [Test] at h3
      have hn1 : (0 : Int) ≤ n ∧ (n : Int) < (as.length : Int) := ⟨by omega, by exact_mod_cast h1⟩
      have hn2 : (0 : Int) ≤ n ∧ (n : Int) < (bs.length : Int) := ⟨by omega, by exact_mod_cast h2⟩
      simp only [hn1, hn2, and_self, if_true, Int.toNat_ofNat] at h3
      injection h3 with h3
      simpa [List.getD_eq_getElem?_getD, List.getElem?_eq_getElem h1,
        List.getElem?_eq_getElem h2] using h3

/-- The effect of a successful `FindAndSet`: the bit returned was clear and is
now set, every other bit is as before. -/
theorem FindAndSet_spec (bm bm1 : Bitmap) (s : Int) (h : bm.FindAndSet = (s, bm1))
    (hs : ¬ s < 0) :
    bm.Test s = .ok false ∧ ∀ x, bm1.Test x = if x = s then .ok true else bm.Test x := by
  unfold FindAndSet at h
  by_cases hlt : List.findIdx (fun b => !b) bm.bits < bm.bits.length
  · simp only [hlt, if_true, Prod.mk.injEq] at h
    obtain ⟨rfl, rfl⟩ := h
    have hbit := List.findIdx_getElem (w := hlt)
    simp only [Bool.not_eq_true'] at hbit
    constructor
    · rw [Test_ok_iff]
      refine ⟨by omega, by exact_mod_cast hlt, ?_⟩
      simp [List.getD_eq_getElem?_getD, List.getElem?_eq_getElem hlt, hbit]
    · intro x
      by_cases hx : x = (List.findIdx (fun b => !b) bm.bits : Int)
      · subst hx
        simp [Test, hlt, List.getD_eq_getElem?_getD]
      · simp only [hx, if_false, Test, List.length_set]
        by_cases hr : 0 ≤ x ∧ x < (bm.bits.length : Int)
        · simp only [hr, and_self, if_true]
          have hne : List.findIdx (fun b => !b) bm.bits ≠ x.toNat := by omega
          simp [List.getD_eq_getElem?_getD, List.getElem?_set, hne]
        · simp [hr]
  · simp only [hlt, if_false, Prod.mk.injEq] at h
    omega

/-- The effect of a successful `Clear`. -/
theorem Clear_spec (bm bm1 : Bitmap) (s : Int) (h : bm.Clear s = .ok bm1) :
    ∀ x, bm1.Test x = if x = s then .ok false else bm.Test x := by
  unfold Clear at h
  by_cases hr : 0 ≤ s ∧ s < (bm.bits.length : Int)
  · simp only [hr, and_self, if_true] at h
    injection h with h
    subst h
    intro x
    by_cases hx : x = s
    · subst hx
      have : x.toNat < bm.bits.length := by omega
      simp [Test, hr, List.getD_eq_getElem?_getD, this]
    · simp only [hx, if_false, Test, List.length_set]
      by_cases hr2 : 0 ≤ x ∧ x < (bm.bits.length : Int)
      · simp only [hr2, and_self, if_true]
        have hne : s.toNat ≠ x.toNat := by omega
        simp [List.getD_eq_getElem?_getD, List.getElem?_set, hne]
      · simp [hr2]
  · simp [hr] at h

theorem Clear_ok (bm : Bitmap) (s : Int) (v : Bool) (h : bm.Test s = .ok v) :
    ∃ bm1, bm.Clear s = .ok bm1 := by
  rw [Test_ok_iff] at h
  exact ⟨⟨bm.bits.set s.toNat false⟩, by simp [Clear, h.1, h.2.1]⟩

end Bitmap

/-! ## Frame lemmas for the header tree -/

theorem flatMap_congr_mem {α β : Type} (l : List α) (f g : α → List β)
    (h : ∀ a ∈ l, f a = g a) : l.flatMap f = l.flatMap g := by
  induction l with
  | nil => rfl
  | cons a as ih =>
    simp only [List.flatMap_cons]
    rw [h a (by simp), ih (fun b hb => h b (by simp [hb]))]

theorem treeBlocks_level_zero (d : Disk) (fuel : Nat) (h : FileHeader) (hl : h.level = 0) :
    treeBlocks d (fuel + 1) h = h.slots := by
  simp [treeBlocks, hl]

theorem treeBlocks_level_pos (d : Disk) (fuel : Nat) (h : FileHeader) (hl : ¬ h.level = 0) :
    treeBlocks d (fuel + 1) h =
      h.slots.flatMap (fun s => s :: treeBlocks d fuel (d.hdr s)) := by
  rw [treeBlocks]
  simp only [hl, if_false]

theorem slot_mem_treeBlocks (d : Disk) (fuel : Nat) (h : FileHeader) (hl : ¬ h.level = 0)
    (s : Int) (hs : s ∈ h.slots) : s ∈ treeBlocks d (fuel + 1) h := by
  rw [treeBlocks_level_pos d fuel h hl, List.mem_flatMap]
  exact ⟨s, hs, by simp⟩

theorem child_mem_treeBlocks (d : Disk) (fuel : Nat) (h : FileHeader) (hl : ¬ h.level = 0)
    (s : Int) (hs : s ∈ h.slots) (x : Int) (hx : x ∈ treeBlocks d fuel (d.hdr s)) :
    x ∈ treeBlocks d (fuel + 1) h := by
  rw [treeBlocks_level_pos d fuel h hl, List.mem_flatMap]
  exact ⟨s, hs, by simp [hx]⟩

theorem treeBlocks_frame (d d1 : Disk) : ∀ (fuel : Nat) (h : FileHeader),
    (∀ x ∈ treeBlocks d fuel h, d1.hdr x = d.hdr x) →
      treeBlocks d1 fuel h = treeBlocks d fuel h
  | 0, _, _ => rfl
  | fuel + 1, h, hx => by
    by_cases hl : h.level = 0
    · rw [treeBlocks_level_zero d1 fuel h hl, treeBlocks_level_zero d fuel h hl]
    · rw [treeBlocks_level_pos d1 fuel h hl, treeBlocks_level_pos d fuel h hl]
      apply flatMap_congr_mem
      intro s hs
      have hs1 : d1.hdr s = d.hdr s := hx s (slot_mem_treeBlocks d fuel h hl s hs)
      rw [hs1, treeBlocks_frame d d1 fuel (d.hdr s)]
      intro x hxm
      exact hx x (child_mem_treeBlocks d fuel h hl s hs x hxm)

theorem Built_frame (cfg : Config) (d d1 : Disk) : ∀ (l : Nat) (h : FileHeader),
    (∀ x ∈ treeBlocks d (l + 1) h, d1.hdr x = d.hdr x) → Built cfg d l h → Built cfg d1 l h
  | 0, _, _, hb => hb
  | l + 1, h, hx, hb => by
    obtain ⟨hl, hn, hc⟩ := hb
    have hl0 : ¬ h.level = 0 := by omega
    refine ⟨hl, hn, ?_⟩
    intro s hs
    have hs1 : d1.hdr s = d.hdr s := hx s (slot_mem_treeBlocks d (l + 1) h hl0 s hs)
    obtain ⟨h0, hfull, hbs⟩ := hc s hs
    rw [hs1]
    refine ⟨h0, hfull, Built_frame cfg d d1 l (d.hdr s) ?_ hbs⟩
    intro x hxm
    exact hx x (child_mem_treeBlocks d (l + 1) h hl0 s hs x hxm)

/-! ## The loop of `Allocate` -/

namespace FileHeader

theorem drop_take_succ (ds : List Int) (i todo : Nat) (s : Int) (h : ds[i]? = some s) :
    (ds.drop i).take (todo + 1) = s :: (ds.drop (i + 1)).take todo := by
  have hi : i < ds.length := by
    by_contra hcon
    rw [List.getElem?_eq_none (by omega)] at h
    cases h
  have hs : ds[i] = s := by
    rw [List.getElem?_eq_getElem hi] at h
    exact Option.some.inj h
  rw [List.drop_eq_getElem_cons hi, hs]
  simp

/-- The loop of `Allocate` at `level == 0`: it never returns `FALSE` and leaves
the disk alone; the slots it fills are distinct blocks that were clear. -/
theorem allocLoop_none : ∀ (todo i : Nat) (ds : List Int) (bm : Bitmap) (d : Disk)
    (r : Bool) (ds1 : List Int) (bm1 : Bitmap) (d1 : Disk),
    allocLoop none todo i ds bm d = .ok (r, ds1, bm1, d1) → i + todo ≤ ds.length →
      r = true ∧ d1 = d ∧ ds1.length = ds.length ∧ (∀ j, j < i → ds1[j]? = ds[j]?) ∧
      ((ds1.drop i).take todo).Nodup ∧
      (∀ x ∈ (ds1.drop i).take todo, bm.Test x = .ok false) ∧
      (∀ x, bm1.Test x = if x ∈ (ds1.drop i).take todo then .ok true else bm.Test x)
  | 0, i, ds, bm, d, r, ds1, bm1, d1, h, _ => by
    simp only [allocLoop, Except.ok.injEq, Prod.mk.injEq] at h
    obtain ⟨rfl, rfl, rfl, rfl⟩ := h
    simp
  | todo + 1, i, ds, bm, d, r, ds1, bm1, d1, h, hlen => by
    cases hfs : bm.FindAndSet with
    | mk s bmA =>
      simp only [allocLoop, hfs] at h
      by_cases hs : s < 0
      · simp [hs] at h
      · simp only [hs, if_false] at h
        obtain ⟨hF1, hF2⟩ := Bitmap.FindAndSet_spec bm bmA s hfs hs
        obtain ⟨hr, hd, hl, hpre, hnd, hfree, hmarks⟩ :=
          allocLoop_none todo (i + 1) (ds.set i s) bmA d r ds1 bm1 d1 h
            (by simp only [List.length_set]; omega)
        have hi : ds1[i]? = some s := by
          rw [hpre i (by omega)]
          simp [List.getElem?_set]
          omega
        have hS := drop_take_succ ds1 i todo s hi
        have hsA : bmA.Test s = .ok true := by simp [hF2 s]
        have hnot : s ∉ (ds1.drop (i + 1)).take todo := by
          intro hmem
          have := hfree s hmem
          rw [hsA] at this
          cases this
        refine ⟨hr, hd, by simpa using hl, ?_, ?_, ?_, ?_⟩
        · intro j hj
          rw [hpre j (by omega)]
          have : i ≠ j := by omega
          simp [List.getElem?_set, this]
        · rw [hS]
          exact List.nodup_cons.2 ⟨hnot, hnd⟩
        · intro x hx
          rw [hS] at hx
          simp only [List.mem_cons] at hx
          rcases hx with rfl | hx
          · exact hF1
          · have h1 := hfree x hx
            rw [hF2 x] at h1
            by_cases hxs : x = s
            · simp [hxs] at h1
            · simpa [hxs] using h1
        · intro x
          rw [hS, hmarks x, hF2 x]
          by_cases hx1 : x ∈ (ds1.drop (i + 1)).take todo
          · simp [hx1]
          · by_cases hxs : x = s
            · simp [hxs]
            · simp [hx1, hxs]

end FileHeader

namespace FileHeader

theorem writeHeader_ok (d d1 : Disk) (s : Int) (f : FileHeader)
    (h : f.WriteBack d s = .ok d1) :
    0 ≤ s ∧ d1.hdr s = f ∧ (∀ x, x ≠ s → d1.hdr x = d.hdr x) ∧ d1.dir = d.dir := by
  unfold WriteBack Disk.writeHeader at h
  by_cases hs : 0 ≤ s
  · simp only [hs, if_true, Except.ok.injEq] at h
    subst h
    refine ⟨hs, by simp, ?_, rfl⟩
    intro x hx
    simp [hx]
  · simp [hs] at h

/-- The loop of `Allocate` at `level > 0`, for a child allocation that satisfies
`ChildSpec`. -/
theorem allocLoop_some (cfg : Config) (l : Nat)
    (child : Bitmap → Disk → Except Fault (Bool × FileHeader × Bitmap × Disk))
    (hchild : ChildSpec cfg l child) :
    ∀ (todo i : Nat) (ds : List Int) (bm : Bitmap) (d : Disk)
      (ds1 : List Int) (bm1 : Bitmap) (d1 : Disk),
      allocLoop (some child) todo i ds bm d = .ok (true, ds1, bm1, d1) →
      i + todo ≤ ds.length →
        ds1.length = ds.length ∧ (∀ j, j < i → ds1[j]? = ds[j]?) ∧
        (((ds1.drop i).take todo).flatMap
            (fun s => s :: treeBlocks d1 (l + 1) (d1.hdr s))).Nodup ∧
        (∀ x ∈ ((ds1.drop i).take todo).flatMap
            (fun s => s :: treeBlocks d1 (l + 1) (d1.hdr s)), bm.Test x = .ok false) ∧
        (∀ x, bm1.Test x =
          if x ∈ ((ds1.drop i).take todo).flatMap
            (fun s => s :: treeBlocks d1 (l + 1) (d1.hdr s)) then .ok true else bm.Test x) ∧
        (∀ x, x ∉ ((ds1.drop i).take todo).flatMap
            (fun s => s :: treeBlocks d1 (l + 1) (d1.hdr s)) → d1.hdr x = d.hdr x) ∧
        d1.dir = d.dir ∧
        (∀ s ∈ (ds1.drop i).take todo,
          0 ≤ s ∧ (d1.hdr s).numSectors = cfg.NumDirect ∧ Built cfg d1 l (d1.hdr s))
  | 0, i, ds, bm, d, ds1, bm1, d1, h, _ => by
    simp only [allocLoop, Except.ok.injEq, Prod.mk.injEq, true_and] at h
    obtain ⟨rfl, rfl, rfl⟩ := h
    simp
  | todo + 1, i, ds, bm, d, ds1, bm1, d1, h, hlen => by
    cases hfs : bm.FindAndSet with
    | mk s bmA =>
      simp only [allocLoop, hfs] at h
      by_cases hs : s < 0
      · simp [hs] at h
      · simp only [hs, if_false] at h
        obtain ⟨hF1, hF2⟩ := Bitmap.FindAndSet_spec bm bmA s hfs hs
        -- the allocation of the child
        cases hc : child bmA d with
        | error e => simp [hc] at h
        | ok res =>
          obtain ⟨rc, f, bmB, dB⟩ := res
          cases rc with
          | false => simp [hc] at h
          | true =>
            simp only [hc] at h
            obtain ⟨P, hfull⟩ := hchild bmA d f bmB dB hc
            cases hw : f.WriteBack dB s with
            | error e => simp [hw] at h
            | ok dC =>
              simp only [hw] at h
              obtain ⟨hs0, hCs, hCx, hCdir⟩ := writeHeader_ok dB dC s f hw
              obtain ⟨hl, hpre, hnd, hfree, hmarks, hhdrs, hdirs, hbuilt⟩ :=
                allocLoop_some cfg l child hchild todo (i + 1) (ds.set i s) bmB dC ds1 bm1 d1 h
                  (by simp only [List.length_set]; omega)
              have hi : ds1[i]? = some s := by
                rw [hpre i (by omega)]
                simp [List.getElem?_set]
                omega
              have hS := drop_take_succ ds1 i todo s hi
              -- abbreviations
              generalize hBc : treeBlocks dB (l + 1) f = Bc at *
              generalize hB1 : ((ds1.drop (i + 1)).take todo).flatMap
                (fun s => s :: treeBlocks d1 (l + 1) (d1.hdr s)) = B1 at *
              have hPfree : ∀ x ∈ Bc, bmA.Test x = .ok false := by
                intro x hx; exact P.free x (by rw [hBc]; exact hx)
              have hPmarks : ∀ x, bmB.Test x = if x ∈ Bc then .ok true else bmA.Test x := by
                intro x; have := P.marks x; rw [hBc] at this; exact this
              have hPhdrs : ∀ x, x ∉ Bc → dB.hdr x = d.hdr x := by
                intro x hx; exact P.hdrs x (by rw [hBc]; exact hx)
              have hPnodup : Bc.Nodup := by have := P.nodup; rw [hBc] at this; exact this
              have hsA : bmA.Test s = .ok true := by simp [hF2 s]
              have ha : s ∉ Bc := by
                intro hmem
                have := hPfree s hmem
                rw [hsA] at this
                cases this
              have hsB : bmB.Test s = .ok true := by simp [hPmarks s, ha, hsA]
              have hb : s ∉ B1 := by
                intro hmem
                have := hfree s hmem
                rw [hsB] at this
                cases this
              have hcdisj : ∀ x ∈ Bc, x ∉ B1 := by
                intro x hx hx1
                have h1 := hfree x hx1
                rw [hPmarks x] at h1
                simp [hx] at h1
              have hd1s : d1.hdr s = f := by rw [hhdrs s hb, hCs]
              have he : ∀ x ∈ Bc, d1.hdr x = dB.hdr x := by
                intro x hx
                rw [hhdrs x (hcdisj x hx), hCx x (by rintro rfl; exact ha hx)]
              have hf : treeBlocks d1 (l + 1) (d1.hdr s) = Bc := by
                rw [hd1s, ← hBc]
                exact treeBlocks_frame dB d1 (l + 1) f (by rw [hBc]; exact he)
              have hB : ((ds1.drop i).take (todo + 1)).flatMap
                  (fun s => s :: treeBlocks d1 (l + 1) (d1.hdr s)) = s :: (Bc ++ B1) := by
                rw [hS, List.flatMap_cons, hf, hB1]
                simp
              rw [hB]
              refine ⟨by simpa using hl, ?_, ?_, ?_, ?_, ?_, ?_, ?_⟩
              · intro j hj
                rw [hpre j (by omega)]
                have : i ≠ j := by omega
                simp [List.getElem?_set, this]
              · rw [List.nodup_cons]
                refine ⟨by simp [ha, hb], ?_⟩
                rw [List.nodup_append]
                exact ⟨hPnodup, hnd, fun x hx hx1 => hcdisj x hx hx1⟩
              · intro x hx
                simp only [List.mem_cons, List.mem_append] at hx
                rcases hx with rfl | hx | hx
                · exact hF1
                · have h1 := hPfree x hx
                  rw [hF2 x] at h1
                  by_cases hxs : x = s
                  · simp [hxs] at h1
                  · simpa [hxs] using h1
                · have h1 := hfree x hx
                  rw [hPmarks x] at h1
                  by_cases hxc : x ∈ Bc
                  · simp [hxc] at h1
                  · simp only [hxc, if_false] at h1
                    rw [hF2 x] at h1
                    by_cases hxs : x = s
                    · simp [hxs] at h1
                    · simpa [hxs] using h1
              · intro x
                rw [hmarks x, hPmarks x, hF2 x]
                by_cases hx1 : x ∈ B1
                · simp [hx1]
                · by_cases hxc : x ∈ Bc
                  · simp [hxc]
                  · by_cases hxs : x = s
                    · simp [hxs]
                    · simp [hx1, hxc, hxs]
              · intro x hx
                simp only [List.mem_cons, List.mem_append, not_or] at hx
                rw [hhdrs x hx.2.2, hCx x hx.1, hPhdrs x hx.2.1]
              · rw [hdirs, hCdir, P.dirs]
              · intro s1 hs1
                rw [hS] at hs1
                simp only [List.mem_cons] at hs1
                rcases hs1 with rfl | hs1
                · refine ⟨hs0, by rw [hd1s]; exact hfull, ?_⟩
                  rw [hd1s]
                  exact Built_frame cfg dB d1 l f (by rw [hBc]; exact he) P.built
                · exact hbuilt s1 hs1

end FileHeader

namespace FileHeader

/-- The value that `Allocate` stores in `numSectors`. -/
theorem divRoundUp_MaxFileSize (cfg : Config) (hss : cfg.SectorSize ≠ 0) :
    divRoundUp cfg.MaxFileSize cfg.SectorSize = cfg.NumDirect := by
  unfold divRoundUp Config.MaxFileSize
  have hpos : (0 : Int) < cfg.SectorSize := by
    have : 0 < cfg.SectorSize := Nat.pos_of_ne_zero hss
    exact_mod_cast this
  have h1 : ((cfg.NumDirect * cfg.SectorSize : Nat) : Int) + (cfg.SectorSize : Int) - 1
      = ((cfg.SectorSize : Int) - 1) + (cfg.NumDirect : Int) * (cfg.SectorSize : Int) := by
    push_cast; ring
  rw [h1, Int.add_mul_ediv_right _ _ (by omega), Int.ediv_eq_zero_of_lt (by omega) (by omega)]
  simp

theorem allocateAt_unfold (cfg : Config) (level : Nat) (self : FileHeader) (fileSize : Int)
    (freeMap : Bitmap) (d : Disk) :
    allocateAt cfg level self fileSize freeMap d =
      if cfg.SectorSize = 0 then .error .divByZero
      else
        let n0 := divRoundUp fileSize cfg.SectorSize
        let n := if n0 > cfg.NumDirect then (cfg.NumDirect : Int) else n0
        let self1 := { self with numBytes := fileSize, numSectors := n, level := level }
        if freeMap.NumClear < n then .ok (false, self1, freeMap, d)
        else
          let child : Option (Bitmap → Disk → Except Fault (Bool × FileHeader × Bitmap × Disk)) :=
            match level with
            | 0 => none
            | l + 1 => some (fun bm dk => allocateAt cfg l (create cfg l) cfg.MaxFileSize bm dk)
          match allocLoop child n.toNat 0 self1.dataSectors freeMap d with
          | .error e => .error e
          | .ok (r, ds, bm, dk) => .ok (r, { self1 with dataSectors := ds }, bm, dk) := by
  cases level <;> rw [allocateAt]

theorem allocateAt_ok (cfg : Config) (level : Nat) (self : FileHeader) (fileSize : Int)
    (freeMap : Bitmap) (d : Disk) (r : Bool) (h1 : FileHeader) (bm1 : Bitmap) (d1 : Disk)
    (h : allocateAt cfg level self fileSize freeMap d = .ok (r, h1, bm1, d1)) :
    cfg.SectorSize ≠ 0 ∧ h1.numBytes = fileSize ∧ h1.numSectors = blockCount cfg fileSize ∧
      h1.level = level ∧
      ((freeMap.NumClear < blockCount cfg fileSize ∧ r = false ∧ bm1 = freeMap ∧ d1 = d ∧
          h1.dataSectors = self.dataSectors) ∨
       (¬ freeMap.NumClear < blockCount cfg fileSize ∧
          allocLoop (allocChild cfg level)
            (blockCount cfg fileSize).toNat 0 self.dataSectors freeMap d
            = .ok (r, h1.dataSectors, bm1, d1))) := by
  rw [allocateAt_unfold] at h
  by_cases hss : cfg.SectorSize = 0
  · simp [hss] at h
  · simp only [hss, if_false] at h
    by_cases hc : freeMap.NumClear < blockCount cfg fileSize
    · have hc1 := hc
      unfold blockCount at hc1
      simp only [hc1, if_true, Except.ok.injEq, Prod.mk.injEq] at h
      obtain ⟨rfl, rfl, rfl, rfl⟩ := h
      exact ⟨hss, rfl, rfl, rfl, Or.inl ⟨hc, rfl, rfl, rfl, rfl⟩⟩
    · have hc1 := hc
      unfold blockCount at hc1
      simp only [hc1, if_false] at h
      split at h
      · cases h
      · rename_i r2 ds bm dk heq
        simp only [Except.ok.injEq, Prod.mk.injEq] at h
        obtain ⟨rfl, rfl, rfl, rfl⟩ := h
        refine ⟨hss, rfl, rfl, rfl, Or.inr ⟨hc, ?_⟩⟩
        cases level <;> exact heq

end FileHeader

namespace FileHeader

theorem blockCount_toNat_le (cfg : Config) (fileSize : Int) :
    (blockCount cfg fileSize).toNat ≤ cfg.NumDirect := by
  unfold blockCount
  split <;> omega

theorem blockCount_MaxFileSize (cfg : Config) (hss : cfg.SectorSize ≠ 0) :
    blockCount cfg cfg.MaxFileSize = cfg.NumDirect := by
  unfold blockCount
  rw [divRoundUp_MaxFileSize cfg hss]
  simp

theorem create_length (cfg : Config) (l : Nat) :
    (create cfg l).dataSectors.length = cfg.NumDirect := by
  simp [create]

/-- A successful `Allocate` on a header of level `level` establishes `AllocPost`. -/
theorem allocateAt_spec (cfg : Config) : ∀ (level : Nat) (self : FileHeader) (fileSize : Int)
    (freeMap : Bitmap) (d : Disk) (h1 : FileHeader) (bm1 : Bitmap) (d1 : Disk),
    cfg.NumDirect ≤ self.dataSectors.length →
    allocateAt cfg level self fileSize freeMap d = .ok (true, h1, bm1, d1) →
      AllocPost cfg level freeMap d h1 bm1 d1
  | 0, self, fileSize, freeMap, d, h1, bm1, d1, hlen, h => by
    obtain ⟨-, -, hn, hl, hcase⟩ := allocateAt_ok cfg 0 self fileSize freeMap d true h1 bm1 d1 h
    rcases hcase with ⟨-, hr, -⟩ | ⟨-, hloop⟩
    · cases hr
    · have hle := blockCount_toNat_le cfg fileSize
      obtain ⟨-, hd, hl1, -, hnd, hfree, hmarks⟩ :=
        allocLoop_none _ 0 self.dataSectors freeMap d true h1.dataSectors bm1 d1 hloop
          (by omega)
      have hslots : treeBlocks d1 1 h1 = (h1.dataSectors.drop 0).take (blockCount cfg fileSize).toNat := by
        rw [treeBlocks_level_zero d1 0 h1 hl]
        simp [slots, hn]
      rw [← hslots] at hnd hfree hmarks
      refine ⟨⟨hl, by rw [hn, hl1]; omega⟩, hnd, hfree, hmarks, ?_, by rw [hd]⟩
      intro x _
      rw [hd]
  | l + 1, self, fileSize, freeMap, d, h1, bm1, d1, hlen, h => by
    obtain ⟨hss, -, hn, hl, hcase⟩ :=
      allocateAt_ok cfg (l + 1) self fileSize freeMap d true h1 bm1 d1 h
    rcases hcase with ⟨-, hr, -⟩ | ⟨-, hloop⟩
    · cases hr
    · have hle := blockCount_toNat_le cfg fileSize
      have hchild : ChildSpec cfg l (fun bm dk =>
          allocateAt cfg l (create cfg l) cfg.MaxFileSize bm dk) := by
        intro bm dk f bmB dB hc
        refine ⟨allocateAt_spec cfg l (create cfg l) _ bm dk f bmB dB
          (by rw [create_length]) hc, ?_⟩
        obtain ⟨-, -, hn2, -⟩ := allocateAt_ok cfg l _ _ bm dk true f bmB dB hc
        rw [hn2, blockCount_MaxFileSize cfg hss]
      obtain ⟨hl1, -, hnd, hfree, hmarks, hhdrs, hdirs, hbuilt⟩ :=
        allocLoop_some cfg l _ hchild _ 0 self.dataSectors freeMap d h1.dataSectors bm1 d1 hloop
          (by omega)
      have hl0 : ¬ h1.level = 0 := by omega
      have hsl : (h1.dataSectors.drop 0).take (blockCount cfg fileSize).toNat = h1.slots := by
        simp [slots, hn]
      rw [hsl] at hnd hfree hmarks hhdrs hbuilt
      rw [← treeBlocks_level_pos d1 (l + 1) h1 hl0] at hnd hfree hmarks hhdrs
      exact ⟨⟨hl, by rw [hn, hl1]; omega, hbuilt⟩, hnd, hfree, hmarks, hhdrs, hdirs⟩

end FileHeader

/-! ## The loops of `Deallocate` -/

namespace FileHeader

theorem slotAt_nat (ds : List Int) (i : Nat) (s : Int) (h : ds[i]? = some s) :
    slotAt ds (i : Int) = .ok s := by
  simp [slotAt, h]

theorem getElem?_of_lt (ds : List Int) (i : Nat) (h : i < ds.length) :
    ∃ s, ds[i]? = some s := ⟨ds[i], List.getElem?_eq_getElem h⟩

/-- The loop of `Deallocate` at `level == 0` on distinct, marked blocks. -/
theorem deallocLoop_none (d : Disk) (ds : List Int) : ∀ (todo i : Nat) (bm : Bitmap),
    i + todo ≤ ds.length → ((ds.drop i).take todo).Nodup →
    (∀ x ∈ (ds.drop i).take todo, bm.Test x = .ok true) →
    ∃ bm1, deallocLoop none d ds todo i bm = .ok bm1 ∧
      ∀ x, bm1.Test x = if x ∈ (ds.drop i).take todo then .ok false else bm.Test x
  | 0, i, bm, _, _, _ => ⟨bm, rfl, by simp⟩
  | todo + 1, i, bm, hlen, hnd, hm => by
    obtain ⟨s, hs⟩ := getElem?_of_lt ds i (by omega)
    have hS := drop_take_succ ds i todo s hs
    rw [hS] at hnd hm
    rw [List.nodup_cons] at hnd
    have hts : bm.Test s = .ok true := hm s (by simp)
    obtain ⟨bmA, hclr⟩ := Bitmap.Clear_ok bm s true hts
    have hspec := Bitmap.Clear_spec bm bmA s hclr
    obtain ⟨bm1, hrest, htest⟩ := deallocLoop_none d ds todo (i + 1) bmA (by omega) hnd.2 (by
      intro x hx
      rw [hspec x]
      have hxs : x ≠ s := by rintro rfl; exact hnd.1 hx
      simp only [hxs, if_false]
      exact hm x (by simp [hx]))
    refine ⟨bm1, ?_, ?_⟩
    · simp only [deallocLoop, slotAt_nat ds i s hs, hts, hclr]
      exact hrest
    · intro x
      rw [hS, htest x, hspec x]
      by_cases hx1 : x ∈ (ds.drop (i + 1)).take todo
      · simp [hx1]
      · by_cases hxs : x = s
        · simp [hxs]
        · simp [hx1, hxs]

/-- The loop of `Deallocate` at `level > 0`, for a recursive call that satisfies
`DeallocSpec`. -/
theorem deallocLoop_some (cfg : Config) (d : Disk) (l : Nat)
    (child : FileHeader → Bitmap → Except Fault Bitmap) (hchild : DeallocSpec cfg d l child)
    (ds : List Int) : ∀ (todo i : Nat) (bm : Bitmap),
    i + todo ≤ ds.length →
    (((ds.drop i).take todo).flatMap (fun s => s :: treeBlocks d (l + 1) (d.hdr s))).Nodup →
    (∀ x ∈ ((ds.drop i).take todo).flatMap (fun s => s :: treeBlocks d (l + 1) (d.hdr s)),
      bm.Test x = .ok true) →
    (∀ s ∈ (ds.drop i).take todo, Built cfg d l (d.hdr s)) →
    ∃ bm1, deallocLoop (some child) d ds todo i bm = .ok bm1 ∧
      ∀ x, bm1.Test x =
        if x ∈ ((ds.drop i).take todo).flatMap (fun s => s :: treeBlocks d (l + 1) (d.hdr s))
        then .ok false else bm.Test x
  | 0, i, bm, _, _, _, _ => ⟨bm, rfl, by simp⟩
  | todo + 1, i, bm, hlen, hnd, hm, hb => by
    obtain ⟨s, hs⟩ := getElem?_of_lt ds i (by omega)
    have hS := drop_take_succ ds i todo s hs
    rw [hS] at hb
    rw [hS, List.flatMap_cons] at hnd hm
    generalize hB1 : ((ds.drop (i + 1)).take todo).flatMap
      (fun s => s :: treeBlocks d (l + 1) (d.hdr s)) = B1 at *
    generalize hBc : treeBlocks d (l + 1) (d.hdr s) = Bc at *
    simp only [List.cons_append, List.nodup_cons, List.mem_append, not_or,
      List.nodup_append] at hnd
    obtain ⟨⟨hsc, hs1⟩, hcnd, h1nd, hdisj⟩ := hnd
    have hts : bm.Test s = .ok true := hm s (by simp)
    have hs0 : 0 ≤ s := ((Bitmap.Test_ok_iff bm s true).1 hts).1
    -- the recursive call on the child
    obtain ⟨bmA, hcall, hA⟩ := hchild (d.hdr s) bm (hb s (by simp))
      (by rw [hBc]; exact hcnd) (by
        rw [hBc]
        intro x hx
        exact hm x (by simp [hx]))
    rw [hBc] at hA
    have htsA : bmA.Test s = .ok true := by rw [hA s]; simp [hsc, hts]
    obtain ⟨bmB, hclr⟩ := Bitmap.Clear_ok bmA s true htsA
    have hspec := Bitmap.Clear_spec bmA bmB s hclr
    obtain ⟨bm1, hrest, htest⟩ := deallocLoop_some cfg d l child hchild ds todo (i + 1) bmB
      (by omega) (by rw [hB1]; exact h1nd) (by
        rw [hB1]
        intro x hx
        have hxs : x ≠ s := by rintro rfl; exact hs1 hx
        have hxc : x ∉ Bc := fun hxc => hdisj hxc hx
        rw [hspec x, hA x]
        simp only [hxs, hxc, if_false]
        exact hm x (by simp [hx])) (fun s1 hs1 => hb s1 (by simp [hs1]))
    rw [hB1] at htest
    refine ⟨bm1, ?_, ?_⟩
    · simp only [deallocLoop, slotAt_nat ds i s hs, hts, FetchFrom, Disk.readHeader, hs0,
        if_true, hcall, hclr]
      exact hrest
    · intro x
      rw [hS, List.flatMap_cons, hB1, hBc, htest x, hspec x, hA x]
      by_cases hx1 : x ∈ B1
      · simp [hx1]
      · by_cases hxs : x = s
        · simp [hxs]
        · by_cases hxc : x ∈ Bc
          · simp [hxc]
          · simp [hx1, hxs, hxc]

/-- `Deallocate` on a tree of shape `Built` whose blocks are pairwise distinct
and marked: with fuel `l + 1` it returns and has cleared exactly these blocks. -/
theorem Deallocate_spec (cfg : Config) (d : Disk) : ∀ (l : Nat),
    DeallocSpec cfg d l (fun f bm => Deallocate d (l + 1) f bm)
  | 0 => by
    intro f bm hb hnd hm
    obtain ⟨hl, hn⟩ := hb
    rw [treeBlocks_level_zero d 0 f hl] at hnd hm ⊢
    have := deallocLoop_none d f.dataSectors f.numSectors.toNat 0 bm (by omega)
      (by simpa [slots] using hnd) (by simpa [slots] using hm)
    simpa [Deallocate, hl, slots] using this
  | l + 1 => by
    intro f bm hb hnd hm
    obtain ⟨hl, hn, hc⟩ := hb
    have hl0 : ¬ f.level = 0 := by omega
    rw [treeBlocks_level_pos d (l + 1) f hl0] at hnd hm ⊢
    have := deallocLoop_some cfg d l _ (Deallocate_spec cfg d l) f.dataSectors
      f.numSectors.toNat 0 bm (by omega)
      (by simpa [slots] using hnd) (by simpa [slots] using hm)
      (by
        intro s hs
        exact (hc s (by simpa [slots] using hs)).2.2)
    simpa [Deallocate, hl0, slots] using this

end FileHeader

/-! ## `Allocate` and `Deallocate` -/

namespace FileHeader

/-- At `level == 0` a failing `Allocate` has failed in the test of the free
count, and the free map and the disk are as before; at any level a free count
below the block count makes `Allocate` fail in that test. -/
theorem Allocate_failure_untouched (cfg : Config) (self : FileHeader) (freeMap : Bitmap)
    (d : Disk) (fileSize : Int) (h1 : FileHeader) (bm1 : Bitmap) (d1 : Disk)
    (hslots : self.dataSectors.length = cfg.NumDirect)
    (h : self.Allocate cfg freeMap fileSize d = .ok (false, h1, bm1, d1))
    (hl : self.level = 0 ∨ freeMap.NumClear < blockCount cfg fileSize) :
    bm1 = freeMap ∧ d1 = d := by
  obtain ⟨-, -, -, -, hcase⟩ :=
    allocateAt_ok cfg self.level self fileSize freeMap d false h1 bm1 d1 h
  rcases hcase with ⟨-, -, hb, hd, -⟩ | ⟨hnot, hloop⟩
  · exact ⟨hb, hd⟩
  · rcases hl with hl | hl
    · rw [hl] at hloop
      have hle := blockCount_toNat_le cfg fileSize
      have hr := (allocLoop_none _ 0 self.dataSectors freeMap d false h1.dataSectors bm1 d1
        hloop (by omega)).1
      cases hr
    · exact absurd hl hnot

set_option maxRecDepth 100000 in
/-- C7 at the failing input: a header of level 1 is asked for one sector (128
bytes) while a single sector is free.  The test of the free count passes,
`FindAndSet` takes sector 31, the child's `Allocate(MaxFileSize)` fails, and
`Allocate` returns `FALSE` with the free map changed: the sector stays marked. -/
theorem allocate_failure_keeps_block :
    bmTight.NumClear = 1 ∧
      ∃ h1 bm1 d1, (create nachos 1).Allocate nachos bmTight 128 (Disk.blank nachos)
          = .ok (false, h1, bm1, d1) ∧
        bm1 ≠ bmTight ∧ bm1.Test 31 = .ok true ∧ bmTight.Test 31 = .ok false ∧
        bm1.NumClear = 0 := by
  refine ⟨by decide, _, _, _, rfl, ?_, ?_, ?_, ?_⟩
  · decide
  · rfl
  · rfl
  · decide

set_option maxRecDepth 100000 in
/-- The test of the free count does not cover the children: a header of level 1
asked for two sectors (256 bytes) with 30 clear bits passes the test (`2 ≤ 30`),
the first child takes the 29 sectors left after the first slot, and the second
`FindAndSet` returns `-1`, so `ASSERT(dataSectors[i] >= 0)` fails, against the
comment "since we checked that there was enough free space, we expect this to
succeed". -/
theorem allocate_assertion_fails :
    bm30.NumClear = 30 ∧ blockCount nachos 256 = 2 ∧
      (create nachos 1).Allocate nachos bm30 256 (Disk.blank nachos) = .error .assertion := by
  refine ⟨by decide, by decide, ?_⟩
  rfl

/-- C8: after a successful `Allocate` on a header of any level, `Deallocate` on
the resulting header (same free map and disk, fuel `level + 1`) returns, and the
free map is the one from before `Allocate`; so the free count is restored. -/
theorem deallocate_after_allocate (cfg : Config) (self : FileHeader) (freeMap : Bitmap)
    (d : Disk) (fileSize : Int) (h1 : FileHeader) (bm1 : Bitmap) (d1 : Disk)
    (hslots : self.dataSectors.length = cfg.NumDirect)
    (halloc : self.Allocate cfg freeMap fileSize d = .ok (true, h1, bm1, d1)) :
    ∃ bm2, Deallocate d1 (self.level + 1) h1 bm1 = .ok bm2 ∧ bm2 = freeMap ∧
      bm2.NumClear = freeMap.NumClear := by
  have P := allocateAt_spec cfg self.level self fileSize freeMap d h1 bm1 d1 (by omega) halloc
  obtain ⟨bm2, hde, htest⟩ := Deallocate_spec cfg d1 self.level h1 bm1 P.built P.nodup (by
    intro x hx
    rw [P.marks x]
    simp [hx])
  have heq : bm2 = freeMap := by
    apply Bitmap.ext_Test
    intro x
    rw [htest x]
    by_cases hx : x ∈ treeBlocks d1 (self.level + 1) h1
    · simp [hx, P.free x hx]
    · simp [hx, P.marks x]
  exact ⟨bm2, hde, heq, by rw [heq]⟩

set_option maxRecDepth 100000 in
/-- A witness of `deallocate_after_allocate`: with the constants `tiny`, a header
of level 1 allocated for 5 bytes (two children of two sectors each) on the free
map `bmSmall`. -/
theorem deallocate_after_allocate_witness :
    ∃ h1 bm1 d1 bm2, (create tiny 1).Allocate tiny bmSmall 5 (Disk.blank tiny)
        = .ok (true, h1, bm1, d1) ∧
      Deallocate d1 2 h1 bm1 = .ok bm2 ∧ bm2 = bmSmall ∧ bm2.NumClear = bmSmall.NumClear := by
  have hA : ∃ h1 bm1 d1, (create tiny 1).Allocate tiny bmSmall 5 (Disk.blank tiny)
      = .ok (true, h1, bm1, d1) := ⟨_, _, _, rfl⟩
  obtain ⟨h1, bm1, d1, hA⟩ := hA
  obtain ⟨bm2, h2, h3, h4⟩ := deallocate_after_allocate tiny (create tiny 1) bmSmall
    (Disk.blank tiny) 5 h1 bm1 d1 rfl hA
  exact ⟨h1, bm1, d1, bm2, hA, h2, h3, h4⟩

/-- C10: of two successful `Allocate` calls made one after the other, each tree
holds pairwise distinct blocks, no block of the first tree is a block of the
second, and the second call leaves the first tree as it was. -/
theorem allocations_disjoint (cfg : Config) (a b : FileHeader) (freeMap : Bitmap) (d : Disk)
    (sizeA sizeB : Int) (a1 b1 : FileHeader) (bmA bmB : Bitmap) (dA dB : Disk)
    (ha : a.dataSectors.length = cfg.NumDirect) (hb : b.dataSectors.length = cfg.NumDirect)
    (hA : a.Allocate cfg freeMap sizeA d = .ok (true, a1, bmA, dA))
    (hB : b.Allocate cfg bmA sizeB dA = .ok (true, b1, bmB, dB)) :
    (treeBlocks dA (a.level + 1) a1).Nodup ∧ (treeBlocks dB (b.level + 1) b1).Nodup ∧
      (∀ x ∈ treeBlocks dA (a.level + 1) a1, x ∉ treeBlocks dB (b.level + 1) b1) ∧
      treeBlocks dB (a.level + 1) a1 = treeBlocks dA (a.level + 1) a1 := by
  have PA := allocateAt_spec cfg a.level a sizeA freeMap d a1 bmA dA (by omega) hA
  have PB := allocateAt_spec cfg b.level b sizeB bmA dA b1 bmB dB (by omega) hB
  have hdisj : ∀ x ∈ treeBlocks dA (a.level + 1) a1, x ∉ treeBlocks dB (b.level + 1) b1 := by
    intro x hx hx2
    have h1 := PB.free x hx2
    rw [PA.marks x] at h1
    simp [hx] at h1
  refine ⟨PA.nodup, PB.nodup, hdisj, ?_⟩
  exact treeBlocks_frame dA dB (a.level + 1) a1 (fun x hx => PB.hdrs x (hdisj x hx))

set_option maxRecDepth 100000 in
/-- A witness of `allocations_disjoint`: with the constants `tiny`, a header of
level 1 allocated for 4 bytes, then a header of level 0 allocated for 5 bytes,
on the free map `bmSmall`. -/
theorem allocations_disjoint_witness :
    ∃ a1 bmA dA b1 bmB dB,
      (create tiny 1).Allocate tiny bmSmall 4 (Disk.blank tiny) = .ok (true, a1, bmA, dA) ∧
      (create tiny 0).Allocate tiny bmA 5 dA = .ok (true, b1, bmB, dB) ∧
      (treeBlocks dA 2 a1).Nodup ∧ (treeBlocks dB 1 b1).Nodup ∧
      (∀ x ∈ treeBlocks dA 2 a1, x ∉ treeBlocks dB 1 b1) ∧
      treeBlocks dB 2 a1 = treeBlocks dA 2 a1 := by
  have hAB : ∃ a1 bmA dA b1 bmB dB,
      (create tiny 1).Allocate tiny bmSmall 4 (Disk.blank tiny) = .ok (true, a1, bmA, dA) ∧
      (create tiny 0).Allocate tiny bmA 5 dA = .ok (true, b1, bmB, dB) :=
    ⟨_, _, _, _, _, _, rfl, rfl⟩
  obtain ⟨a1, bmA, dA, b1, bmB, dB, hA, hB⟩ := hAB
  obtain ⟨h1, h2, h3, h4⟩ := allocations_disjoint tiny (create tiny 1) (create tiny 0)
    bmSmall (Disk.blank tiny) 4 5 a1 b1 bmA bmB dA dB rfl rfl hA hB
  exact ⟨a1, bmA, dA, b1, bmB, dB, hA, hB, h1, h2, h3, h4⟩

end FileHeader

/-! ## `ByteToSector` on an allocated tree -/

namespace FileHeader

theorem wrapInt32_id (x : Int) (h0 : 0 ≤ x) (h1 : x < 2147483648) : wrapInt32 x = x := by
  unfold wrapInt32
  omega

/-- Without overflow the local `maxfs` is the power `MaxFileSize ^ level`. -/
theorem maxfs_eq_pow (cfg : Config) : ∀ (l : Nat),
    (∀ k, k ≤ l → (cfg.MaxFileSize : Int) ^ k < 2147483648) →
      maxfs cfg l = (cfg.MaxFileSize : Int) ^ l
  | 0, _ => by simp [maxfs]
  | l + 1, h => by
    have ih := maxfs_eq_pow cfg l (fun k hk => h k (by omega))
    have hlt := h (l + 1) (le_refl _)
    have hnn : (0 : Int) ≤ (cfg.MaxFileSize : Int) ^ (l + 1) := by positivity
    rw [maxfs, ih, ← pow_succ]
    exact wrapInt32_id _ hnn hlt

theorem slotAt_ok_mem (ds : List Int) (idx : Int) (n : Nat) (h0 : 0 ≤ idx)
    (hlt : idx < (n : Int)) (hn : n ≤ ds.length) :
    ∃ s, slotAt ds idx = .ok s ∧ s ∈ ds.take n := by
  have hi : idx.toNat < ds.length := by omega
  refine ⟨ds[idx.toNat], ?_, ?_⟩
  · simp [slotAt, h0, List.getElem?_eq_getElem hi]
  · rw [List.mem_take_iff_getElem]
    exact ⟨idx.toNat, by simp; omega, rfl⟩

theorem bts_level0 (cfg : Config) (d : Disk) (f : FileHeader) (offset : Int)
    (hb : Built cfg d 0 f) (hss : cfg.SectorSize ≠ 0) (h0 : 0 ≤ offset)
    (hidx : offset / (cfg.SectorSize : Int) < f.numSectors) :
    ∃ b, ByteToSector cfg d 1 f offset = .ok b ∧ slotsInUse cfg d 1 f offset = true ∧
      b ∈ treeBlocks d 1 f := by
  obtain ⟨hl, hn⟩ := hb
  have hdiv : offset.tdiv (cfg.SectorSize : Int) = offset / (cfg.SectorSize : Int) :=
    Int.tdiv_eq_ediv h0 (by omega)
  have hnn : 0 ≤ offset / (cfg.SectorSize : Int) := Int.ediv_nonneg h0 (by omega)
  obtain ⟨s, hs, hmem⟩ := slotAt_ok_mem f.dataSectors (offset / (cfg.SectorSize : Int))
    f.numSectors.toNat hnn (by omega) hn
  refine ⟨s, ?_, ?_, ?_⟩
  · simp [ByteToSector, hl, hss, hdiv, hs]
  · simp [slotsInUse, hl, hdiv, hnn, hidx]
  · rw [treeBlocks_level_zero d 0 f hl]
    exact hmem

theorem bts_node (cfg : Config) (d : Disk) (l : Nat) (f : FileHeader) (offset m : Int)
    (hb : Built cfg d (l + 1) f) (hm : maxfs cfg (l + 1) = m) (hmpos : 0 < m)
    (h0 : 0 ≤ offset) (hidx : offset / m < f.numSectors)
    (hchild : ∀ g, Built cfg d l g → g.numSectors = cfg.NumDirect →
      ∃ b, ByteToSector cfg d (l + 1) g (offset % m) = .ok b ∧
        slotsInUse cfg d (l + 1) g (offset % m) = true ∧ b ∈ treeBlocks d (l + 1) g) :
    ∃ b, ByteToSector cfg d (l + 2) f offset = .ok b ∧
      slotsInUse cfg d (l + 2) f offset = true ∧ b ∈ treeBlocks d (l + 2) f := by
  obtain ⟨hl, hn, hc⟩ := hb
  have hl0 : ¬ f.level = 0 := by omega
  have hdiv : offset.tdiv m = offset / m := Int.tdiv_eq_ediv h0 (by omega)
  have hmod : offset.tmod m = offset % m := Int.tmod_eq_emod h0 (by omega)
  have hnn : 0 ≤ offset / m := Int.ediv_nonneg h0 (by omega)
  obtain ⟨s, hs, hmem⟩ := slotAt_ok_mem f.dataSectors (offset / m)
    f.numSectors.toNat hnn (by omega) hn
  obtain ⟨hs0, hfull, hbs⟩ := hc s hmem
  obtain ⟨b, hb1, hb2, hb3⟩ := hchild (d.hdr s) hbs hfull
  have hm0 : ¬ m = 0 := by omega
  refine ⟨b, ?_, ?_, ?_⟩
  · rw [ByteToSector]
    simp only [hl0, if_false, hl, hm, hm0, hdiv, hs, FetchFrom, Disk.readHeader, hs0, if_true,
      hmod]
    exact hb1
  · rw [slotsInUse]
    simp only [hl0, if_false, hl, hm, hdiv, hs, hmod, hnn, hidx, and_self, decide_True,
      Bool.true_and]
    exact hb2
  · exact child_mem_treeBlocks d (l + 1) f hl0 s hmem b hb3

end FileHeader

namespace FileHeader

theorem MaxFileSize_cast (cfg : Config) :
    (cfg.MaxFileSize : Int) = (cfg.NumDirect : Int) * (cfg.SectorSize : Int) := by
  simp [Config.MaxFileSize]

theorem ediv_le_ediv_divisor (a b c : Int) (ha : 0 ≤ a) (hc : 0 < c) (hcb : c ≤ b) :
    a / b ≤ a / c := by
  rw [Int.le_ediv_iff_mul_le hc]
  have h1 : 0 ≤ a / b := Int.ediv_nonneg ha (by omega)
  have h2 : a / b * b ≤ a := Int.ediv_mul_le a (by omega)
  have h3 : a / b * c ≤ a / b * b := Int.mul_le_mul_of_nonneg_left hcb h1
  omega

/-- `ByteToSector` on a tree whose every header uses all `NumDirect` slots. -/
theorem bts_full (cfg : Config) (d : Disk) (hss : cfg.SectorSize ≠ 0) :
    ∀ (l : Nat) (f : FileHeader) (offset : Int), Built cfg d l f →
      f.numSectors = cfg.NumDirect →
      (∀ k, k ≤ l → (cfg.MaxFileSize : Int) ^ k < 2147483648) →
      0 ≤ offset → offset < reach cfg l →
      ∃ b, ByteToSector cfg d (l + 1) f offset = .ok b ∧
        slotsInUse cfg d (l + 1) f offset = true ∧ b ∈ treeBlocks d (l + 1) f
  | 0, f, offset, hb, hfull, _, h0, hlt => by
    have hpos : (0 : Int) < cfg.SectorSize := by
      have : 0 < cfg.SectorSize := Nat.pos_of_ne_zero hss
      exact_mod_cast this
    simp only [reach, if_true, MaxFileSize_cast] at hlt
    exact bts_level0 cfg d f offset hb hss h0 (by
      rw [hfull]
      exact Int.ediv_lt_of_lt_mul hpos hlt)
  | l + 1, f, offset, hb, hfull, hrep, h0, hlt => by
    have hpos : (0 : Int) < cfg.SectorSize := by
      have : 0 < cfg.SectorSize := Nat.pos_of_ne_zero hss
      exact_mod_cast this
    have hreach : reach cfg (l + 1) = (cfg.NumDirect : Int) * (cfg.MaxFileSize : Int) := by
      simp [reach]
    rw [hreach] at hlt
    have hnd : (1 : Int) ≤ cfg.NumDirect := by
      by_contra hcon
      have : (cfg.NumDirect : Int) = 0 := by omega
      rw [this] at hlt
      omega
    have hmfs : (1 : Int) ≤ cfg.MaxFileSize := by
      rw [MaxFileSize_cast]
      nlinarith
    have hm := maxfs_eq_pow cfg (l + 1) hrep
    have hmpos : (0 : Int) < (cfg.MaxFileSize : Int) ^ (l + 1) := by positivity
    cases l with
    | zero =>
      simp only [zero_add, pow_one] at hm hmpos
      refine bts_node cfg d 0 f offset _ hb hm hmpos h0 (by
        rw [hfull]
        exact Int.ediv_lt_of_lt_mul hmpos hlt) ?_
      intro g hg hgfull
      exact bts_full cfg d hss 0 g _ hg hgfull (fun k hk => hrep k (by omega))
        (Int.emod_nonneg _ (by omega)) (by
          simp only [reach, if_true]
          exact Int.emod_lt_of_pos _ hmpos)
    | succ l =>
      have hsmall : offset < (cfg.MaxFileSize : Int) ^ (l + 1 + 1) := by
        have h1 : (1 : Int) ≤ (cfg.MaxFileSize : Int) ^ l := one_le_pow₀ hmfs
        have h2 : (cfg.NumDirect : Int) ≤ cfg.MaxFileSize := by
          rw [MaxFileSize_cast]
          nlinarith
        have h3 : (cfg.MaxFileSize : Int) ^ (l + 1 + 1)
            = (cfg.MaxFileSize : Int) ^ l * ((cfg.MaxFileSize : Int) * (cfg.MaxFileSize : Int)) := by
          ring
        rw [h3]
        nlinarith
      refine bts_node cfg d (l + 1) f offset _ hb hm hmpos h0 (by
        rw [hfull, Int.ediv_eq_zero_of_lt h0 hsmall]
        omega) ?_
      intro g hg hgfull
      rw [Int.emod_eq_of_lt h0 hsmall]
      exact bts_full cfg d hss (l + 1) g offset hg hgfull (fun k hk => hrep k (by omega)) h0
        (by simp only [reach]; simpa using hlt)

end FileHeader

namespace FileHeader

/-- The arithmetic of one step of `ByteToSector` in a header of level `l + 1`
for an offset below `NumDirect * MaxFileSize`. -/
theorem node_arith (cfg : Config) (hss : cfg.SectorSize ≠ 0) (l : Nat) (offset : Int)
    (h0 : 0 ≤ offset)
    (hlt : offset < (cfg.NumDirect : Int) * (cfg.MaxFileSize : Int)) :
    0 < (cfg.MaxFileSize : Int) ^ (l + 1) ∧
      offset / (cfg.MaxFileSize : Int) ^ (l + 1) < cfg.NumDirect ∧
      0 ≤ offset % (cfg.MaxFileSize : Int) ^ (l + 1) ∧
      offset % (cfg.MaxFileSize : Int) ^ (l + 1) < reach cfg l ∧
      (cfg.SectorSize : Int) ≤ (cfg.MaxFileSize : Int) ^ (l + 1) := by
  have hpos : (0 : Int) < cfg.SectorSize := by
    have : 0 < cfg.SectorSize := Nat.pos_of_ne_zero hss
    exact_mod_cast this
  have hnd : (1 : Int) ≤ cfg.NumDirect := by
    by_contra hcon
    have : (cfg.NumDirect : Int) = 0 := by omega
    rw [this] at hlt
    omega
  have hmfs : (1 : Int) ≤ cfg.MaxFileSize := by
    rw [MaxFileSize_cast]
    nlinarith
  have hssle : (cfg.SectorSize : Int) ≤ cfg.MaxFileSize := by
    rw [MaxFileSize_cast]
    nlinarith
  have hmpos : (0 : Int) < (cfg.MaxFileSize : Int) ^ (l + 1) := by positivity
  have hge : (cfg.MaxFileSize : Int) ≤ (cfg.MaxFileSize : Int) ^ (l + 1) := by
    have := pow_le_pow_right₀ hmfs (show 1 ≤ l + 1 by omega)
    simpa using this
  refine ⟨hmpos, ?_, Int.emod_nonneg _ (by omega), ?_, by omega⟩
  · cases l with
    | zero =>
      simp only [zero_add, pow_one]
      exact Int.ediv_lt_of_lt_mul (by omega) hlt
    | succ l =>
      have hsmall : offset < (cfg.MaxFileSize : Int) ^ (l + 1 + 1) := by
        have h1 : (1 : Int) ≤ (cfg.MaxFileSize : Int) ^ l := one_le_pow₀ hmfs
        have h2 : (cfg.NumDirect : Int) ≤ cfg.MaxFileSize := by
          rw [MaxFileSize_cast]
          nlinarith
        have h3 : (cfg.MaxFileSize : Int) ^ (l + 1 + 1)
            = (cfg.MaxFileSize : Int) ^ l * ((cfg.MaxFileSize : Int) * (cfg.MaxFileSize : Int)) := by
          ring
        rw [h3]
        nlinarith
      rw [Int.ediv_eq_zero_of_lt h0 hsmall]
      omega
  · cases l with
    | zero =>
      simp only [zero_add, pow_one, reach, if_true]
      exact Int.emod_lt_of_pos _ (by omega)
    | succ l =>
      have hsmall : offset < (cfg.MaxFileSize : Int) ^ (l + 1 + 1) := by
        have h1 : (1 : Int) ≤ (cfg.MaxFileSize : Int) ^ l := one_le_pow₀ hmfs
        have h2 : (cfg.NumDirect : Int) ≤ cfg.MaxFileSize := by
          rw [MaxFileSize_cast]
          nlinarith
        have h3 : (cfg.MaxFileSize : Int) ^ (l + 1 + 1)
            = (cfg.MaxFileSize : Int) ^ l * ((cfg.MaxFileSize : Int) * (cfg.MaxFileSize : Int)) := by
          ring
        rw [h3]
        nlinarith
      rw [Int.emod_eq_of_lt h0 hsmall]
      simpa [reach] using hlt

/-- A slot index that is at most `offset / SectorSize` and below `NumDirect` is
below the block count of any size above `offset`. -/
theorem lt_blockCount (cfg : Config) (hss : cfg.SectorSize ≠ 0) (fileSize offset idx : Int)
    (hlt : offset < fileSize) (hidx : idx ≤ offset / (cfg.SectorSize : Int))
    (hnd : idx < cfg.NumDirect) : idx < blockCount cfg fileSize := by
  have hpos : (0 : Int) < cfg.SectorSize := by
    have : 0 < cfg.SectorSize := Nat.pos_of_ne_zero hss
    exact_mod_cast this
  unfold blockCount
  split
  · exact hnd
  · unfold divRoundUp
    have h1 : (offset + 1 * (cfg.SectorSize : Int)) / (cfg.SectorSize : Int)
        = offset / (cfg.SectorSize : Int) + 1 := Int.add_mul_ediv_right _ _ (by omega)
    have h2 : (offset + 1 * (cfg.SectorSize : Int)) / (cfg.SectorSize : Int)
        ≤ (fileSize + (cfg.SectorSize : Int) - 1) / (cfg.SectorSize : Int) :=
      Int.ediv_le_ediv hpos (by omega)
    omega

/-- The sizes for which the round trip holds: after a successful `Allocate` of
`fileSize` bytes on a header of level `level`, with `fileSize` at most
`reach cfg level` (`MaxFileSize` at level 0, `NumDirect * MaxFileSize` above)
and `MaxFileSize ^ level` within the range of `int`, `ByteToSector` returns for every offset in `[0, fileSize)`, uses
at every header on the way down a slot that `Allocate` filled, and returns a
block that is marked in the free map. -/
theorem byteToSector_after_allocate (cfg : Config) (self : FileHeader) (freeMap : Bitmap)
    (d : Disk) (fileSize : Int) (h1 : FileHeader) (bm1 : Bitmap) (d1 : Disk) (offset : Int)
    (hslots : self.dataSectors.length = cfg.NumDirect)
    (hcap : fileSize ≤ reach cfg self.level)
    (hrep : (cfg.MaxFileSize : Int) ^ self.level < 2147483648)
    (halloc : self.Allocate cfg freeMap fileSize d = .ok (true, h1, bm1, d1))
    (h0 : 0 ≤ offset) (hlt : offset < fileSize) :
    ∃ b, ByteToSector cfg d1 (self.level + 1) h1 offset = .ok b ∧
      slotsInUse cfg d1 (self.level + 1) h1 offset = true ∧ bm1.Test b = .ok true := by
  have P := allocateAt_spec cfg self.level self fileSize freeMap d h1 bm1 d1 (by omega) halloc
  obtain ⟨hss, -, hn, -, -⟩ :=
    allocateAt_ok cfg self.level self fileSize freeMap d true h1 bm1 d1 halloc
  have hpos : (0 : Int) < cfg.SectorSize := by
    have : 0 < cfg.SectorSize := Nat.pos_of_ne_zero hss
    exact_mod_cast this
  have hreach : offset < reach cfg self.level := by omega
  -- the tree addresses something, so `MaxFileSize` is positive
  have hmfs : (1 : Int) ≤ cfg.MaxFileSize := by
    unfold reach at hreach
    split at hreach
    · omega
    · by_contra hcon
      have : (cfg.MaxFileSize : Int) = 0 := by omega
      rw [this] at hreach
      omega
  have hrepAll : ∀ k, k ≤ self.level → (cfg.MaxFileSize : Int) ^ k < 2147483648 := by
    intro k hk
    exact lt_of_le_of_lt (pow_le_pow_right₀ hmfs hk) hrep
  have key : ∃ b, ByteToSector cfg d1 (self.level + 1) h1 offset = .ok b ∧
      slotsInUse cfg d1 (self.level + 1) h1 offset = true ∧
      b ∈ treeBlocks d1 (self.level + 1) h1 := by
    have hbuilt := P.built
    revert hbuilt hreach hrepAll
    generalize self.level = L
    intro hreach hrepAll hbuilt
    cases L with
    | zero =>
      simp only [reach, if_true, MaxFileSize_cast] at hreach
      exact bts_level0 cfg d1 h1 offset hbuilt hss h0 (by
        rw [hn]
        exact lt_blockCount cfg hss fileSize offset _ hlt (le_refl _)
          (Int.ediv_lt_of_lt_mul hpos hreach))
    | succ l =>
      have hreach2 : offset < (cfg.NumDirect : Int) * (cfg.MaxFileSize : Int) := by
        simpa [reach] using hreach
      obtain ⟨hmpos, hidx, hr0, hr1, hsm⟩ := node_arith cfg hss l offset h0 hreach2
      have hm := maxfs_eq_pow cfg (l + 1) hrepAll
      refine bts_node cfg d1 l h1 offset _ hbuilt hm hmpos h0 (by
        rw [hn]
        exact lt_blockCount cfg hss fileSize offset _ hlt
          (ediv_le_ediv_divisor offset _ _ h0 hpos hsm) hidx) ?_
      intro g hg hgfull
      exact bts_full cfg d1 hss l g _ hg hgfull (fun k hk => hrepAll k (by omega)) hr0 hr1
  obtain ⟨b, hb1, hb2, hb3⟩ := key
  exact ⟨b, hb1, hb2, by rw [P.marks b]; simp [hb3]⟩

set_option maxRecDepth 100000 in
/-- A witness of `byteToSector_after_allocate`: with the constants `tiny`, a
header of level 1 allocated for 12 bytes and the offset 11. -/
theorem byteToSector_after_allocate_witness :
    ∃ h1 bm1 d1 b, (create tiny 1).Allocate tiny bmSmall 12 (Disk.blank tiny)
        = .ok (true, h1, bm1, d1) ∧
      ByteToSector tiny d1 2 h1 11 = .ok b ∧ slotsInUse tiny d1 2 h1 11 = true ∧
      bm1.Test b = .ok true := by
  have hA : ∃ h1 bm1 d1, (create tiny 1).Allocate tiny bmSmall 12 (Disk.blank tiny)
      = .ok (true, h1, bm1, d1) := ⟨_, _, _, rfl⟩
  obtain ⟨h1, bm1, d1, hA⟩ := hA
  obtain ⟨b, h2, h3, h4⟩ := byteToSector_after_allocate tiny (create tiny 1) bmSmall
    (Disk.blank tiny) 12 h1 bm1 d1 11 rfl (by decide) (by decide) hA (by decide) (by decide)
  exact ⟨h1, bm1, d1, b, hA, h2, h3, h4⟩

set_option maxRecDepth 100000 in
/-- A size above what one header holds: a header of level 0 is allocated for 3713
bytes, one more than `MaxFileSize = 29 * 128`; `Allocate` returns success with
the 29 slots filled, and for the offset 3712 `ByteToSector` reads `dataSectors[29]`, a slot
outside the array that `Allocate` never filled. -/
theorem byteToSector_beyond_slots :
    ∃ h1 bm1 d1, (create nachos 0).Allocate nachos bm0 3713 (Disk.blank nachos)
        = .ok (true, h1, bm1, d1) ∧
      h1.numSectors = 29 ∧
      ByteToSector nachos d1 1 h1 3712 = .error .outOfBounds ∧
      slotsInUse nachos d1 1 h1 3712 = false :=
  ⟨_, _, _, rfl, rfl, rfl, rfl⟩

end FileHeader

/-! ## `ByteToSector` at level 1 -/

namespace FileHeader

/-- One step of `ByteToSector` in a header of level 1 whose stride `MaxFileSize`
is positive and within the range of `int`: the child is the header stored in
slot `offset / MaxFileSize`, and it is asked for `offset mod MaxFileSize`. -/
theorem bts_level_one_step (cfg : Config) (d : Disk) (fuel : Nat) (h : FileHeader)
    (offset s : Int) (hl : h.level = 1) (hS : 0 < cfg.MaxFileSize)
    (hrep : (cfg.MaxFileSize : Int) < 2147483648) (h0 : 0 ≤ offset)
    (hs : slotAt h.dataSectors (offset / (cfg.MaxFileSize : Int)) = .ok s) (hs0 : 0 ≤ s) :
    ByteToSector cfg d (fuel + 2) h offset
      = ByteToSector cfg d (fuel + 1) (d.hdr s) (offset % (cfg.MaxFileSize : Int)) := by
  have hpos : (0 : Int) < cfg.MaxFileSize := by exact_mod_cast hS
  have hm : maxfs cfg 1 = (cfg.MaxFileSize : Int) := by
    have := maxfs_eq_pow cfg 1 (by
      intro k hk
      interval_cases k
      · simp
      · simpa using hrep)
    simpa using this
  have hl0 : ¬ h.level = 0 := by omega
  have hm0 : ¬ (cfg.MaxFileSize : Int) = 0 := by omega
  have hdiv : offset.tdiv (cfg.MaxFileSize : Int) = offset / (cfg.MaxFileSize : Int) :=
    Int.tdiv_eq_ediv h0 (by omega)
  have hmod : offset.tmod (cfg.MaxFileSize : Int) = offset % (cfg.MaxFileSize : Int) :=
    Int.tmod_eq_emod h0 (by omega)
  rw [ByteToSector]
  simp only [hl0, if_false, hl, hm, hm0, hdiv, hs, FetchFrom, Disk.readHeader, hs0, if_true,
    hmod]
  simp

/-- `ByteToSector` in a header of level 0 is the array read at
`offset / SectorSize`. -/
theorem bts_level_zero_eq (cfg : Config) (d : Disk) (fuel : Nat) (h : FileHeader)
    (offset : Int) (hl : h.level = 0) (hss : cfg.SectorSize ≠ 0) (h0 : 0 ≤ offset) :
    ByteToSector cfg d (fuel + 1) h offset
      = slotAt h.dataSectors (offset / (cfg.SectorSize : Int)) := by
  have hdiv : offset.tdiv (cfg.SectorSize : Int) = offset / (cfg.SectorSize : Int) :=
    Int.tdiv_eq_ediv h0 (by omega)
  simp [ByteToSector, hl, hss, hdiv]

/-- C11: in a header of level 1 whose slots 0 and 1 hold the sectors `s0` and
`s1` of two headers of level 0, with the stride `S = MaxFileSize`:
`ByteToSector(0)` and `ByteToSector(S - 1)` are slot `0` and slot
`NumDirect - 1` of the child stored at `s0`, `ByteToSector(S)` is slot `0` of the
child stored at `s1`, and for every offset `ByteToSector(offset)` is the level-0
translation of `offset mod S` in the child whose sector is in slot
`offset / S`. -/
theorem byteToSector_level_one (cfg : Config) (d : Disk) (fuel : Nat) (h : FileHeader)
    (s0 s1 : Int) (hl : h.level = 1) (hS : 0 < cfg.MaxFileSize)
    (hrep : (cfg.MaxFileSize : Int) < 2147483648)
    (h0 : h.dataSectors[0]? = some s0) (h1 : h.dataSectors[1]? = some s1)
    (hs0 : 0 ≤ s0) (hs1 : 0 ≤ s1)
    (hc0 : (d.hdr s0).level = 0) (hc1 : (d.hdr s1).level = 0) :
    ByteToSector cfg d (fuel + 2) h 0 = slotAt (d.hdr s0).dataSectors 0 ∧
      ByteToSector cfg d (fuel + 2) h ((cfg.MaxFileSize : Int) - 1)
        = slotAt (d.hdr s0).dataSectors ((cfg.NumDirect : Int) - 1) ∧
      ByteToSector cfg d (fuel + 2) h (cfg.MaxFileSize : Int)
        = slotAt (d.hdr s1).dataSectors 0 ∧
      ∀ offset s, 0 ≤ offset →
        slotAt h.dataSectors (offset / (cfg.MaxFileSize : Int)) = .ok s → 0 ≤ s →
        (d.hdr s).level = 0 →
        ByteToSector cfg d (fuel + 2) h offset
          = slotAt (d.hdr s).dataSectors
              (offset % (cfg.MaxFileSize : Int) / (cfg.SectorSize : Int)) := by
  have hpos : (0 : Int) < cfg.MaxFileSize := by exact_mod_cast hS
  have hss : cfg.SectorSize ≠ 0 := by
    intro hz
    simp [Config.MaxFileSize, hz] at hS
  have hsspos : (0 : Int) < cfg.SectorSize := by
    have : 0 < cfg.SectorSize := Nat.pos_of_ne_zero hss
    exact_mod_cast this
  have hndpos : (0 : Int) < cfg.NumDirect := by
    have : cfg.NumDirect ≠ 0 := by
      intro hz
      simp [Config.MaxFileSize, hz] at hS
    have : 0 < cfg.NumDirect := Nat.pos_of_ne_zero this
    exact_mod_cast this
  have gen : ∀ offset s, 0 ≤ offset →
      slotAt h.dataSectors (offset / (cfg.MaxFileSize : Int)) = .ok s → 0 ≤ s →
      (d.hdr s).level = 0 →
      ByteToSector cfg d (fuel + 2) h offset
        = slotAt (d.hdr s).dataSectors
            (offset % (cfg.MaxFileSize : Int) / (cfg.SectorSize : Int)) := by
    intro offset s ho hs hsn hcl
    rw [bts_level_one_step cfg d fuel h offset s hl hS hrep ho hs hsn,
      bts_level_zero_eq cfg d fuel (d.hdr s) _ hcl hss (Int.emod_nonneg _ (by omega))]
  have hslot0 : slotAt h.dataSectors 0 = .ok s0 := by simp [slotAt, h0]
  have hslot1 : slotAt h.dataSectors 1 = .ok s1 := by simp [slotAt, h1]
  refine ⟨?_, ?_, ?_, gen⟩
  · have := gen 0 s0 (le_refl 0) (by simpa using hslot0) hs0 hc0
    simpa using this
  · have hd : ((cfg.MaxFileSize : Int) - 1) / (cfg.MaxFileSize : Int) = 0 :=
      Int.ediv_eq_zero_of_lt (by omega) (by omega)
    have hm : ((cfg.MaxFileSize : Int) - 1) % (cfg.MaxFileSize : Int)
        = (cfg.MaxFileSize : Int) - 1 := Int.emod_eq_of_lt (by omega) (by omega)
    have := gen ((cfg.MaxFileSize : Int) - 1) s0 (by omega) (by rw [hd]; exact hslot0) hs0 hc0
    rw [this, hm]
    congr 1
    have h1 : (cfg.MaxFileSize : Int) - 1
        = ((cfg.SectorSize : Int) - 1) + ((cfg.NumDirect : Int) - 1) * (cfg.SectorSize : Int) := by
      rw [MaxFileSize_cast]; ring
    rw [h1, Int.add_mul_ediv_right _ _ (by omega), Int.ediv_eq_zero_of_lt (by omega) (by omega)]
    simp
  · have hd : (cfg.MaxFileSize : Int) / (cfg.MaxFileSize : Int) = 1 := Int.ediv_self (by omega)
    have hm : (cfg.MaxFileSize : Int) % (cfg.MaxFileSize : Int) = 0 := Int.emod_self
    have := gen (cfg.MaxFileSize : Int) s1 (by omega) (by rw [hd]; exact hslot1) hs1 hc1
    rw [this, hm]
    simp

set_option maxRecDepth 100000 in
/-- A witness of `byteToSector_level_one`: with the constants `tiny`
(`MaxFileSize = 8`), a header of level 1 allocated for 12 bytes on `bmSmall`;
its slots hold the sectors 2 and 5. -/
theorem byteToSector_level_one_witness :
    ∃ h1 bm1 d1, (create tiny 1).Allocate tiny bmSmall 12 (Disk.blank tiny)
        = .ok (true, h1, bm1, d1) ∧
      ByteToSector tiny d1 2 h1 0 = slotAt (d1.hdr 2).dataSectors 0 ∧
      ByteToSector tiny d1 2 h1 7 = slotAt (d1.hdr 2).dataSectors 1 ∧
      ByteToSector tiny d1 2 h1 8 = slotAt (d1.hdr 5).dataSectors 0 := by
  have hA : ∃ h1 bm1 d1, (create tiny 1).Allocate tiny bmSmall 12 (Disk.blank tiny)
      = .ok (true, h1, bm1, d1) ∧ h1.level = 1 ∧
      h1.dataSectors[0]? = some 2 ∧ h1.dataSectors[1]? = some 5 ∧
      (d1.hdr 2).level = 0 ∧ (d1.hdr 5).level = 0 := ⟨_, _, _, rfl, rfl, rfl, rfl, rfl, rfl⟩
  obtain ⟨h1, bm1, d1, hA, hl, h0, h1s, hc0, hc1⟩ := hA
  have key := byteToSector_level_one tiny d1 0 h1 2 5 hl (by decide) (by decide) h0 h1s
    (by decide) (by decide) hc0 hc1
  exact ⟨h1, bm1, d1, hA, key.1, key.2.1, key.2.2.1⟩

end FileHeader

/-! ## The fields that `Allocate` sets -/

namespace FileHeader

/-- `divRoundUp` is the ceiling of the quotient. -/
theorem divRoundUp_eq_ceil (n : Int) (s : Nat) (hs : 0 < s) :
    divRoundUp n s = ⌈(n : ℚ) / (s : ℚ)⌉ := by
  have hpos : (0 : Int) < s := by exact_mod_cast hs
  have hq : (0 : ℚ) < (s : ℚ) := by exact_mod_cast hs
  unfold divRoundUp
  symm
  rw [Int.ceil_eq_iff]
  have h1 : (n + (s : Int) - 1) / (s : Int) * (s : Int) ≤ n + (s : Int) - 1 :=
    Int.ediv_mul_le _ (by omega)
  have h2 : n + (s : Int) - 1 < ((n + (s : Int) - 1) / (s : Int) + 1) * (s : Int) :=
    Int.lt_ediv_add_one_mul_self _ hpos
  generalize (n + (s : Int) - 1) / (s : Int) = z at h1 h2
  constructor
  · rw [lt_div_iff₀ hq]
    have : (z - 1) * (s : Int) < n := by nlinarith
    exact_mod_cast this
  · rw [div_le_iff₀ hq]
    have : n ≤ z * (s : Int) := by nlinarith
    exact_mod_cast this

/-- The loop of `Allocate` leaves the slots from `i + todo` on as they were. -/
theorem allocLoop_suffix
    (child : Option (Bitmap → Disk → Except Fault (Bool × FileHeader × Bitmap × Disk))) :
    ∀ (todo i : Nat) (ds : List Int) (bm : Bitmap) (d : Disk)
      (r : Bool) (ds1 : List Int) (bm1 : Bitmap) (d1 : Disk),
      allocLoop child todo i ds bm d = .ok (r, ds1, bm1, d1) →
      ∀ j, i + todo ≤ j → ds1[j]? = ds[j]?
  | 0, i, ds, bm, d, r, ds1, bm1, d1, h, j, _ => by
    simp only [allocLoop, Except.ok.injEq, Prod.mk.injEq] at h
    obtain ⟨-, rfl, -, -⟩ := h
    rfl
  | todo + 1, i, ds, bm, d, r, ds1, bm1, d1, h, j, hj => by
    have hset : (ds.set i (bm.FindAndSet).1)[j]? = ds[j]? := by
      have : i ≠ j := by omega
      simp [List.getElem?_set, this]
    cases hfs : bm.FindAndSet with
    | mk s bmA =>
      rw [hfs] at hset
      simp only [allocLoop, hfs] at h
      by_cases hs : s < 0
      · simp [hs] at h
      · simp only [hs, if_false] at h
        cases child with
        | none =>
          simp only at h
          rw [allocLoop_suffix none todo (i + 1) _ bmA d r ds1 bm1 d1 h j (by omega)]
          exact hset
        | some c =>
          simp only at h
          cases hc : c bmA d with
          | error e => simp [hc] at h
          | ok res =>
            obtain ⟨rc, f, bmB, dB⟩ := res
            cases rc with
            | false =>
              simp only [hc, Except.ok.injEq, Prod.mk.injEq] at h
              obtain ⟨-, rfl, -, -⟩ := h
              exact hset
            | true =>
              simp only [hc] at h
              cases hw : f.WriteBack dB s with
              | error e => simp [hw] at h
              | ok dC =>
                simp only [hw] at h
                rw [allocLoop_suffix (some c) todo (i + 1) _ bmB dC r ds1 bm1 d1 h j (by omega)]
                exact hset

theorem Built_numSectors_le (cfg : Config) (d : Disk) (l : Nat) (h : FileHeader)
    (hb : Built cfg d l h) : h.level = l ∧ h.numSectors.toNat ≤ h.dataSectors.length := by
  cases l with
  | zero => exact hb
  | succ l => exact ⟨hb.1, hb.2.1⟩

theorem slots_subset_treeBlocks (d : Disk) (fuel : Nat) (h : FileHeader) (s : Int)
    (hs : s ∈ h.slots) : s ∈ treeBlocks d (fuel + 1) h := by
  by_cases hl : h.level = 0
  · rw [treeBlocks_level_zero d fuel h hl]; exact hs
  · exact slot_mem_treeBlocks d fuel h hl s hs

theorem blockCount_eq_min (cfg : Config) (fileSize : Int) :
    blockCount cfg fileSize = min (divRoundUp fileSize cfg.SectorSize) (cfg.NumDirect : Int) := by
  unfold blockCount
  split <;> omega

/-- C12: whenever `Allocate(freeMap, n)` returns, with either result, the header
has `numBytes = n`, so `FileLength()` is `n`, and
`numSectors = min(ceil(n / SectorSize), NumDirect)`, which is at most
`NumDirect`.  When it returns `TRUE`, each slot `i < numSectors` holds a block
that was clear in the free map before and is marked after, and the slots from
`numSectors` on are as they were. -/
theorem allocate_sets_fields (cfg : Config) (self : FileHeader) (freeMap : Bitmap) (d : Disk)
    (n : Int) (r : Bool) (h1 : FileHeader) (bm1 : Bitmap) (d1 : Disk)
    (hslots : self.dataSectors.length = cfg.NumDirect)
    (h : self.Allocate cfg freeMap n d = .ok (r, h1, bm1, d1)) :
    h1.numBytes = n ∧ h1.FileLength = n ∧
      h1.numSectors = min ⌈(n : ℚ) / (cfg.SectorSize : ℚ)⌉ (cfg.NumDirect : Int) ∧
      h1.numSectors ≤ cfg.NumDirect ∧
      (r = true →
        (∀ i : Nat, (i : Int) < h1.numSectors →
          ∃ s, h1.dataSectors[i]? = some s ∧ freeMap.Test s = .ok false ∧
            bm1.Test s = .ok true) ∧
        (∀ j : Nat, h1.numSectors ≤ (j : Int) → h1.dataSectors[j]? = self.dataSectors[j]?)) := by
  obtain ⟨hss, hnb, hns, -, hcase⟩ :=
    allocateAt_ok cfg self.level self n freeMap d r h1 bm1 d1 h
  have hceil := divRoundUp_eq_ceil n cfg.SectorSize (Nat.pos_of_ne_zero hss)
  have hmin : h1.numSectors = min ⌈(n : ℚ) / (cfg.SectorSize : ℚ)⌉ (cfg.NumDirect : Int) := by
    rw [hns, blockCount_eq_min, hceil]
  refine ⟨hnb, hnb, hmin, by rw [hmin]; exact min_le_right _ _, ?_⟩
  rintro rfl
  have P := allocateAt_spec cfg self.level self n freeMap d h1 bm1 d1 (by omega) h
  obtain ⟨-, hle⟩ := Built_numSectors_le cfg d1 self.level h1 P.built
  constructor
  · intro i hi
    have hi1 : i < h1.numSectors.toNat := by omega
    have hi2 : i < h1.dataSectors.length := by omega
    have hmem : h1.dataSectors[i] ∈ h1.slots := by
      unfold slots
      rw [List.mem_take_iff_getElem]
      exact ⟨i, by simp; omega, rfl⟩
    have htb := slots_subset_treeBlocks d1 self.level h1 _ hmem
    refine ⟨h1.dataSectors[i], List.getElem?_eq_getElem hi2, P.free _ htb, ?_⟩
    rw [P.marks]
    simp [htb]
  · intro j hj
    rcases hcase with ⟨-, -, -, -, hds⟩ | ⟨-, hloop⟩
    · rw [hds]
    · exact allocLoop_suffix _ _ 0 _ _ _ _ _ _ _ hloop j (by rw [← hns]; omega)

set_option maxRecDepth 100000 in
/-- A witness of `allocate_sets_fields`: a fresh header of level 0 allocated for
300 bytes (three sectors) on the free map `bm0`. -/
theorem allocate_sets_fields_witness :
    ∃ h1 bm1 d1, (create nachos 0).Allocate nachos bm0 300 (Disk.blank nachos)
        = .ok (true, h1, bm1, d1) ∧
      h1.numBytes = 300 ∧ h1.FileLength = 300 ∧
      h1.numSectors = min ⌈((300 : Int) : ℚ) / (nachos.SectorSize : ℚ)⌉ (nachos.NumDirect : Int) ∧
      h1.numSectors ≤ nachos.NumDirect := by
  have hA : ∃ h1 bm1 d1, (create nachos 0).Allocate nachos bm0 300 (Disk.blank nachos)
      = .ok (true, h1, bm1, d1) := ⟨_, _, _, rfl⟩
  obtain ⟨h1, bm1, d1, hA⟩ := hA
  have key := allocate_sets_fields nachos (create nachos 0) bm0 (Disk.blank nachos) 300 true
    h1 bm1 d1 rfl hA
  exact ⟨h1, bm1, d1, hA, key.1, key.2.1, key.2.2.1, key.2.2.2.1⟩

end FileHeader

/-! ## The capacity of a fully allocated tree -/

namespace FileHeader

theorem dataBlocks_level_zero (d : Disk) (fuel : Nat) (h : FileHeader) (hl : h.level = 0) :
    dataBlocks d (fuel + 1) h = h.slots := by
  simp [dataBlocks, hl]

theorem dataBlocks_level_pos (d : Disk) (fuel : Nat) (h : FileHeader) (hl : ¬ h.level = 0) :
    dataBlocks d (fuel + 1) h = h.slots.flatMap (fun s => dataBlocks d fuel (d.hdr s)) := by
  rw [dataBlocks]
  simp only [hl, if_false]

theorem length_flatMap_const {α β : Type} (l : List α) (f : α → List β) (k : Nat)
    (h : ∀ a ∈ l, (f a).length = k) : (l.flatMap f).length = l.length * k := by
  induction l with
  | nil => simp
  | cons a as ih =>
    simp only [List.flatMap_cons, List.length_append, List.length_cons]
    rw [h a (by simp), ih (fun b hb => h b (by simp [hb]))]
    ring

/-- A tree of level `l` in which every header uses all `NumDirect` slots has
`NumDirect ^ (l + 1)` data blocks. -/
theorem dataBlocks_length_full (cfg : Config) (d : Disk) : ∀ (l : Nat) (h : FileHeader),
    Built cfg d l h → h.numSectors = cfg.NumDirect →
      (dataBlocks d (l + 1) h).length = cfg.NumDirect ^ (l + 1)
  | 0, h, hb, hfull => by
    obtain ⟨hl, hn⟩ := hb
    rw [dataBlocks_level_zero d 0 h hl]
    rw [hfull] at hn
    simp only [slots, hfull, Int.toNat_ofNat, List.length_take, zero_add, pow_one]
    simp at hn
    omega
  | l + 1, h, hb, hfull => by
    obtain ⟨hl, hn, hc⟩ := hb
    have hl0 : ¬ h.level = 0 := by omega
    rw [dataBlocks_level_pos d (l + 1) h hl0,
      length_flatMap_const h.slots _ (cfg.NumDirect ^ (l + 1)) (fun s hs =>
        dataBlocks_length_full cfg d l (d.hdr s) (hc s hs).2.2 (hc s hs).2.1)]
    rw [hfull] at hn
    have hlen : h.slots.length = cfg.NumDirect := by
      simp only [slots, hfull, Int.toNat_ofNat, List.length_take]
      simp at hn
      omega
    rw [hlen]
    ring

theorem slotAt_mem_slots (h : FileHeader) (idx s : Int) (hs : slotAt h.dataSectors idx = .ok s)
    (h0 : 0 ≤ idx) (hlt : idx < h.numSectors) : s ∈ h.slots := by
  unfold slotAt at hs
  simp only [h0, if_true] at hs
  split at hs
  · rename_i s1 hget
    injection hs with hs
    subst hs
    have hi : idx.toNat < h.dataSectors.length := by
      by_contra hcon
      rw [List.getElem?_eq_none (by omega)] at hget
      cases hget
    unfold slots
    rw [List.mem_take_iff_getElem]
    refine ⟨idx.toNat, by simp; omega, ?_⟩
    rw [List.getElem?_eq_getElem hi] at hget
    exact Option.some.inj hget
  · cases hs

/-- A block that `ByteToSector` returns through slots in use is a data block of
the tree. -/
theorem bts_mem_dataBlocks (cfg : Config) (d : Disk) : ∀ (fuel : Nat) (h : FileHeader)
    (offset b : Int), ByteToSector cfg d fuel h offset = .ok b →
      slotsInUse cfg d fuel h offset = true → b ∈ dataBlocks d fuel h
  | 0, _, _, _, hb, _ => by simp [ByteToSector] at hb
  | fuel + 1, h, offset, b, hb, hu => by
    by_cases hl : h.level = 0
    · rw [dataBlocks_level_zero d fuel h hl]
      simp only [slotsInUse, hl, if_true, decide_eq_true_eq] at hu
      simp only [ByteToSector, hl, if_true] at hb
      split at hb
      · cases hb
      · exact slotAt_mem_slots h _ b hb hu.1 hu.2
    · rw [dataBlocks_level_pos d fuel h hl]
      rw [slotsInUse] at hu
      rw [ByteToSector] at hb
      simp only [hl, if_false, Bool.and_eq_true, decide_eq_true_eq] at hu hb
      split at hb
      · cases hb
      · split at hb
        · cases hb
        · rename_i s hs
          rw [hs] at hu
          simp only at hu
          have hmem := slotAt_mem_slots h _ s hs hu.1.1 hu.1.2
          split at hb
          · cases hb
          · rename_i f hf
            have hfeq : f = d.hdr s := by
              simp only [FetchFrom, Disk.readHeader] at hf
              split at hf
              · injection hf with hf; exact hf.symm
              · cases hf
            subst hfeq
            rw [List.mem_flatMap]
            exact ⟨s, hmem, bts_mem_dataBlocks cfg d fuel (d.hdr s) _ b hb hu.2⟩

end FileHeader

namespace FileHeader

/-- Every block in a slot in use of a header of level 0 is returned by
`ByteToSector` for an offset below `numSectors * SectorSize`. -/
theorem bts_onto_level0 (cfg : Config) (d : Disk) (fuel : Nat) (h : FileHeader) (b : Int)
    (hl : h.level = 0) (hss : cfg.SectorSize ≠ 0) (hb : b ∈ h.slots) :
    ∃ offset : Int, 0 ≤ offset ∧
      offset < (h.numSectors.toNat : Int) * (cfg.SectorSize : Int) ∧
      ByteToSector cfg d (fuel + 1) h offset = .ok b := by
  have hpos : (0 : Int) < cfg.SectorSize := by
    have : 0 < cfg.SectorSize := Nat.pos_of_ne_zero hss
    exact_mod_cast this
  unfold slots at hb
  rw [List.mem_take_iff_getElem] at hb
  obtain ⟨j, hj, hjb⟩ := hb
  have hj1 : j < h.numSectors.toNat := lt_of_lt_of_le hj (min_le_left _ _)
  have hj2 : j < h.dataSectors.length := lt_of_lt_of_le hj (min_le_right _ _)
  refine ⟨(j : Int) * (cfg.SectorSize : Int), by positivity, ?_, ?_⟩
  · have : (j : Int) < (h.numSectors.toNat : Int) := by exact_mod_cast hj1
    nlinarith
  · rw [bts_level_zero_eq cfg d fuel h _ hl hss (by positivity),
      Int.mul_ediv_cancel _ (by omega)]
    simp [slotAt, List.getElem?_eq_getElem hj2, hjb]

/-- Every data block below a header of level 1 whose children are full headers
of level 0 is returned by `ByteToSector` for an offset below
`numSectors * MaxFileSize`. -/
theorem bts_onto_level1 (cfg : Config) (d : Disk) (fuel : Nat) (h : FileHeader) (b : Int)
    (hbuilt : Built cfg d 1 h) (hss : cfg.SectorSize ≠ 0)
    (hrep : (cfg.MaxFileSize : Int) < 2147483648) (hb : b ∈ dataBlocks d 2 h) :
    ∃ offset : Int, 0 ≤ offset ∧
      offset < (h.numSectors.toNat : Int) * (cfg.MaxFileSize : Int) ∧
      ByteToSector cfg d (fuel + 2) h offset = .ok b := by
  obtain ⟨hl, hn, hc⟩ := hbuilt
  have hl0 : ¬ h.level = 0 := by omega
  rw [dataBlocks_level_pos d 1 h hl0, List.mem_flatMap] at hb
  obtain ⟨s, hs, hbs⟩ := hb
  obtain ⟨hs0, hfull, hcl, hcn⟩ := hc s hs
  rw [dataBlocks_level_zero d 0 (d.hdr s) hcl] at hbs
  obtain ⟨off0, h00, h0lt, h0b⟩ := bts_onto_level0 cfg d fuel (d.hdr s) b hcl hss hbs
  rw [hfull] at h0lt
  simp only [Int.toNat_ofNat] at h0lt
  rw [← MaxFileSize_cast] at h0lt
  have hS : 0 < cfg.MaxFileSize := by
    have : (0 : Int) < cfg.MaxFileSize := by omega
    exact_mod_cast this
  have hpos : (0 : Int) < cfg.MaxFileSize := by exact_mod_cast hS
  have hs' := hs
  unfold slots at hs'
  rw [List.mem_take_iff_getElem] at hs'
  obtain ⟨i, hi, hib⟩ := hs'
  have hi1 : i < h.numSectors.toNat := lt_of_lt_of_le hi (min_le_left _ _)
  have hi2 : i < h.dataSectors.length := lt_of_lt_of_le hi (min_le_right _ _)
  have hdiv : (off0 + (i : Int) * (cfg.MaxFileSize : Int)) / (cfg.MaxFileSize : Int) = i := by
    rw [Int.add_mul_ediv_right _ _ (by omega), Int.ediv_eq_zero_of_lt h00 h0lt]
    simp
  have hmod : (off0 + (i : Int) * (cfg.MaxFileSize : Int)) % (cfg.MaxFileSize : Int) = off0 := by
    rw [Int.add_mul_emod_self, Int.emod_eq_of_lt h00 h0lt]
  have hinn : (0 : Int) ≤ (i : Int) * (cfg.MaxFileSize : Int) := by positivity
  refine ⟨off0 + (i : Int) * (cfg.MaxFileSize : Int), by omega, ?_, ?_⟩
  · have : (i : Int) + 1 ≤ (h.numSectors.toNat : Int) := by exact_mod_cast hi1
    nlinarith
  · rw [bts_level_one_step cfg d fuel h _ s hl hS hrep (by omega) (by
        rw [hdiv]
        simp [slotAt, List.getElem?_eq_getElem hi2, hib]) hs0, hmod]
    exact h0b

/-- C13 (amended): a header of level `L` allocated at full size (`NumDirect`
slots in use in every header of the tree) holds `NumDirect ^ (L + 1)` data
blocks, that is `MaxFileSize * NumDirect ^ L` bytes; and for `L ≤ 1`, with
`MaxFileSize` within the range of `int`, `ByteToSector` sends every offset below
that number of bytes to one of these data blocks and every one of them is the
image of such an offset. -/
theorem full_tree_capacity (cfg : Config) (self : FileHeader) (freeMap : Bitmap) (d : Disk)
    (fileSize : Int) (h1 : FileHeader) (bm1 : Bitmap) (d1 : Disk)
    (hslots : self.dataSectors.length = cfg.NumDirect)
    (hfull : blockCount cfg fileSize = cfg.NumDirect)
    (halloc : self.Allocate cfg freeMap fileSize d = .ok (true, h1, bm1, d1)) :
    (dataBlocks d1 (self.level + 1) h1).length = cfg.NumDirect ^ (self.level + 1) ∧
      (dataBlocks d1 (self.level + 1) h1).length * cfg.SectorSize
        = cfg.MaxFileSize * cfg.NumDirect ^ self.level ∧
      (self.level ≤ 1 → (cfg.MaxFileSize : Int) < 2147483648 →
        (∀ offset : Int, 0 ≤ offset →
          offset < ((cfg.MaxFileSize * cfg.NumDirect ^ self.level : Nat) : Int) →
          ∃ b, ByteToSector cfg d1 (self.level + 1) h1 offset = .ok b ∧
            b ∈ dataBlocks d1 (self.level + 1) h1) ∧
        (∀ b ∈ dataBlocks d1 (self.level + 1) h1,
          ∃ offset : Int, 0 ≤ offset ∧
            offset < ((cfg.MaxFileSize * cfg.NumDirect ^ self.level : Nat) : Int) ∧
            ByteToSector cfg d1 (self.level + 1) h1 offset = .ok b)) := by
  have P := allocateAt_spec cfg self.level self fileSize freeMap d h1 bm1 d1 (by omega) halloc
  obtain ⟨hss, -, hn, -, -⟩ :=
    allocateAt_ok cfg self.level self fileSize freeMap d true h1 bm1 d1 halloc
  have hnfull : h1.numSectors = cfg.NumDirect := by rw [hn, hfull]
  have hlen := dataBlocks_length_full cfg d1 self.level h1 P.built hnfull
  have hbuilt := P.built
  revert hlen hbuilt
  generalize self.level = L
  intro hlen hbuilt
  refine ⟨hlen, ?_, ?_⟩
  · rw [hlen, Config.MaxFileSize]; ring
  · intro hL hrep
    have hcap : ((cfg.MaxFileSize * cfg.NumDirect ^ L : Nat) : Int) = reach cfg L := by
      have : L = 0 ∨ L = 1 := by omega
      rcases this with rfl | rfl
      · simp [reach]
      · simp only [reach]; push_cast; simp; ring
    rw [hcap]
    constructor
    · intro offset h0 hlt
      obtain ⟨b, hb1, hb2, -⟩ := bts_full cfg d1 hss L h1 offset hbuilt hnfull (by
        intro k hk
        have : k = 0 ∨ k = 1 := by omega
        rcases this with rfl | rfl
        · simp
        · simpa using hrep) h0 hlt
      exact ⟨b, hb1, bts_mem_dataBlocks cfg d1 (L + 1) h1 offset b hb1 hb2⟩
    · intro b hb
      have : L = 0 ∨ L = 1 := by omega
      rcases this with rfl | rfl
      · obtain ⟨off, h0, hlt, hbts⟩ := bts_onto_level0 cfg d1 0 h1 b hbuilt.1 hss (by
          rw [dataBlocks_level_zero d1 0 h1 hbuilt.1] at hb; exact hb)
        refine ⟨off, h0, ?_, hbts⟩
        rw [hnfull] at hlt
        simpa [reach, MaxFileSize_cast] using hlt
      · obtain ⟨off, h0, hlt, hbts⟩ := bts_onto_level1 cfg d1 0 h1 b hbuilt hss hrep hb
        refine ⟨off, h0, ?_, hbts⟩
        rw [hnfull] at hlt
        simpa [reach] using hlt

set_option maxRecDepth 100000 in
/-- A witness of `full_tree_capacity`: with the constants `tiny`, a header of
level 1 allocated for 16 bytes on `bmSmall`: 4 data blocks, 16 bytes. -/
theorem full_tree_capacity_witness :
    ∃ h1 bm1 d1, (create tiny 1).Allocate tiny bmSmall 16 (Disk.blank tiny)
        = .ok (true, h1, bm1, d1) ∧
      (dataBlocks d1 2 h1).length = 4 ∧ (dataBlocks d1 2 h1).length * 4 = 16 := by
  have hA : ∃ h1 bm1 d1, (create tiny 1).Allocate tiny bmSmall 16 (Disk.blank tiny)
      = .ok (true, h1, bm1, d1) := ⟨_, _, _, rfl⟩
  obtain ⟨h1, bm1, d1, hA⟩ := hA
  have key := full_tree_capacity tiny (create tiny 1) bmSmall (Disk.blank tiny) 16 h1 bm1 d1
    rfl (by decide) hA
  exact ⟨h1, bm1, d1, hA, key.1, key.2.1⟩

set_option maxRecDepth 100000 in
/-- C13 as stated fails at `L = 0`: a header of level 0 allocated at full size
(3712 bytes, all 29 slots in use) holds 29 data blocks of 128 bytes, 3712 bytes,
and `ByteToSector` resolves the offset 3711, while the claimed number of bytes
`NumDirect * MaxFileSize ^ 0` is 29. -/
theorem full_tree_capacity_level_zero :
    ∃ h1 bm1 d1, (create nachos 0).Allocate nachos bm0 3712 (Disk.blank nachos)
        = .ok (true, h1, bm1, d1) ∧
      h1.numSectors = nachos.NumDirect ∧
      (dataBlocks d1 1 h1).length * nachos.SectorSize = 3712 ∧
      nachos.NumDirect * nachos.MaxFileSize ^ 0 = 29 ∧
      ByteToSector nachos d1 1 h1 3711 = .ok 36 :=
  ⟨_, _, _, rfl, rfl, rfl, rfl, rfl⟩

set_option maxRecDepth 100000 in
/-- The stride of `ByteToSector` at level 2 does not fit the tree that
`Allocate` builds: with the constants `tiny` a full tree of level 2 holds 8 data
blocks, 32 bytes; the offset 15 is resolved, but for the offset 16 the child of
level 1 is asked for slot `16 / 8 = 2` of its 2 slots. -/
theorem byteToSector_level_two_stride :
    ∃ h1 bm1 d1, (create tiny 2).Allocate tiny bmWide 32 (Disk.blank tiny)
        = .ok (true, h1, bm1, d1) ∧
      h1.numSectors = 2 ∧ (dataBlocks d1 3 h1).length = 8 ∧
      ByteToSector tiny d1 3 h1 15 = .ok 8 ∧
      ByteToSector tiny d1 3 h1 16 = .error .outOfBounds :=
  ⟨_, _, _, rfl, rfl, rfl, rfl, rfl⟩

end FileHeader

/-! ## `FindIndex`, `Find`, `Remove` and the slot written by `Add` -/

theorem strncmp_eq_zero_iff : ∀ (n : Nat) (a b : List Char),
    strncmp a b n = 0 ↔ sameName n a b = true
  | 0, a, b => by simp [strncmp, sameName]
  | n + 1, a, b => by
    have ih := strncmp_eq_zero_iff n a.tail b.tail
    have hne : ∀ x y : Char, x ≠ y → ((x.toNat : Int) - (y.toNat : Int) = 0 ↔ False) := by
      intro x y hxy
      constructor
      · intro h
        apply hxy
        apply Char.ext
        apply UInt32.ext
        have : x.toNat = y.toNat := by omega
        simpa [Char.toNat, UInt32.toNat] using this
      · exact False.elim
    cases a with
    | nil =>
      cases b with
      | nil => simp [strncmp, sameName, cstr]
      | cons y ys =>
        by_cases hy : y = NUL
        · simp [strncmp, sameName, cstr, hy]
        · have hy2 : NUL ≠ y := fun h => hy h.symm
          simp [strncmp, sameName, cstr, hy, hy2, hne NUL y hy2]
    | cons x xs =>
      cases b with
      | nil =>
        by_cases hx : x = NUL
        · simp [strncmp, sameName, cstr, hx]
        · simp [strncmp, sameName, cstr, hx, hne x NUL hx]
      | cons y ys =>
        by_cases hxy : x = y
        · subst hxy
          by_cases hx : x = NUL
          · simp [strncmp, sameName, cstr, hx]
          · simp only [List.tail_cons] at ih
            simp only [strncmp, List.headD_cons, ne_eq, not_true_eq_false, if_false, hx,
              List.tail_cons, ih]
            simp [sameName, cstr, hx]
        · by_cases hx : x = NUL
          · subst hx
            have hy : ¬ y = NUL := fun h => hxy h.symm
            simp [strncmp, sameName, cstr, hy, hxy, hne NUL y hxy]
          · by_cases hy : y = NUL
            · subst hy
              simp [strncmp, sameName, cstr, hx, hne x NUL hx]
            · simp [strncmp, sameName, cstr, hx, hy, hxy, hne x y hxy]

namespace Directory

theorem bindsName_iff (cfg : Config) (name : List Char) (e : DirectoryEntry) :
    bindsName cfg name e = true ↔
      e.inUse = true ∧ sameName cfg.FileNameMaxLen e.name name = true := by
  unfold bindsName
  rw [Bool.and_eq_true, ← strncmp_eq_zero_iff]
  simp

/-- The index that `FindIndex` returns, as a natural number: the entry there
binds the name and no entry before it does. -/
theorem FindIndex_eq_iff (cfg : Config) (self : Directory) (name : List Char) (i : Nat) :
    self.FindIndex cfg name = (i : Int) ↔
      ∃ e, self.table[i]? = some e ∧ bindsName cfg name e = true ∧
        ∀ j e1, j < i → self.table[j]? = some e1 → bindsName cfg name e1 = false := by
  constructor
  · intro h
    have hne : findIndexFrom cfg name self.table 0 ≠ -1 := by
      unfold FindIndex at h
      omega
    obtain ⟨l1, e, l2, hl, hf, hn, he⟩ := findIndexFrom_found cfg name self.table 0 hne
    have hi : l1.length = i := by
      unfold FindIndex at h
      omega
    subst hi
    refine ⟨e, ?_, he, ?_⟩
    · rw [hl, List.getElem?_append_right (le_refl _)]
      simp
    · intro j e1 hj hj1
      rw [hl, List.getElem?_append_left hj] at hj1
      exact hn e1 (List.getElem?_mem hj1)
  · rintro ⟨e, hie, he, hbefore⟩
    have hi : i < self.table.length := by
      by_contra hcon
      rw [List.getElem?_eq_none (by omega)] at hie
      cases hie
    have hsplit : self.table = self.table.take i ++ e :: self.table.drop (i + 1) := by
      rw [List.getElem?_eq_getElem hi] at hie
      have := Option.some.inj hie
      rw [← this, ← List.drop_eq_getElem_cons hi, List.take_append_drop]
    have hnone : ∀ x ∈ self.table.take i, bindsName cfg name x = false := by
      intro x hx
      rw [List.mem_take_iff_getElem] at hx
      obtain ⟨j, hj, hjx⟩ := hx
      have hj1 : j < i := lt_of_lt_of_le hj (min_le_left _ _)
      have hj2 : j < self.table.length := lt_of_lt_of_le hj (min_le_right _ _)
      exact hbefore j x hj1 (by rw [List.getElem?_eq_getElem hj2, hjx])
    unfold FindIndex
    rw [hsplit, findIndexFrom_append cfg name _ _ 0 hnone]
    simp only [findIndexFrom, he, if_true, List.length_take]
    have : min i self.table.length = i := by omega
    rw [this]
    omega

/-- C17 (amended): `FindIndex(name)` returns `-1` exactly when no entry in use
has a name that agrees with `name` on the first `FileNameMaxLen` characters;
otherwise it returns the least index of such an entry.  `Find(name)` returns `-1` when
`FindIndex` returns `-1` and the `sector` of the entry at the index found
otherwise (so, when no entry in use stores the location `-1`, it returns `-1`
exactly when `FindIndex` does).  An entry that is not in use is never the one
found. -/
theorem findIndex_least (cfg : Config) (self : Directory) (name : List Char) :
    (self.FindIndex cfg name = -1 ↔
      ∀ e ∈ self.table,
        ¬ (e.inUse = true ∧ sameName cfg.FileNameMaxLen e.name name = true)) ∧
    (∀ i : Nat, self.FindIndex cfg name = (i : Int) ↔
      ∃ e, self.table[i]? = some e ∧ e.inUse = true ∧
        sameName cfg.FileNameMaxLen e.name name = true ∧
        ∀ j e1, j < i → self.table[j]? = some e1 →
          ¬ (e1.inUse = true ∧ sameName cfg.FileNameMaxLen e1.name name = true)) ∧
    (self.FindIndex cfg name = -1 ∨
      ∃ i : Nat, self.FindIndex cfg name = (i : Int) ∧ i < self.tableSize) ∧
    (self.FindIndex cfg name = -1 → self.Find cfg name = -1) ∧
    (∀ i : Nat, self.FindIndex cfg name = (i : Int) →
      ∃ e, self.table[i]? = some e ∧ self.Find cfg name = e.sector) ∧
    ((∀ e ∈ self.table, e.inUse = true → e.sector ≠ -1) →
      (self.Find cfg name = -1 ↔ self.FindIndex cfg name = -1)) ∧
    (∀ (i : Nat) e, self.table[i]? = some e → e.inUse = false →
      self.FindIndex cfg name ≠ (i : Int)) := by
  have hfound : ∀ i : Nat, self.FindIndex cfg name = (i : Int) →
      ∃ e, self.table[i]? = some e ∧ e.inUse = true ∧ self.Find cfg name = e.sector := by
    intro i hi
    obtain ⟨e, hie, he, -⟩ := (FindIndex_eq_iff cfg self name i).1 hi
    refine ⟨e, hie, ((bindsName_iff cfg name e).1 he).1, ?_⟩
    have hne : ((i : Int)) ≠ -1 := by omega
    simp [Find, hi, hne, hie]
  have hcases : self.FindIndex cfg name = -1 ∨
      ∃ i : Nat, self.FindIndex cfg name = (i : Int) ∧ i < self.tableSize := by
    by_cases h : self.FindIndex cfg name = -1
    · exact Or.inl h
    · right
      obtain ⟨l1, e, l2, hl, hf, -, -⟩ := findIndexFrom_found cfg name self.table 0 h
      refine ⟨l1.length, by simpa [FindIndex] using hf, ?_⟩
      simp [tableSize, hl]
  refine ⟨?_, ?_, hcases, ?_, ?_, ?_, ?_⟩
  · unfold FindIndex
    rw [findIndexFrom_none_iff cfg name self.table 0 (le_refl 0)]
    constructor
    · intro h e he hb
      have := h e he
      rw [(bindsName_iff cfg name e).2 hb] at this
      cases this
    · intro h e he
      cases hb : bindsName cfg name e with
      | false => rfl
      | true => exact absurd ((bindsName_iff cfg name e).1 hb) (h e he)
  · intro i
    rw [FindIndex_eq_iff]
    constructor
    · rintro ⟨e, hie, he, hbefore⟩
      obtain ⟨h1, h2⟩ := (bindsName_iff cfg name e).1 he
      refine ⟨e, hie, h1, h2, ?_⟩
      intro j e1 hj hj1 hb
      have := hbefore j e1 hj hj1
      rw [(bindsName_iff cfg name e1).2 hb] at this
      cases this
    · rintro ⟨e, hie, h1, h2, hbefore⟩
      refine ⟨e, hie, (bindsName_iff cfg name e).2 ⟨h1, h2⟩, ?_⟩
      intro j e1 hj hj1
      cases hb : bindsName cfg name e1 with
      | false => rfl
      | true => exact absurd ((bindsName_iff cfg name e1).1 hb) (hbefore j e1 hj hj1)
  · intro h
    simp [Find, h]
  · intro i hi
    obtain ⟨e, hie, -, hf⟩ := hfound i hi
    exact ⟨e, hie, hf⟩
  · intro hvalid
    constructor
    · intro hf
      rcases hcases with h | ⟨i, hi, -⟩
      · exact h
      · obtain ⟨e, hie, hu, hfe⟩ := hfound i hi
        rw [hfe] at hf
        exact absurd hf (hvalid e (List.getElem?_mem hie) hu)
    · intro h
      simp [Find, h]
  · intro i e hie hu hi
    obtain ⟨e1, hie1, hu1, -⟩ := hfound i hi
    rw [hie] at hie1
    injection hie1 with hie1
    subst hie1
    rw [hu] at hu1
    cases hu1

end Directory

theorem strncpyBytes_length : ∀ (n : Nat) (src : List Char), (strncpyBytes src n).length = n
  | 0, src => by simp [strncpyBytes]
  | n + 1, [] => by simp [strncpyBytes, strncpyBytes_length n []]
  | n + 1, c :: cs => by
    by_cases hc : c = NUL
    · simp [strncpyBytes, hc, strncpyBytes_length n []]
    · simp [strncpyBytes, hc, strncpyBytes_length n cs]

theorem strncpyBytes_nil : ∀ (n : Nat), strncpyBytes [] n = List.replicate n NUL
  | 0 => by simp [strncpyBytes]
  | n + 1 => by simp [strncpyBytes, strncpyBytes_nil n, List.replicate_succ]

/-- A string without NUL that fits is copied whole and padded with NUL. -/
theorem strncpyBytes_fits : ∀ (n : Nat) (src : List Char), (∀ c ∈ src, c ≠ NUL) →
    src.length ≤ n → strncpyBytes src n = src ++ List.replicate (n - src.length) NUL
  | 0, src, _, hlen => by
    have : src = [] := List.eq_nil_of_length_eq_zero (by omega)
    simp [strncpyBytes, this]
  | n + 1, [], _, _ => by simp [strncpyBytes_nil]
  | n + 1, c :: cs, h, hlen => by
    have hc : c ≠ NUL := h c (by simp)
    have ih := strncpyBytes_fits n cs (fun x hx => h x (by simp [hx]))
      (by simp at hlen; omega)
    simp [strncpyBytes, hc, ih]

theorem validComponent_noNUL (cfg : Config) (c : List Char) (h : validComponent cfg c = true) :
    (∀ x ∈ c, x ≠ NUL) ∧ c.length ≤ cfg.FileNameMaxLen := by
  cases c with
  | nil => simp [validComponent] at h
  | cons a t =>
    simp only [validComponent, Bool.and_eq_true, List.tail_cons, List.all_eq_true,
      List.head?_cons, beq_iff_eq, Option.some.injEq, decide_eq_true_eq] at h
    obtain ⟨⟨⟨ha, -⟩, ht⟩, hlen⟩ := h
    refine ⟨?_, hlen⟩
    intro x hx
    simp only [List.mem_cons] at hx
    rcases hx with rfl | hx
    · rw [ha]; decide
    · have := (ht x hx)
      simp only [Bool.and_eq_true, bne_iff_ne, ne_eq] at this
      exact this.2

namespace Directory

/-- C14: when no entry in use has a name that agrees with `name` on the first
`FileNameMaxLen` characters, `Remove(name)` returns failure and the table is as
before; when some entry does, `Remove` returns success and the table differs
from the old one only in the `inUse` flag of the first such entry, which is now
`FALSE`. -/
theorem remove_frame (cfg : Config) (self : Directory) (name : List Char) :
    ((∀ e ∈ self.table,
        ¬ (e.inUse = true ∧ sameName cfg.FileNameMaxLen e.name name = true)) →
      self.Remove cfg name = (false, self)) ∧
    ((∃ e ∈ self.table, e.inUse = true ∧ sameName cfg.FileNameMaxLen e.name name = true) →
      ∃ l1 e l2, self.table = l1 ++ e :: l2 ∧
        (∀ x ∈ l1, ¬ (x.inUse = true ∧ sameName cfg.FileNameMaxLen x.name name = true)) ∧
        e.inUse = true ∧ sameName cfg.FileNameMaxLen e.name name = true ∧
        self.Remove cfg name = (true, ⟨l1 ++ { e with inUse := false } :: l2⟩)) := by
  constructor
  · intro h
    apply (Remove_absent cfg self name _).2
    intro e he
    cases hb : bindsName cfg name e with
    | false => rfl
    | true => exact absurd ((bindsName_iff cfg name e).1 hb) (h e he)
  · rintro ⟨e0, he0, hb0⟩
    have hrem : (self.Remove cfg name).1 = true := by
      have hne : self.FindIndex cfg name ≠ -1 := by
        intro hcon
        have := (findIndexFrom_none_iff cfg name self.table 0 (le_refl 0)).1 hcon e0 he0
        rw [(bindsName_iff cfg name e0).2 hb0] at this
        cases this
      obtain ⟨l1, e, l2, hl, hf, -, -⟩ := findIndexFrom_found cfg name self.table 0 hne
      have hidx : self.FindIndex cfg name = (l1.length : Int) := by
        simpa [FindIndex] using hf
      have hne2 : ((l1.length : Int)) ≠ -1 := by omega
      simp only [Remove, hidx, hne2, if_false, Int.toNat_ofNat, hl]
      rw [List.getElem?_append_right (le_refl _)]
      simp
    obtain ⟨l1, e, l2, hl, hn, he, hr⟩ := Remove_success cfg self name hrem
    obtain ⟨h1, h2⟩ := (bindsName_iff cfg name e).1 he
    refine ⟨l1, e, l2, hl, ?_, h1, h2, hr⟩
    intro x hx hb
    have := hn x hx
    rw [(bindsName_iff cfg name x).2 hb] at this
    cases this

/-- A witness of `remove_frame`: `rootA` binds `"/a.txt"` and does not bind
`"/b"`. -/
theorem remove_frame_witness :
    rootA.Remove nachos "/b".toList = (false, rootA) ∧
      ∃ l1 e l2, rootA.table = l1 ++ e :: l2 ∧
        rootA.Remove nachos "/a.txt".toList = (true, ⟨l1 ++ { e with inUse := false } :: l2⟩) := by
  refine ⟨(remove_frame nachos rootA "/b".toList).1 (by decide), ?_⟩
  obtain ⟨l1, e, l2, hl, -, -, -, hr⟩ :=
    (remove_frame nachos rootA "/a.txt".toList).2 ⟨entryA, by decide, by decide⟩
  exact ⟨l1, e, l2, hl, hr⟩

/-- C18: on a table with a free slot, `Add(name, s)` with a valid
single-component name returns success and writes only the first entry that is
not in use: it becomes in use, a file, with `sector = s`, and its name array
holds `name` padded with NUL in its first `FileNameMaxLen` bytes (its last byte
is as before).  The entries before and after it and the number of entries are
as before, and the number of entries in use grows by one. -/
theorem add_writes_first_free (cfg : Config) (self : Directory) (d : Disk) (name : List Char)
    (s : Int) (hfree : ∃ e ∈ self.table, e.inUse = false)
    (hname : validComponent cfg name = true) :
    ∃ l1 e l2 e1, self.table = l1 ++ e :: l2 ∧ (∀ x ∈ l1, x.inUse = true) ∧
      e.inUse = false ∧
      self.Add cfg d name s = .ok (true, ⟨l1 ++ e1 :: l2⟩, d) ∧
      e1.inUse = true ∧ e1.isFile = true ∧ e1.sector = s ∧
      e1.name.take cfg.FileNameMaxLen
        = name ++ List.replicate (cfg.FileNameMaxLen - name.length) NUL ∧
      e1.name.drop cfg.FileNameMaxLen = e.name.drop cfg.FileNameMaxLen ∧
      sameName cfg.FileNameMaxLen e1.name name = true ∧
      (⟨l1 ++ e1 :: l2⟩ : Directory).tableSize = self.tableSize ∧
      (l1 ++ e1 :: l2).countP (fun x => x.inUse)
        = self.table.countP (fun x => x.inUse) + 1 := by
  obtain ⟨l1, e, l2, hl, hin, he, hfill⟩ := fillFirstFree_some cfg name s true self.table hfree
  obtain ⟨hnul, hlen⟩ := validComponent_noNUL cfg name hname
  have hbytes := strncpyBytes_fits cfg.FileNameMaxLen name hnul hlen
  have hblen := strncpyBytes_length cfg.FileNameMaxLen name
  refine ⟨l1, e, l2, ⟨true, true, s, strncpy e.name name cfg.FileNameMaxLen⟩,
    hl, hin, he, ?_, rfl, rfl, rfl, ?_, ?_, ?_, ?_, ?_⟩
  · rw [Add_flat cfg self d name s hname]
    simp [addFlat, hfill]
  · simp only [strncpy]
    rw [List.take_append_of_le_length (by omega), List.take_of_length_le (by omega), hbytes]
  · simp only [strncpy]
    rw [List.drop_append_of_le_length (by omega), List.drop_of_length_le (by omega)]
    simp
  · rw [← strncmp_eq_zero_iff]
    exact strncmp_strncpy _ _ _
  · simp [tableSize, hl]
  · rw [hl]
    simp [List.countP_append, List.countP_cons, he]
    omega

/-- A witness of `add_writes_first_free`: `Add("/b", 7)` on `rootA`. -/
theorem add_writes_first_free_witness :
    ∃ l1 e l2 e1, rootA.table = l1 ++ e :: l2 ∧
      rootA.Add nachos (Disk.blank nachos) "/b".toList 7
        = .ok (true, ⟨l1 ++ e1 :: l2⟩, Disk.blank nachos) ∧
      e1.inUse = true ∧ e1.isFile = true ∧ e1.sector = 7 := by
  obtain ⟨l1, e, l2, e1, hl, -, -, hadd, h1, h2, h3, -⟩ :=
    add_writes_first_free nachos rootA (Disk.blank nachos) "/b".toList 7
      ⟨freeEntry, by decide, rfl⟩ (by decide)
  exact ⟨l1, e, l2, e1, hl, hadd, h1, h2, h3⟩

end Directory

/-! ## `Deallocate` after `Allocate`: assertions and termination -/

namespace FileHeader

/-- The loop of `Deallocate` returns the same free map when the recursive call
is replaced by one that returns the same wherever the first returns. -/
theorem deallocLoop_mono (d : Disk) (ds : List Int)
    (c1 c2 : FileHeader → Bitmap → Except Fault Bitmap)
    (hc : ∀ f bm r, c1 f bm = .ok r → c2 f bm = .ok r) :
    ∀ (todo i : Nat) (bm r : Bitmap),
      deallocLoop (some c1) d ds todo i bm = .ok r →
      deallocLoop (some c2) d ds todo i bm = .ok r
  | 0, _, _, _, h => by simpa [deallocLoop] using h
  | todo + 1, i, bm, r, h => by
    simp only [deallocLoop] at h ⊢
    cases hs : slotAt ds (i : Int) with
    | error e => simp [hs] at h
    | ok s =>
      simp only [hs] at h ⊢
      cases ht : bm.Test s with
      | error e => simp [ht] at h
      | ok v =>
        cases v with
        | false => simp [ht] at h
        | true =>
          simp only [ht] at h ⊢
          cases hf : FetchFrom d s with
          | error e => simp [hf] at h
          | ok f =>
            simp only [hf] at h ⊢
            cases h1 : c1 f bm with
            | error e => simp [h1] at h
            | ok bmA =>
              simp only [h1] at h
              simp only [hc f bm bmA h1]
              cases hclr : bmA.Clear s with
              | error e => simp [hclr] at h
              | ok bmB =>
                simp only [hclr] at h ⊢
                exact deallocLoop_mono d ds c1 c2 hc todo (i + 1) bmB r h

/-- More fuel does not change what `Deallocate` returns. -/
theorem Deallocate_fuel_succ (d : Disk) : ∀ (fuel : Nat) (h : FileHeader) (bm r : Bitmap),
    Deallocate d fuel h bm = .ok r → Deallocate d (fuel + 1) h bm = .ok r
  | 0, _, _, _, hd => by simp [Deallocate] at hd
  | fuel + 1, h, bm, r, hd => by
    rw [Deallocate] at hd ⊢
    by_cases hl : h.level = 0
    · simpa [hl] using hd
    · simp only [hl, if_false] at hd ⊢
      exact deallocLoop_mono d h.dataSectors _ _
        (fun f b r1 h1 => Deallocate_fuel_succ d fuel f b r1 h1) _ 0 bm r hd

theorem Deallocate_fuel_le (d : Disk) (h : FileHeader) (bm r : Bitmap) (fuel : Nat)
    (hd : Deallocate d fuel h bm = .ok r) :
    ∀ fuel1, fuel ≤ fuel1 → Deallocate d fuel1 h bm = .ok r := by
  intro fuel1 hle
  induction fuel1, hle using Nat.le_induction with
  | base => exact hd
  | succ n _ ih => exact Deallocate_fuel_succ d n h bm r ih

/-- C19: after a successful `Allocate` on a header of any level, every block of
the tree is marked in the free map, and `Deallocate` on the resulting header
returns for every fuel from `level + 1` on: no `ASSERT(freeMap->Test(...))`
fails, no slot outside the array is read, and the recursion over the headers
read from disk ends.  It has cleared exactly the blocks of the tree. -/
theorem deallocate_never_asserts (cfg : Config) (self : FileHeader) (freeMap : Bitmap)
    (d : Disk) (fileSize : Int) (h1 : FileHeader) (bm1 : Bitmap) (d1 : Disk)
    (hslots : self.dataSectors.length = cfg.NumDirect)
    (halloc : self.Allocate cfg freeMap fileSize d = .ok (true, h1, bm1, d1)) :
    (∀ x ∈ treeBlocks d1 (self.level + 1) h1, bm1.Test x = .ok true) ∧
      ∃ bm2, (∀ fuel, self.level + 1 ≤ fuel → Deallocate d1 fuel h1 bm1 = .ok bm2) ∧
        ∀ x, bm2.Test x
          = if x ∈ treeBlocks d1 (self.level + 1) h1 then .ok false else bm1.Test x := by
  have P := allocateAt_spec cfg self.level self fileSize freeMap d h1 bm1 d1 (by omega) halloc
  have hmarked : ∀ x ∈ treeBlocks d1 (self.level + 1) h1, bm1.Test x = .ok true := by
    intro x hx
    rw [P.marks x]
    simp [hx]
  obtain ⟨bm2, hde, htest⟩ := Deallocate_spec cfg d1 self.level h1 bm1 P.built P.nodup hmarked
  exact ⟨hmarked, bm2, Deallocate_fuel_le d1 h1 bm1 bm2 _ hde, htest⟩

set_option maxRecDepth 100000 in
/-- A witness of `deallocate_never_asserts`: with the constants `tiny`, a header
of level 1 allocated for 16 bytes on the free map `bmSmall`. -/
theorem deallocate_never_asserts_witness :
    ∃ h1 bm1 d1 bm2, (create tiny 1).Allocate tiny bmSmall 16 (Disk.blank tiny)
        = .ok (true, h1, bm1, d1) ∧
      ∀ fuel, 2 ≤ fuel → Deallocate d1 fuel h1 bm1 = .ok bm2 := by
  have hA : ∃ h1 bm1 d1, (create tiny 1).Allocate tiny bmSmall 16 (Disk.blank tiny)
      = .ok (true, h1, bm1, d1) := ⟨_, _, _, rfl⟩
  obtain ⟨h1, bm1, d1, hA⟩ := hA
  obtain ⟨-, bm2, h2, -⟩ := deallocate_never_asserts tiny (create tiny 1) bmSmall
    (Disk.blank tiny) 16 h1 bm1 d1 rfl hA
  exact ⟨h1, bm1, d1, bm2, hA, h2⟩

end FileHeader

/-! ## `Allocate` at level 0 always returns -/

namespace Bitmap

/-- With a clear bit left, `FindAndSet` returns an index and one clear bit
less. -/
theorem FindAndSet_of_clear (bm : Bitmap) (h : 0 < bm.NumClear) :
    ∃ s bm1, bm.FindAndSet = (s, bm1) ∧ ¬ s < 0 ∧ bm1.NumClear = bm.NumClear - 1 := by
  unfold NumClear at h
  have hc : 0 < bm.bits.count false := by exact_mod_cast h
  have hmem : false ∈ bm.bits := List.count_pos_iff.1 hc
  have hlt : List.findIdx (fun b => !b) bm.bits < bm.bits.length :=
    List.findIdx_lt_length_of_exists ⟨false, hmem, rfl⟩
  have hbit := List.findIdx_getElem (w := hlt)
  simp only [Bool.not_eq_true'] at hbit
  refine ⟨(List.findIdx (fun b => !b) bm.bits : Nat),
    ⟨bm.bits.set (List.findIdx (fun b => !b) bm.bits) true⟩, by simp [FindAndSet, hlt],
    by omega, ?_⟩
  simp only [NumClear]
  rw [List.count_set _ _ _ _ hlt]
  simp [hbit]
  omega

end Bitmap

namespace FileHeader

/-- The loop of `Allocate` at `level == 0` returns `TRUE` when as many bits are
clear as it has iterations left. -/
theorem allocLoop_none_total : ∀ (todo i : Nat) (ds : List Int) (bm : Bitmap) (d : Disk),
    (todo : Int) ≤ bm.NumClear →
      ∃ ds1 bm1, allocLoop none todo i ds bm d = .ok (true, ds1, bm1, d)
  | 0, _, ds, bm, _, _ => ⟨ds, bm, rfl⟩
  | todo + 1, i, ds, bm, d, h => by
    obtain ⟨s, bmA, hfs, hs, hcnt⟩ := Bitmap.FindAndSet_of_clear bm (by push_cast at h; omega)
    obtain ⟨ds1, bm1, hrest⟩ := allocLoop_none_total todo (i + 1) (ds.set i s) bmA d
      (by push_cast at h; omega)
    exact ⟨ds1, bm1, by simp only [allocLoop, hfs, hs, if_false]; exact hrest⟩

/-- `Allocate` on a header of level 0 returns, leaves the disk alone, and its
result is `TRUE` exactly when the free count is not below the block count. -/
theorem Allocate_level_zero_returns (cfg : Config) (self : FileHeader) (freeMap : Bitmap)
    (d : Disk) (fileSize : Int) (hl : self.level = 0) (hss : cfg.SectorSize ≠ 0) :
    ∃ r h1 bm1, self.Allocate cfg freeMap fileSize d = .ok (r, h1, bm1, d) ∧
      (r = true ↔ ¬ freeMap.NumClear < blockCount cfg fileSize) := by
  unfold Allocate
  rw [hl, allocateAt_unfold]
  simp only [hss, if_false]
  by_cases hc : freeMap.NumClear < blockCount cfg fileSize
  · have hc1 := hc
    unfold blockCount at hc1
    simp only [hc1, if_true]
    exact ⟨false, _, _, rfl, by simp [hc]⟩
  · have hc1 := hc
    unfold blockCount at hc1
    simp only [hc1, if_false]
    have hnn : 0 ≤ freeMap.NumClear := by unfold Bitmap.NumClear; exact Int.natCast_nonneg _
    obtain ⟨ds1, bm1, hloop⟩ := allocLoop_none_total (blockCount cfg fileSize).toNat 0
      self.dataSectors freeMap d (by omega)
    unfold blockCount at hloop
    simp only [hloop]
    exact ⟨true, _, _, rfl, by simp [hc]⟩

end FileHeader

/-! ## `AddDirectory` on a table with a free slot -/

namespace Directory

theorem AddDirectory_flat (cfg : Config) (self : Directory) (d : Disk) (name : List Char)
    (t : Int) (freeMap : Bitmap) (hname : validComponent cfg name = true) :
    self.AddDirectory cfg d name t freeMap = self.addDirectoryFlat cfg d name t freeMap := by
  simp only [AddDirectory, cutPath_validComponent cfg name hname]

/-- C15: on a table with a free slot, for a valid single-component name, a
sector `t` and a free map with at least as many clear bits as
`DirectoryFileSize` bytes need blocks, `AddDirectory(name, t, freeMap)` returns
`TRUE`; the first entry not in use becomes an entry in use with
`isFile = FALSE`, `sector = t` and the name; the header stored at sector `t` is
the one that a successful `Allocate(freeMap, DirectoryFileSize)` on a fresh
header produced, with `numBytes = DirectoryFileSize`, and its blocks are marked
in the free map that is returned (none of them is `t` when `t` was marked
before the call); and the table read back from sector `t` is the empty table
of `NumDirEntries` entries, on which `FindIndex` returns `-1` for every
name. -/
theorem addDirectory_creates (cfg : Config) (self : Directory) (d : Disk) (name : List Char)
    (t : Int) (freeMap : Bitmap)
    (hfree : ∃ e ∈ self.table, e.inUse = false)
    (hname : validComponent cfg name = true) (ht : 0 ≤ t) (hss : cfg.SectorSize ≠ 0)
    (henough : FileHeader.blockCount cfg cfg.DirectoryFileSize ≤ freeMap.NumClear) :
    ∃ l1 e l2 e1 bm1 d1, self.table = l1 ++ e :: l2 ∧ (∀ x ∈ l1, x.inUse = true) ∧
      e.inUse = false ∧
      self.AddDirectory cfg d name t freeMap = .ok (true, ⟨l1 ++ e1 :: l2⟩, bm1, d1) ∧
      e1.inUse = true ∧ e1.isFile = false ∧ e1.sector = t ∧
      sameName cfg.FileNameMaxLen e1.name name = true ∧
      (FileHeader.create cfg 0).Allocate cfg freeMap cfg.DirectoryFileSize d
        = .ok (true, d1.hdr t, bm1, d) ∧
      (d1.hdr t).numBytes = cfg.DirectoryFileSize ∧
      (d1.hdr t).numSectors = FileHeader.blockCount cfg cfg.DirectoryFileSize ∧
      (∀ x ∈ (d1.hdr t).slots, bm1.Test x = .ok true) ∧
      (freeMap.Test t = .ok true → t ∉ (d1.hdr t).slots) ∧
      (create cfg cfg.NumDirEntries).FetchFrom d1 ⟨t⟩ = create cfg cfg.NumDirEntries ∧
      ∀ other, ((create cfg cfg.NumDirEntries).FetchFrom d1 ⟨t⟩).FindIndex cfg other = -1 := by
  obtain ⟨l1, e, l2, hl, hin, he, hfill⟩ := fillFirstFree_some cfg name t false self.table hfree
  obtain ⟨r, hd, bm1, halloc, hr⟩ := FileHeader.Allocate_level_zero_returns cfg
    (FileHeader.create cfg 0) freeMap d cfg.DirectoryFileSize rfl hss
  have hrt : r = true := hr.2 (by omega)
  subst hrt
  obtain ⟨-, hnb, hns, hlev, -⟩ := FileHeader.allocateAt_ok cfg 0 _ _ _ _ _ _ _ _ halloc
  have hpost := FileHeader.allocateAt_spec cfg 0 _ _ _ _ _ _ _
    (by simp [FileHeader.create]) halloc
  have htb : treeBlocks d (0 + 1) hd = hd.slots := treeBlocks_level_zero d 0 hd hlev
  have hread : (create cfg cfg.NumDirEntries).FetchFrom
      ((create cfg cfg.NumDirEntries).WriteBack
        { d with hdr := fun x => if x = t then hd else d.hdr x } ⟨t⟩) ⟨t⟩
      = create cfg cfg.NumDirEntries := by
    have := FetchFrom_WriteBack cfg { d with hdr := fun x => if x = t then hd else d.hdr x }
      (create cfg cfg.NumDirEntries) ⟨t⟩
    simpa [tableSize, create] using this
  refine ⟨l1, e, l2, ⟨true, false, t, strncpy e.name name cfg.FileNameMaxLen⟩, bm1,
    (create cfg cfg.NumDirEntries).WriteBack
      { d with hdr := fun x => if x = t then hd else d.hdr x } ⟨t⟩,
    hl, hin, he, ?_, rfl, rfl, rfl, ?_, ?_, ?_, ?_, ?_, ?_, hread, ?_⟩
  · rw [AddDirectory_flat cfg self d name t freeMap hname]
    simp [addDirectoryFlat, halloc, FileHeader.WriteBack, Disk.writeHeader, OpenFile.create, ht,
      hfill]
  · rw [← strncmp_eq_zero_iff]
    exact strncmp_strncpy _ _ _
  · simpa [WriteBack] using halloc
  · simpa [WriteBack] using hnb
  · simpa [WriteBack] using hns
  · intro x hx
    have hx1 : x ∈ hd.slots := by simpa [WriteBack] using hx
    have := hpost.marks x
    rw [htb] at this
    simpa [hx1] using this
  · intro hmark hmem
    have hx1 : t ∈ hd.slots := by simpa [WriteBack] using hmem
    have := hpost.free t (by rw [htb]; exact hx1)
    rw [hmark] at this
    cases this
  · intro other
    rw [hread]
    exact create_free cfg cfg.NumDirEntries other

set_option maxRecDepth 100000 in
/-- A witness of `addDirectory_creates`: `AddDirectory("/sub", 7, bm0)` on an
empty table of capacity 10 with the stock constants. -/
theorem addDirectory_creates_witness :
    ∃ root1 bm1 d1,
      (create nachos 10).AddDirectory nachos (Disk.blank nachos) "/sub".toList 7 bm0
        = .ok (true, root1, bm1, d1) ∧
      (d1.hdr 7).numBytes = 1024 ∧ (d1.hdr 7).numSectors = 8 ∧
      ∀ other, ((create nachos nachos.NumDirEntries).FetchFrom d1 ⟨7⟩).FindIndex nachos other
        = -1 := by
  obtain ⟨l1, e, l2, e1, bm1, d1, -, -, -, hadd, -, -, -, -, -, hnb, hns, -, -, -, hfind⟩ :=
    addDirectory_creates nachos (create nachos 10) (Disk.blank nachos) "/sub".toList 7 bm0
      ⟨freeEntry, by decide, rfl⟩ (by decide) (by decide) (by decide) (by decide)
  exact ⟨_, bm1, d1, hadd, hnb, by rw [hns]; decide, hfind⟩

end Directory

/-! ## Name uniqueness and `AddDirectory` on a full table -/

namespace Directory

/-- C16 at the failing input: the fresh table of capacity 10 satisfies the
invariant; `Add("/a.txt", 5)` returns `TRUE` and gives `rootA`, which satisfies
it; a second `Add("/a.txt", 9)` returns `TRUE` and gives `rootAA`, whose
entries 0 and 1 are both in use and hold the same name, so the invariant does not
hold after this sequence of two calls. -/
theorem add_twice_breaks_uniqueness :
    (create nachos 10).namesUnique nachos = true ∧
      (create nachos 10).Add nachos (Disk.blank nachos) "/a.txt".toList 5
        = .ok (true, rootA, Disk.blank nachos) ∧
      rootA.namesUnique nachos = true ∧
      rootA.Add nachos (Disk.blank nachos) "/a.txt".toList 9
        = .ok (true, rootAA, Disk.blank nachos) ∧
      rootAA.namesUnique nachos = false ∧
      ∃ e0 e1, rootAA.table[0]? = some e0 ∧ rootAA.table[1]? = some e1 ∧
        e0.inUse = true ∧ e1.inUse = true ∧ e0.name = e1.name := by
  refine ⟨by decide, ?_, by decide, ?_, by decide, ⟨_, _, rfl, rfl, rfl, rfl, rfl⟩⟩
  · rw [Add_flat nachos _ _ _ 5 (by decide)]
    have h1 : ((create nachos 10).addFlat nachos "/a.txt".toList 5) = (true, rootA) := by decide
    rw [h1]
  · rw [Add_flat nachos rootA _ _ 9 (by decide)]
    have h1 : (rootA.addFlat nachos "/a.txt".toList 9) = (true, rootAA) := by decide
    rw [h1]

set_option maxRecDepth 100000 in
/-- C20 at the failing input: on the full table `rootFull`,
`AddDirectory("/sub", 7, bm0)` returns `FALSE` and leaves the table as it was,
but the free map it leaves is `bm0Dir`, with eight more sectors marked (92
clear bits instead of 100), the header record of sector 7 is now a header of
1024 bytes and the table bound to sector 7 is an empty table of
`NumDirEntries` entries.  `Add("/sub", 7)` on the same table returns `FALSE` and
changes nothing. -/
theorem addDirectory_full_not_atomic :
    (∀ e ∈ rootFull.table, e.inUse = true) ∧
      (∃ d1, rootFull.AddDirectory nachos (Disk.blank nachos) "/sub".toList 7 bm0
          = .ok (false, rootFull, bm0Dir, d1) ∧
        (d1.hdr 7).numBytes = 1024 ∧ (d1.hdr 7).numSectors = 8 ∧
        d1.dir 7 = (create nachos 64).table) ∧
      bm0Dir ≠ bm0 ∧ bm0.NumClear = 100 ∧ bm0Dir.NumClear = 92 ∧
      ((Disk.blank nachos).hdr 7).numBytes = -1 ∧ (Disk.blank nachos).dir 7 = [] ∧
      rootFull.Add nachos (Disk.blank nachos) "/sub".toList 7
        = .ok (false, rootFull, Disk.blank nachos) := by
  refine ⟨by decide, ⟨_, rfl, rfl, rfl, rfl⟩, by decide, by decide, by decide, rfl, rfl, rfl⟩

end Directory

/-! ## `AddDirectory` on an exhausted free map -/

namespace Directory

/-- The `depth == 1` branch of `AddDirectory` does not look at what `Allocate`
returns: on a table with a free slot and a free map with fewer clear bits than
`DirectoryFileSize` bytes need, `Allocate` returns `FALSE`, and `AddDirectory`
still returns `TRUE`, writes the entry, and stores at sector `t` the header
that the failed `Allocate` left, whose slots are all as the constructor left
them. -/
theorem AddDirectory_exhausted (cfg : Config) (self : Directory) (d : Disk) (name : List Char)
    (t : Int) (freeMap : Bitmap)
    (hfree : ∃ e ∈ self.table, e.inUse = false)
    (hname : validComponent cfg name = true) (ht : 0 ≤ t) (hss : cfg.SectorSize ≠ 0)
    (hlow : freeMap.NumClear < FileHeader.blockCount cfg cfg.DirectoryFileSize) :
    ∃ l1 e l2 e1 d1, self.table = l1 ++ e :: l2 ∧ (∀ x ∈ l1, x.inUse = true) ∧
      e.inUse = false ∧
      self.AddDirectory cfg d name t freeMap = .ok (true, ⟨l1 ++ e1 :: l2⟩, freeMap, d1) ∧
      e1.inUse = true ∧ e1.isFile = false ∧ e1.sector = t ∧
      (FileHeader.create cfg 0).Allocate cfg freeMap cfg.DirectoryFileSize d
        = .ok (false, d1.hdr t, freeMap, d) ∧
      (d1.hdr t).dataSectors = List.replicate cfg.NumDirect (-1) := by
  obtain ⟨l1, e, l2, hl, hin, he, hfill⟩ := fillFirstFree_some cfg name t false self.table hfree
  obtain ⟨r, hd, bm1, halloc, hr⟩ := FileHeader.Allocate_level_zero_returns cfg
    (FileHeader.create cfg 0) freeMap d cfg.DirectoryFileSize rfl hss
  have hrf : r = false := by
    cases r with
    | false => rfl
    | true => exact absurd hlow (hr.1 rfl)
  subst hrf
  obtain ⟨-, -, -, -, hcase⟩ := FileHeader.allocateAt_ok cfg 0 _ _ _ _ _ _ _ _ halloc
  have hbm : bm1 = freeMap ∧ hd.dataSectors = List.replicate cfg.NumDirect (-1) := by
    rcases hcase with ⟨-, -, hb, -, hds⟩ | ⟨hnot, -⟩
    · exact ⟨hb, by simpa [FileHeader.create] using hds⟩
    · exact absurd hlow hnot
  obtain ⟨hb, hds⟩ := hbm
  subst hb
  refine ⟨l1, e, l2, ⟨true, false, t, strncpy e.name name cfg.FileNameMaxLen⟩,
    (create cfg cfg.NumDirEntries).WriteBack
      { d with hdr := fun x => if x = t then hd else d.hdr x } ⟨t⟩,
    hl, hin, he, ?_, rfl, rfl, rfl, ?_, ?_⟩
  · rw [AddDirectory_flat cfg self d name t bm1 hname]
    simp [addDirectoryFlat, halloc, FileHeader.WriteBack, Disk.writeHeader, OpenFile.create, ht,
      hfill]
  · simpa [WriteBack] using halloc
  · simpa [WriteBack] using hds

set_option maxRecDepth 100000 in
/-- C21 at the failing input: the free map `bmTight` has one clear bit and
`DirectoryFileSize` bytes need eight blocks, so `Allocate` on a fresh header
returns `FALSE`.  `AddDirectory("/sub", 7, bmTight)` on the empty table of
capacity 10 returns `TRUE` all the same: slot 0 of the table is now in use, a
directory, with `sector = 7`; the free map is as before; and the header stored
at sector 7 says 1024 bytes in 8 blocks while every one of its slots is still
`-1`. -/
theorem addDirectory_ignores_exhaustion :
    (∃ e ∈ (create nachos 10).table, e.inUse = false) ∧
      bmTight.NumClear = 1 ∧ FileHeader.blockCount nachos nachos.DirectoryFileSize = 8 ∧
      (∃ hd, (FileHeader.create nachos 0).Allocate nachos bmTight nachos.DirectoryFileSize
          (Disk.blank nachos) = .ok (false, hd, bmTight, Disk.blank nachos)) ∧
      ∃ root1 d1 e1,
        (create nachos 10).AddDirectory nachos (Disk.blank nachos) "/sub".toList 7 bmTight
          = .ok (true, root1, bmTight, d1) ∧
        (create nachos 10).table[0]? = some freeEntry ∧
        root1.table[0]? = some e1 ∧ e1.inUse = true ∧ e1.isFile = false ∧ e1.sector = 7 ∧
        root1.Find nachos "/sub".toList = 7 ∧
        (d1.hdr 7).numBytes = 1024 ∧ (d1.hdr 7).numSectors = 8 ∧
        (d1.hdr 7).dataSectors = List.replicate 29 (-1) := by
  refine ⟨⟨freeEntry, by decide, rfl⟩, by decide, by decide, ⟨_, rfl⟩,
    ⟨_, _, _, rfl, rfl, rfl, rfl, rfl, rfl, by decide, rfl, rfl, rfl⟩⟩

end Directory

/-! ## `ByteToSector` at level 2 and above: the stride and the tree of `Allocate` -/

namespace FileHeader

/-- In a tree of the shape that `Allocate` builds, of level at least 1, an
offset from `NumDirect * MaxFileSize` up to `MaxFileSize ^ 2` leads
`ByteToSector` to a slot that is not in use: every header of level 2 or more
sends it to its slot 0 unchanged, since its stride is at least
`MaxFileSize ^ 2`, and the header of level 1 is then asked for slot
`offset / MaxFileSize`, which is `NumDirect` or more. -/
theorem slotsInUse_overrun (cfg : Config) (d : Disk) (offset : Int)
    (hlo : (cfg.NumDirect : Int) * (cfg.MaxFileSize : Int) ≤ offset)
    (hhi : offset < (cfg.MaxFileSize : Int) ^ 2) :
    ∀ (l : Nat) (f : FileHeader), Built cfg d (l + 1) f → f.numSectors ≤ cfg.NumDirect →
      (∀ k, k ≤ l + 1 → (cfg.MaxFileSize : Int) ^ k < 2147483648) →
      slotsInUse cfg d (l + 2) f offset = false
  | 0, f, hb, hfull, hrep => by
    obtain ⟨hl, -, -⟩ := hb
    have hl0 : ¬ f.level = 0 := by omega
    have h0 : 0 ≤ offset := le_trans (by positivity) hlo
    have hM : (0 : Int) < cfg.MaxFileSize := by
      by_contra hcon
      have : (cfg.MaxFileSize : Int) = 0 := by omega
      rw [this] at hhi
      simp at hhi
      omega
    have hm : maxfs cfg 1 = (cfg.MaxFileSize : Int) := by
      simpa using maxfs_eq_pow cfg 1 hrep
    have hdiv : offset.tdiv (cfg.MaxFileSize : Int) = offset / (cfg.MaxFileSize : Int) :=
      Int.tdiv_eq_ediv h0 (by omega)
    have hidx : (cfg.NumDirect : Int) ≤ offset / (cfg.MaxFileSize : Int) :=
      (Int.le_ediv_iff_mul_le hM).2 hlo
    rw [slotsInUse]
    simp only [hl0, if_false, hl, hm, hdiv]
    have : ¬ (0 ≤ offset / (cfg.MaxFileSize : Int) ∧
        offset / (cfg.MaxFileSize : Int) < f.numSectors) := by omega
    simp [this]
  | l + 1, f, hb, hfull, hrep => by
    obtain ⟨hl, hn, hc⟩ := hb
    have hl0 : ¬ f.level = 0 := by omega
    have h0 : 0 ≤ offset := le_trans (by positivity) hlo
    have hM : (1 : Int) ≤ cfg.MaxFileSize := by
      by_contra hcon
      have : (cfg.MaxFileSize : Int) = 0 := by omega
      rw [this] at hhi
      simp at hhi
      omega
    have hm : maxfs cfg (l + 2) = (cfg.MaxFileSize : Int) ^ (l + 2) :=
      maxfs_eq_pow cfg (l + 2) hrep
    have hbig : offset < (cfg.MaxFileSize : Int) ^ (l + 2) :=
      lt_of_lt_of_le hhi (pow_le_pow_right₀ hM (by omega))
    have hdiv : offset.tdiv ((cfg.MaxFileSize : Int) ^ (l + 2)) = 0 := by
      rw [Int.tdiv_eq_ediv h0 (by omega)]
      exact Int.ediv_eq_zero_of_lt h0 hbig
    have hmod : offset.tmod ((cfg.MaxFileSize : Int) ^ (l + 2)) = offset := by
      rw [Int.tmod_eq_emod h0 (by omega)]
      exact Int.emod_eq_of_lt h0 hbig
    rw [slotsInUse]
    simp only [hl0, if_false, hl, hm, hdiv, hmod]
    by_cases hpos : (0 : Int) < f.numSectors
    · obtain ⟨s, hs, hmem⟩ := slotAt_ok_mem f.dataSectors 0 f.numSectors.toNat (le_refl 0)
        (by omega) hn
      obtain ⟨-, hsfull, hsb⟩ := hc s hmem
      have ih := slotsInUse_overrun cfg d offset hlo hhi l (d.hdr s) hsb (by omega)
        (fun k hk => hrep k (by omega))
      simp [hs, ih]
    · simp [hpos]

/-- C9, as a failure of the code for every level from 2 on: after a successful
`Allocate` on a header of level `L >= 2`, with `MaxFileSize ^ L` within the
range of `int`, every offset from `NumDirect * MaxFileSize` up to
`MaxFileSize ^ 2` makes `ByteToSector` index a slot that `Allocate` did not
fill.  These offsets lie in `[0, n)` for every allocated size `n` above
`NumDirect * MaxFileSize`, of which the tree holds
`NumDirect ^ L * MaxFileSize` bytes. -/
theorem byteToSector_deep_stride (cfg : Config) (self : FileHeader) (freeMap : Bitmap)
    (d : Disk) (fileSize : Int) (h1 : FileHeader) (bm1 : Bitmap) (d1 : Disk) (offset : Int)
    (hslots : self.dataSectors.length = cfg.NumDirect)
    (hlevel : 2 ≤ self.level)
    (hrep : (cfg.MaxFileSize : Int) ^ self.level < 2147483648)
    (halloc : self.Allocate cfg freeMap fileSize d = .ok (true, h1, bm1, d1))
    (hlo : (cfg.NumDirect : Int) * (cfg.MaxFileSize : Int) ≤ offset)
    (hhi : offset < (cfg.MaxFileSize : Int) ^ 2) :
    slotsInUse cfg d1 (self.level + 1) h1 offset = false := by
  have P := allocateAt_spec cfg self.level self fileSize freeMap d h1 bm1 d1 (by omega) halloc
  obtain ⟨-, -, hn, -, -⟩ :=
    allocateAt_ok cfg self.level self fileSize freeMap d true h1 bm1 d1 halloc
  have hM : (1 : Int) ≤ cfg.MaxFileSize := by
    have h0 : 0 ≤ offset := le_trans (by positivity) hlo
    by_contra hcon
    have : (cfg.MaxFileSize : Int) = 0 := by omega
    rw [this] at hhi
    simp at hhi
    omega
  have hrepAll : ∀ k, k ≤ self.level → (cfg.MaxFileSize : Int) ^ k < 2147483648 := by
    intro k hk
    exact lt_of_le_of_lt (pow_le_pow_right₀ hM hk) hrep
  have hle : h1.numSectors ≤ cfg.NumDirect := by
    rw [hn]
    unfold blockCount
    split <;> omega
  have hbuilt := P.built
  revert hbuilt hrepAll
  obtain ⟨l, hl⟩ : ∃ l, self.level = l + 2 := ⟨self.level - 2, by omega⟩
  rw [hl]
  intro hrepAll hbuilt
  exact slotsInUse_overrun cfg d1 offset hlo hhi (l + 1) h1 hbuilt hle hrepAll

set_option maxRecDepth 100000 in
/-- A witness of `byteToSector_deep_stride`, the failing input of C9: with the
constants `tiny` (`MaxFileSize = 8`, `NumDirect = 2`) a header of level 2 is
allocated for 17 bytes; the tree has 8 data blocks, 32 bytes.  The stride of
the header is `8 ^ 2 = 64`, so the offset 16 goes to the child of level 1 in
slot 0, which is asked for slot `16 / 8 = 2` of its 2 slots:
`ByteToSector(16)` reads outside the array, while the offset 15 is resolved. -/
theorem byteToSector_deep_stride_witness :
    ∃ h1 bm1 d1, (create tiny 2).Allocate tiny bmWide 17 (Disk.blank tiny)
        = .ok (true, h1, bm1, d1) ∧
      (dataBlocks d1 3 h1).length * tiny.SectorSize = 32 ∧ maxfs tiny 2 = 64 ∧
      slotsInUse tiny d1 3 h1 16 = false ∧
      ByteToSector tiny d1 3 h1 16 = .error .outOfBounds ∧
      ByteToSector tiny d1 3 h1 15 = .ok 8 := by
  have hA : ∃ h1 bm1 d1, (create tiny 2).Allocate tiny bmWide 17 (Disk.blank tiny)
      = .ok (true, h1, bm1, d1) ∧ (dataBlocks d1 3 h1).length * tiny.SectorSize = 32 ∧
      ByteToSector tiny d1 3 h1 16 = .error .outOfBounds ∧
      ByteToSector tiny d1 3 h1 15 = .ok 8 := ⟨_, _, _, rfl, rfl, rfl, rfl⟩
  obtain ⟨h1, bm1, d1, hA, hcap, h16, h15⟩ := hA
  have hs := byteToSector_deep_stride tiny (create tiny 2) bmWide (Disk.blank tiny) 17
    h1 bm1 d1 16 rfl (by decide) (by decide) hA (by decide) (by decide)
  exact ⟨h1, bm1, d1, hA, hcap, by decide, hs, h16, h15⟩

end FileHeader

/-! ## A location `-1` stored by `Add`, and the handle opened by the walk -/

namespace Directory

/-- One round of the first loop of the `else` branch of `Add`: the handle is
opened on whatever `Find` returned, with no test in between. -/
theorem walk_cons (cfg : Config) (d : Disk) (cur : Directory) (p : List Char)
    (ps : List (List Char)) (file : Option OpenFile) :
    walk cfg d cur (p :: ps) file
      = (OpenFile.create (cur.Find cfg p)).bind (fun DirectoryFile =>
          walk cfg d ((create cfg cfg.NumDirEntries).FetchFrom d DirectoryFile) ps
            (some DirectoryFile)) := by
  rw [walk]
  cases OpenFile.create (cur.Find cfg p) <;> rfl

/-- C17 as stated fails: `Add` stores the location it is given, also `-1`.  After
`Add("/a", -1)` on the empty table of capacity 10, `FindIndex("/a")` returns `0`
and `Find("/a")` returns `-1`, the location of that entry, so `Find` returns `-1`
although `FindIndex` does not. -/
theorem find_minus_one_location :
    ∃ root1, (create nachos 10).Add nachos (Disk.blank nachos) "/a".toList (-1)
        = .ok (true, root1, Disk.blank nachos) ∧
      root1.FindIndex nachos "/a".toList = 0 ∧ root1.Find nachos "/a".toList = -1 ∧
      ¬ (root1.Find nachos "/a".toList = -1 ↔ root1.FindIndex nachos "/a".toList = -1) := by
  refine ⟨(addFlat nachos (create nachos 10) "/a".toList (-1)).2, ?_, by decide, by decide,
    by decide⟩
  rw [Add_flat nachos _ _ _ (-1) (by decide)]
  have h1 : (addFlat nachos (create nachos 10) "/a".toList (-1)).1 = true := by decide
  rw [h1]

end Directory

end NachOS
